import Mathlib

/-!
Verification of the Sudoku reasoning core (board model, validator, auto-note
engine, backtracking enumerator, logical solver, byte-string serialisation).

The definitions below are a shallow embedding of the Rust sources:
  - src/game_board.rs          (GameBoard, CellValue, set, reset, auto_note, ...)
  - src/validity.rs            (SudokuCorrectness, SolutionsTree, Node)
  - src/advanced_solver/       (Solver, NakedSingle, HiddenSingle, NakedPair)
  - src/game_creator/byte_string_create_game.rs (ByteStringLoader)

A board mirrors the fixed array `cells: [[CellValue; SIZE]; SIZE]` as a list
of lists; the well-formedness predicate Wf pins the 9 by 9 shape that the
Rust type system provides for free.  Machine integers are modelled as Nat.
Rust array indexing panics when out of bounds; the model reads through getD
(with an inert default) and writes through List.set (which ignores an
out-of-bounds index).  No theorem below exercises an out-of-bounds index:
the claims all restrict digits to 1..=9 and indices to 0..=8.
-/

namespace Sudoku

/-- Mirrors the Rust enum NoteStatus with variants Maybe and Deny. -/
inductive NoteStatus where
  | Maybe
  | Deny
deriving DecidableEq, Repr

/-- The per-digit note flags of a Notes cell: mirrors
`status: [Option<NoteStatus>; 9]`. -/
abbrev NoteArray := List (Option NoteStatus)

/-- Mirrors the Rust enum CellValue with variants Preset, Value, Notes, Empty. -/
inductive CellValue where
  | Preset (v : Nat)
  | Value (v : Nat)
  | Notes (status : NoteArray)
  | Empty
deriving DecidableEq, Repr

/-- The all-unset note array (`[None; SIZE]`). -/
def noteArrayEmpty : NoteArray := List.replicate 9 none

/-- Reads `status[i]`. -/
def statusGet (s : NoteArray) (i : Nat) : Option NoteStatus := s.getD i none

/-- Writes `status[i] = v`. -/
def statusSet (s : NoteArray) (i : Nat) (v : Option NoteStatus) : NoteArray :=
  s.set i v

namespace CellValue

/-- Mirrors CellValue::as_value. -/
def as_value : CellValue → Option Nat
  | .Preset v => some v
  | .Value v => some v
  | .Notes _ => none
  | .Empty => none

/-- Mirrors CellValue::maybe_values: the digits i+1 whose status entry i is
Maybe, in ascending order, for a Notes cell. -/
def maybe_values : CellValue → Option (List Nat)
  | .Notes status =>
      some (status.enum.filterMap
        (fun p => if p.2 = some .Maybe then some (p.1 + 1) else none))
  | _ => none

/-- Mirrors CellValue::denied_values. -/
def denied_values : CellValue → Option (List Nat)
  | .Notes status =>
      some (status.enum.filterMap
        (fun p => if p.2 = some .Deny then some (p.1 + 1) else none))
  | _ => none

/-- Mirrors CellValue::is_or_maybe. -/
def is_or_maybe (c : CellValue) (val : Nat) : Bool :=
  match c with
  | .Preset v => v = val
  | .Value v => v = val
  | .Notes status => statusGet status (val - 1) = some .Maybe
  | .Empty => false

end CellValue

/-- Mirrors the Rust enum NoteMode (game_board_controller.rs). -/
inductive NoteMode where
  | Value
  | Maybe
  | Deny
deriving DecidableEq, Repr

/-- A cell index is a (column, row) pair, as in
`type CellIndex = (ColumnIndex, RowIndex)`. -/
abbrev CellIndex := Nat × Nat

/-- The game board: `cells[row][col]`. -/
abbrev GameBoard := List (List CellValue)

/-- The 9 by 9 shape guaranteed by the Rust array type. -/
def Wf (b : GameBoard) : Prop := b.length = 9 ∧ ∀ r ∈ b, r.length = 9

instance (b : GameBoard) : Decidable (Wf b) := by
  unfold Wf; infer_instance

namespace GameBoard

/-- Mirrors GameBoard::new: the all-Empty board. -/
def new : GameBoard := List.replicate 9 (List.replicate 9 .Empty)

/-- Mirrors GameBoard::cell_value: `&self.cells[ind.1][ind.0]`. -/
def cell_value (b : GameBoard) (ind : CellIndex) : CellValue :=
  (b.getD ind.2 []).getD ind.1 .Empty

/-- Point write `self.cells[r][c] = f (self.cells[r][c])`. -/
def mapCellAt (b : GameBoard) (r c : Nat) (f : CellValue → CellValue) :
    GameBoard :=
  b.set r ((b.getD r []).set c (f ((b.getD r []).getD c .Empty)))

/-- Point write `self.cells[ind.1][ind.0] = v`. -/
def updateCell (b : GameBoard) (ind : CellIndex) (v : CellValue) : GameBoard :=
  b.set ind.2 ((b.getD ind.2 []).set ind.1 v)

/-- Mirrors GameBoard::with_presets: `self.cells[y][x] = CellValue::Preset(val)`
for each entry ((x, y), val). -/
def with_presets (b : GameBoard) (presets : List ((Nat × Nat) × Nat)) :
    GameBoard :=
  presets.foldl (fun acc p => updateCell acc (p.1.1, p.1.2) (.Preset p.2)) b

/-- Clears digit val from a Notes cell (the body of the three peer-clearing
loops inside GameBoard::set for NoteMode::Value). -/
def clearNoteVal (c : CellValue) (val : Nat) : CellValue :=
  match c with
  | .Notes s => .Notes (statusSet s (val - 1) none)
  | c => c

/-- Mirrors GameBoard::set.  For NoteMode::Value the peer clearing walks the
row (`for cell in row_mut.cells`), then the column (`for i in 0..9`), then
the house `house_mut(ind.1 / 3, ind.0 / 3)` (which is the 3x3 box containing
the cell, visited as `for j in 0..3 { for i in 0..3 }`). -/
def set (b : GameBoard) (ind : CellIndex) (mode : NoteMode) (val : Nat) :
    GameBoard :=
  match b.cell_value ind with
  | .Preset _ => b
  | cell =>
    match mode with
    | .Value =>
      let b1 := updateCell b ind (.Value val)
      let b2 := (List.range 9).foldl
        (fun acc c => mapCellAt acc ind.2 c (fun cv => clearNoteVal cv val)) b1
      let b3 := (List.range 9).foldl
        (fun acc i => mapCellAt acc i ind.1 (fun cv => clearNoteVal cv val)) b2
      ((List.range 3).flatMap (fun j => (List.range 3).map (fun i => (j, i)))).foldl
        (fun acc p =>
          mapCellAt acc (ind.2 / 3 * 3 + p.1) (ind.1 / 3 * 3 + p.2)
            (fun cv => clearNoteVal cv val)) b3
    | .Maybe =>
      match cell with
      | .Notes status =>
          if statusGet status (val - 1) = some .Maybe then
            updateCell b ind (.Notes (statusSet status (val - 1) none))
          else
            updateCell b ind (.Notes (statusSet status (val - 1) (some .Maybe)))
      | .Empty =>
          updateCell b ind
            (.Notes (statusSet noteArrayEmpty (val - 1) (some .Maybe)))
      | _ => b
    | .Deny =>
      match cell with
      | .Notes status =>
          if statusGet status (val - 1) = some .Deny then
            updateCell b ind (.Notes (statusSet status (val - 1) none))
          else
            updateCell b ind (.Notes (statusSet status (val - 1) (some .Deny)))
      | .Empty =>
          updateCell b ind
            (.Notes (statusSet noteArrayEmpty (val - 1) (some .Deny)))
      | _ => b

/-- Mirrors GameBoard::reset: sets cell to Empty unless it is Preset. -/
def reset (b : GameBoard) (ind : CellIndex) : GameBoard :=
  match b.cell_value ind with
  | .Preset _ => b
  | _ => updateCell b ind .Empty

end GameBoard

/-- The (index, cell) pairs of row r, in the order of
Row::indices_and_cells: `((index, self.row_n), cell)` for index 0..9. -/
def rowCells (b : GameBoard) (r : Nat) : List (CellIndex × CellValue) :=
  (List.range 9).map (fun c => ((c, r), b.cell_value (c, r)))

/-- The (index, cell) pairs of column c, in the order of
Column::indices_and_cells: `((self.col_n, index), cell)` for index 0..9. -/
def colCells (b : GameBoard) (c : Nat) : List (CellIndex × CellValue) :=
  (List.range 9).map (fun r => ((c, r), b.cell_value (c, r)))

/-- The (index, cell) pairs of `house(x, y)`, in the order of
House::indices_and_cells.  As in the source, `start_row = x * 3` and
`start_column = y * 3` (the axes are conflated exactly as in the code). -/
def houseCells (b : GameBoard) (x y : Nat) : List (CellIndex × CellValue) :=
  (List.range 3).flatMap (fun j =>
    (List.range 3).map (fun i =>
      ((y * 3 + i, x * 3 + j), b.cell_value (y * 3 + i, x * 3 + j))))

/-- Mirrors SudokuCorrectness::indices_and_values: keeps the filled cells. -/
def indicesAndValues (cells : List (CellIndex × CellValue)) :
    List (CellIndex × Nat) :=
  cells.filterMap (fun p => (p.2.as_value).map (fun v => (p.1, v)))

/-- Mirrors `Result<Option<CellIndex>, ()>` from invalid_cells: a digit seen
never, once (at the recorded index), or more than once. -/
inductive FoundSt where
  | empty
  | one (i : CellIndex)
  | many
deriving DecidableEq

/-- The loop body of SudokuCorrectness::invalid_cells.  The source indexes
`found_array[(val - 1) as usize]` and would panic on a digit outside 1..=9;
the guard skips such digits and is never exercised by the theorems. -/
def invalidStep (st : List FoundSt × List CellIndex) (p : CellIndex × Nat) :
    List FoundSt × List CellIndex :=
  let k := p.2 - 1
  if k < 9 then
    match (st.1).getD k .many with
    | .empty => (st.1.set k (.one p.1), st.2)
    | .one old => (st.1.set k .many, st.2 ++ [old, p.1])
    | .many => (st.1, st.2 ++ [p.1])
  else st

/-- Mirrors SudokuCorrectness::invalid_cells for a component given as its
indices_and_cells list. -/
def invalid_cells (cells : List (CellIndex × CellValue)) : List CellIndex :=
  ((indicesAndValues cells).foldl invalidStep (List.replicate 9 .empty, [])).2

/-- Mirrors SudokuCorrectness::is_valid. -/
def isValidComp (cells : List (CellIndex × CellValue)) : Bool :=
  (invalid_cells cells).isEmpty

/-- Mirrors SudokuCorrectness::is_complete: every digit 1..=9 appears
exactly once among the filled cells. -/
def isCompleteComp (cells : List (CellIndex × CellValue)) : Bool :=
  let found := (indicesAndValues cells).foldl
    (fun (found : List Nat) p =>
      let k := p.2 - 1
      if k < 9 then found.set k (found.getD k 0 + 1) else found)
    (List.replicate 9 0)
  found.all (fun n => n = 1)

/-- Mirrors GameBoard::sudoku_components: all rows, then all columns, then
all houses; `houses()` yields `house(col, row)` for row-major (row, col). -/
def sudokuComponents (b : GameBoard) : List (List (CellIndex × CellValue)) :=
  ((List.range 9).map (fun r => rowCells b r)) ++
  ((List.range 9).map (fun c => colCells b c)) ++
  ((List.range 3).flatMap (fun row =>
    (List.range 3).map (fun col => houseCells b col row)))

namespace GameBoard

/-- Mirrors the SudokuCorrectness impl of GameBoard: the board is valid iff
every component is valid. -/
def is_valid (b : GameBoard) : Bool :=
  (sudokuComponents b).all isValidComp

/-- Mirrors is_complete for GameBoard: every component is complete. -/
def is_complete (b : GameBoard) : Bool :=
  (sudokuComponents b).all isCompleteComp

/-- Mirrors GameBoard::is_victory. -/
def is_victory (b : GameBoard) : Bool := b.is_valid && b.is_complete

/-- Mirrors GameBoard::iter_unset: the indices whose variant is Notes or
Empty, visited row-major (row outer, column inner). -/
def iter_unset (b : GameBoard) : List CellIndex :=
  (List.range 9).flatMap (fun row =>
    (List.range 9).filterMap (fun col =>
      match b.cell_value (col, row) with
      | .Preset _ => none
      | .Value _ => none
      | .Notes _ => some ((col, row) : CellIndex)
      | .Empty => some ((col, row) : CellIndex)))

end GameBoard

/-- Row-major list of all 81 cell indices, as walked by the nested loops
`for row in 0..9 { for column in 0..9 { ... (column, row) ... } }`. -/
def rowMajorIndices : List CellIndex :=
  (List.range 9).flatMap (fun row =>
    (List.range 9).map (fun col => ((col, row) : CellIndex)))

/-- The region check of AffectedComponents used by auto_note: the house
`house(index.1 / 3, index.0 / 3)`, the row and the column of the cell are
all valid.  (house(row / 3, col / 3) has start_row = (row/3)*3 and
start_column = (col/3)*3, i.e. it is the 3x3 box containing the cell.) -/
def affectedValid (b : GameBoard) (ind : CellIndex) : Bool :=
  isValidComp (houseCells b (ind.2 / 3) (ind.1 / 3)) &&
  isValidComp (rowCells b ind.2) &&
  isValidComp (colCells b ind.1)

/-- The digits 1..=9 that auto_note finds placeable at a cell: writing the
digit directly into the cell (`self.cells[row][column] = Value(val)`,
restored afterwards) keeps the affected house, row and column valid. -/
def validsAt (b : GameBoard) (ind : CellIndex) : List Nat :=
  (List.range' 1 9).filter
    (fun v => affectedValid (b.updateCell ind (.Value v)) ind)

namespace GameBoard

/-- The body of auto_note for one cell: if the cell has no concrete value,
compute the placeable digits, drop those already denied, drop those already
marked Maybe, and toggle Maybe on for each remaining digit via set. -/
def autoNoteCell (b : GameBoard) (ind : CellIndex) : GameBoard :=
  if (b.cell_value ind).as_value = none then
    let denies := ((b.cell_value ind).denied_values).getD []
    let maybes := ((b.cell_value ind).maybe_values).getD []
    let valid := ((validsAt b ind).filter (fun v => ¬ denies.contains v)).filter
      (fun v => ¬ maybes.contains v)
    valid.foldl (fun acc v => acc.set ind .Maybe v) b
  else b

/-- The cell loop of GameBoard::auto_note: before each cell the validity of
the whole board is re-checked; on invalidity the pass returns early. -/
def auto_note_go : GameBoard → List CellIndex → GameBoard
  | b, [] => b
  | b, ind :: rest =>
      if b.is_valid then auto_note_go (b.autoNoteCell ind) rest else b

/-- Mirrors GameBoard::auto_note. -/
def auto_note (b : GameBoard) : GameBoard := auto_note_go b rowMajorIndices

/-- Mirrors GameBoard::clear_notes: resets every Notes cell, row-major. -/
def clear_notes (b : GameBoard) : GameBoard :=
  rowMajorIndices.foldl
    (fun acc ind =>
      match acc.cell_value ind with
      | .Notes _ => acc.reset ind
      | _ => acc) b

/-- Mirrors GameBoard::as_byte_string, as the list of emitted byte values.
For each filled cell (row-major) two bytes encode col+1, row+1, value+1;
the stream ends with the two sentinel bytes 0x40 0x40. -/
def as_byte_string (b : GameBoard) : List Nat :=
  ((List.range 9).flatMap (fun row_n =>
    (List.range 9).flatMap (fun col_n =>
      match (b.cell_value (col_n, row_n)).as_value with
      | some value =>
          let col := col_n + 1
          let row := row_n + 1
          let val := value + 1
          [0x40 ||| (col <<< 2) ||| (row >>> 2),
           0x40 ||| ((row <<< 4) &&& 0b110000) ||| val]
      | none => []))) ++ [0x40, 0x40]

end GameBoard

/-- Mirrors CellBytes::new: mask the top two bits of each byte and join the
two 6-bit payloads into a 12-bit word. -/
def cellBytesNew (upper lower : Nat) : Nat :=
  (((upper &&& 0b111111) <<< 6) ||| (lower &&& 0b111111))

/-- The x field of CellBytes: bits 11..8. -/
def cbX (full : Nat) : Nat := (full >>> 8) &&& 0b1111

/-- The y field of CellBytes: bits 7..4. -/
def cbY (full : Nat) : Nat := (full >>> 4) &&& 0b1111

/-- The val field of CellBytes: bits 3..0. -/
def cbVal (full : Nat) : Nat := full &&& 0b1111

/-- The read loop of ByteStringLoader::into_game: consume byte pairs until
the zero-payload sentinel, collecting ((x-1, y-1), val-1) entries. -/
def intoGameLoop : List Nat → List ((Nat × Nat) × Nat) →
    Except String (List ((Nat × Nat) × Nat))
  | [], _ => .error "Iterator empty when not expected"
  | [_], _ => .error "Iterator empty when not expected"
  | upper :: lower :: rest, acc =>
    let full := cellBytesNew upper lower
    if full = 0 then .ok acc
    else intoGameLoop rest
      (acc ++ [((cbX full - 1, cbY full - 1), cbVal full - 1)])

/-- Mirrors ByteStringLoader::into_game. -/
def byteStringIntoGame (bytes : List Nat) : Except String GameBoard :=
  if bytes.length % 2 ≠ 0 then
    .error "Odd number of bytes present in byte string"
  else
    (intoGameLoop bytes []).map (fun v => GameBoard.new.with_presets v)

/-! ## The Solutions Tree (validity.rs) -/

/-- `MAX_SOLUTION_SIZE` from validity.rs. -/
def MAX_SOLUTION_SIZE : Nat := 128

/-- Mirrors the Node struct and NodeType enum of validity.rs.  The children
HashMap is modelled as an association list; Node::solve_helper inserts keys
in ascending digit order 1..=9, and the model preserves that insertion
order.  Lookup is by key, and num_solutions sums over all entries, so both
are insensitive to the map's iteration order. -/
inductive NodeT where
  | Leaf (board : GameBoard)
  | Branch (board : GameBoard) (next_cell : CellIndex)
      (children : List (Nat × NodeT))

/-- The cell scan of Node::solve_helper:
`for j in 0..9 { for i in 0..9 { let index = (j, i); ... } }`, stopping at
the first index whose cell has no concrete value.  Since CellIndex is
(column, row), the outer variable j is the column: the scan is
column-major. -/
def firstUnsetScan (b : GameBoard) : Option CellIndex :=
  (((List.range 9).flatMap (fun j =>
    (List.range 9).map (fun i => ((j, i) : CellIndex)))).find?
    (fun ind => ((b.cell_value ind).as_value).isNone))

/-- The digit loop `for val in 1..=9` of Node::solve_helper, threading the
shared counter; `rec` is the recursive call at one unit less fuel.  After
each digit (even a pruned one) the counter bound is re-checked and the loop
breaks when it is reached (the wall-clock deadline of the source is not
modelled; claims that depend on it set the time budget aside). -/
def solveVals (rec : GameBoard → Nat → Option NodeT × Nat)
    (board : GameBoard) (ci : CellIndex) :
    List Nat → Nat → List (Nat × NodeT) × Nat
  | [], counter => ([], counter)
  | val :: rest, counter =>
    match (if (board.updateCell ci (.Value val)).is_valid
           then rec (board.updateCell ci (.Value val)) counter
           else (none, counter)) with
    | (childOpt, c1) =>
      match childOpt with
      | some child =>
        if MAX_SOLUTION_SIZE ≤ c1 then ([(val, child)], c1)
        else
          match solveVals rec board ci rest c1 with
          | (restChildren, c2) => ((val, child) :: restChildren, c2)
      | none =>
        if MAX_SOLUTION_SIZE ≤ c1 then ([], c1)
        else solveVals rec board ci rest c1

/-- Mirrors Node::solve_helper (with the timeout dropped).  With enough fuel
the recursion never exhausts it: every recursive call fills one previously
unfilled cell, so fuel 82 always suffices. -/
def solveHelperF : Nat → GameBoard → Nat → Option NodeT × Nat
  | 0, _, counter => (none, counter)
  | fuel + 1, board, counter =>
    if MAX_SOLUTION_SIZE ≤ counter then (none, counter)
    else
      match firstUnsetScan board with
      | some cell_index =>
        match solveVals (fun b c => solveHelperF fuel b c) board cell_index
          (List.range' 1 9) counter with
        | ([], c1) => (none, c1)
        | (children, c1) => (some (.Branch board cell_index children), c1 + 1)
      | none =>
        if board.is_valid && board.is_complete then
          (some (.Leaf board), counter + 1)
        else (none, counter)

namespace SolutionsTree

/-- Mirrors SolutionsTree::solve: run Node::solve with a fresh counter and
discard the result when the counter reached MAX_SOLUTION_SIZE. -/
def solve (board : GameBoard) : Option NodeT :=
  match solveHelperF 82 board 0 with
  | (maybe_ret, counter) =>
    if MAX_SOLUTION_SIZE ≤ counter then none else maybe_ret

end SolutionsTree

mutual

/-- Mirrors Node::leaves: the number of leaves below a node. -/
def NodeT.leaves : NodeT → Nat
  | .Leaf _ => 1
  | .Branch _ _ children => leavesSum children

/-- Sum of Node::leaves over the children map values. -/
def leavesSum : List (Nat × NodeT) → Nat
  | [] => 0
  | p :: rest => p.2.leaves + leavesSum rest

end

mutual

/-- The boards at the leaves below a node, children in insertion
(ascending-digit) order.  Auxiliary notion used to state which boards the
tree enumerates. -/
def NodeT.leafBoards : NodeT → List GameBoard
  | .Leaf b => [b]
  | .Branch _ _ children => leafBoardsList children

/-- Concatenation of leafBoards over a children list. -/
def leafBoardsList : List (Nat × NodeT) → List GameBoard
  | [] => []
  | p :: rest => p.2.leafBoards ++ leafBoardsList rest

end

mutual

/-- The total number of nodes (branches and leaves) of a tree: exactly the
number of times Node::solve_helper increments the shared counter while
building it. -/
def NodeT.size : NodeT → Nat
  | .Leaf _ => 1
  | .Branch _ _ children => sizeList children + 1

/-- Sum of NodeT.size over a children list. -/
def sizeList : List (Nat × NodeT) → Nat
  | [] => 0
  | p :: rest => p.2.size + sizeList rest

end

/-- children.get(&k) on the association-list model. -/
def childLookup (children : List (Nat × NodeT)) (k : Nat) : Option NodeT :=
  (children.find? (fun p => p.1 == k)).map Prod.snd

/-- The scan `for i in 1..=9 { if let Some(next) = children.get(&i) ... }`
of Node::first_solution. -/
def firstChild (children : List (Nat × NodeT)) : Option NodeT :=
  (List.range' 1 9).findSome? (fun i => childLookup children i)

/-- Mirrors Node::first_solution, fuelled.  On a Branch whose children have
no key in 1..=9 the source hits unreachable!; the model returns the node's
own board on that (never constructed) shape, and likewise on fuel
exhaustion, which cannot happen for trees built with fuel 82. -/
def firstSolutionF : Nat → NodeT → GameBoard
  | 0, .Leaf b => b
  | 0, .Branch b _ _ => b
  | _ + 1, .Leaf b => b
  | fuel + 1, .Branch b _ children =>
    match firstChild children with
    | some next => firstSolutionF fuel next
    | none => b

namespace SolutionsTree

/-- Mirrors SolutionsTree::num_solutions. -/
def num_solutions (t : NodeT) : Nat := t.leaves

/-- Mirrors SolutionsTree::solution (the first solution of the head node). -/
def solution (t : NodeT) : GameBoard := firstSolutionF 82 t

end SolutionsTree

/-! ## The logical solver (advanced_solver) -/

/-- Outcome of one Technique::apply_to call.  `panic` models a Rust panic
(here always an Option::unwrap on None or an out-of-bounds slice index). -/
inductive TechResult where
  | ok (b : GameBoard)
  | err
  | panic

/-- The cell loop of NakedSingle::apply_to over iter_unset.  The unwrap of
maybe_values is guarded by the Notes pattern match, so it cannot fire. -/
def nakedSingleGo (b : GameBoard) : List CellIndex → TechResult
  | [] => .err
  | ind :: rest =>
    match b.cell_value ind with
    | .Notes status =>
      match (CellValue.Notes status).maybe_values with
      | some [val] => .ok (b.set ind .Value val)
      | some _ => nakedSingleGo b rest
      | none => .panic
    | _ => nakedSingleGo b rest

/-- Mirrors NakedSingle::apply_to. -/
def nakedSingleApply (b : GameBoard) : TechResult :=
  nakedSingleGo b b.iter_unset

/-- Sum over a component of `if cell.is_or_maybe(v) { 1 } else { 0 }`. -/
def countOrMaybe (cells : List (CellIndex × CellValue)) (v : Nat) : Nat :=
  (cells.map (fun p => if p.2.is_or_maybe v then 1 else 0)).sum

/-- The candidate loop of HiddenSingle::apply_to for one unset cell; cont is
the (lazily equivalent) continuation over the remaining unset cells. -/
def hiddenSingleVals (b : GameBoard) (ind : CellIndex) (cont : TechResult) :
    List Nat → TechResult
  | [] => cont
  | maybe :: more =>
    if countOrMaybe (rowCells b ind.2) maybe = 1 then
      .ok (b.set ind .Value maybe)
    else if countOrMaybe (colCells b ind.1) maybe = 1 then
      .ok (b.set ind .Value maybe)
    else if countOrMaybe (houseCells b (ind.2 / 3) (ind.1 / 3)) maybe = 1 then
      .ok (b.set ind .Value maybe)
    else hiddenSingleVals b ind cont more

/-- The cell loop of HiddenSingle::apply_to over iter_unset.  The source
calls `cell.maybe_values().unwrap()` without checking the variant: on a cell
that is not Notes (iter_unset also yields Empty cells) the unwrap panics. -/
def hiddenSingleGo (b : GameBoard) : List CellIndex → TechResult
  | [] => .err
  | ind :: rest =>
    match (b.cell_value ind).maybe_values with
    | none => .panic
    | some maybes => hiddenSingleVals b ind (hiddenSingleGo b rest) maybes

/-- Mirrors HiddenSingle::apply_to. -/
def hiddenSingleApply (b : GameBoard) : TechResult :=
  hiddenSingleGo b b.iter_unset

/-- Appends a cell index under its maybe-pair key, as the HashMap
entry(...).or_default().push(...) of NakedPair::find_pair.  The source
iterates the finished HashMap in an unspecified order; the model keeps
first-insertion order. -/
def pairPush (m : List ((Nat × Nat) × List CellIndex)) (k : Nat × Nat)
    (i : CellIndex) : List ((Nat × Nat) × List CellIndex) :=
  match m with
  | [] => [(k, [i])]
  | e :: rest => if e.1 = k then (e.1, e.2 ++ [i]) :: rest
      else e :: pairPush rest k i

/-- Mirrors NakedPair::find_pair. -/
def findPair (cells : List (CellIndex × CellValue)) :
    Option (CellIndex × CellIndex) :=
  let mapping := cells.foldl
    (fun m p =>
      match p.2.maybe_values with
      | some [v1, v2] => pairPush m (v1, v2) p.1
      | _ => m)
    []
  mapping.findSome? (fun e =>
    match e.2 with
    | [i1, i2] => some (i1, i2)
    | _ => none)

/-- Outcome of NakedPair::enforce (Option<GameBoard> in the source, plus the
panic of `board[pair.0].maybe_values().unwrap()` / values[0] / values[1]). -/
inductive EnforceRes where
  | changed (b : GameBoard)
  | unchanged
  | panic

/-- Mirrors NakedPair::enforce over a component.  The eliminations read the
original board through comp but write to the cloned next_board. -/
def enforce (pair : CellIndex × CellIndex) (b : GameBoard)
    (comp : List (CellIndex × CellValue)) : EnforceRes :=
  match (b.cell_value pair.1).maybe_values with
  | none => .panic
  | some values =>
    match values with
    | v0 :: v1 :: _ =>
      let step := comp.foldl
        (fun (st : GameBoard × Bool) p =>
          if p.1 ≠ pair.1 ∧ p.1 ≠ pair.2 then
            match p.2.maybe_values with
            | some maybes =>
              if maybes.contains v0 || maybes.contains v1 then
                (((st.1.set p.1 .Deny v0).set p.1 .Deny v1), true)
              else st
            | none => st
          else st)
        (b, false)
      if step.2 then .changed step.1 else .unchanged
    | _ => .panic

/-- The row/column/house loops of NakedPair::apply_to over a list of
components: on each component with a pair, try to enforce it; continue on
no-elimination, return on success, propagate a panic. -/
def nakedPairComps (b : GameBoard)
    (mk : CellIndex → List (CellIndex × CellValue)) :
    List (List (CellIndex × CellValue)) → TechResult
  | [] => .err
  | comp :: rest =>
    match findPair comp with
    | some pair =>
      match enforce pair b (mk pair.1) with
      | .changed b2 => .ok b2
      | .unchanged => nakedPairComps b mk rest
      | .panic => .panic
    | none => nakedPairComps b mk rest

/-- Mirrors NakedPair::apply_to: rows (enforcing over the affected row of
the pair's first cell), then columns, then houses. -/
def nakedPairApply (b : GameBoard) : TechResult :=
  match nakedPairComps b (fun i => rowCells b i.2)
      ((List.range 9).map (fun r => rowCells b r)) with
  | .ok b2 => .ok b2
  | .panic => .panic
  | .err =>
    match nakedPairComps b (fun i => colCells b i.1)
        ((List.range 9).map (fun c => colCells b c)) with
    | .ok b2 => .ok b2
    | .panic => .panic
    | .err =>
      nakedPairComps b (fun i => houseCells b (i.2 / 3) (i.1 / 3))
        ((List.range 3).flatMap (fun row =>
          (List.range 3).map (fun col => houseCells b col row)))

/-- Mirrors the Difficulty enum. -/
inductive Difficulty where
  | Easy
  | Medium
  | Hard
  | Expert
  | Pro
deriving DecidableEq, Repr

/-- Mirrors From<u64> for Difficulty. -/
def difficultyFrom (points : Nat) : Difficulty :=
  if points ≤ 999 then .Easy
  else if points ≤ 1999 then .Medium
  else if points ≤ 2999 then .Hard
  else if points ≤ 3999 then .Expert
  else .Pro

/-- Mirrors the Solution struct. -/
structure Solution where
  solved_board : GameBoard
  points : Nat
  difficulty : Difficulty
  moves : List (String × String)

/-- Result of Solver::solve: Ok(Solution), Err(partial board), or a Rust
panic raised by a technique. -/
inductive SolverResult where
  | ok (s : Solution)
  | err (b : GameBoard)
  | panic

/-- The solver's technique table after the stable sort by points: the
constructor order NakedSingle (5), HiddenSingle (10), NakedPair (50) is
already ascending, so the sort keeps it. -/
def techniques : List ((GameBoard → TechResult) × Nat × String × String) :=
  [(nakedSingleApply, 5, "nkds", "Naked Single"),
   (hiddenSingleApply, 10, "hdns", "Hidden Single"),
   (nakedPairApply, 50, "nkpr", "Naked Pair")]

/-- Result of one walk through the technique list. -/
inductive WalkRes where
  | applied (b : GameBoard) (points : Nat) (shortName longName : String)
  | failed
  | panic

/-- One walk through the technique list: first success wins. -/
def walkOnce (b : GameBoard) :
    List ((GameBoard → TechResult) × Nat × String × String) → WalkRes
  | [] => .failed
  | t :: ts =>
    match t.1 b with
    | .ok b2 => .applied b2 t.2.1 t.2.2.1 t.2.2.2
    | .err => walkOnce b ts
    | .panic => .panic

/-- The `while cont` driver loop of Solver::solve.  The wall-clock deadline
is modelled as fuel: each successful application consumes one unit, and on
exhaustion the loop stops with its current state, as the deadline does. -/
def solverLoop : Nat → GameBoard → Nat → List (String × String) →
    Option (GameBoard × Nat × List (String × String))
  | 0, b, pts, mv => some (b, pts, mv)
  | fuel + 1, b, pts, mv =>
    match walkOnce b techniques with
    | .applied b2 p s l => solverLoop fuel b2 (pts + p) (mv ++ [(s, l)])
    | .failed => some (b, pts, mv)
    | .panic => none

/-- Mirrors Solver::solve: clone, clear notes, auto-note, run the technique
loop, then return Ok(Solution) on victory and Err(partial board)
otherwise.  A technique panic aborts the call. -/
def solverSolve (fuel : Nat) (board : GameBoard) : SolverResult :=
  let start := (board.clear_notes).auto_note
  match solverLoop fuel start 0 [] with
  | none => .panic
  | some (b, pts, mv) =>
    if b.is_victory then .ok ⟨b, pts, difficultyFrom pts, mv⟩
    else .err b

/-! ## Test fixtures -/

/-- Builds a board of Value cells from a digit matrix; 0 denotes Empty. -/
def boardOfDigits (l : List (List Nat)) : GameBoard :=
  l.map (fun row => row.map
    (fun v => if v = 0 then CellValue.Empty else CellValue.Value v))

/-- Test board for the solver: two clashing 1s in row 0, everything else
empty, so the working board is never valid. -/
def c5Board : GameBoard := boardOfDigits
  [[1,1,0,0,0,0,0,0,0],
   [0,0,0,0,0,0,0,0,0],
   [0,0,0,0,0,0,0,0,0],
   [0,0,0,0,0,0,0,0,0],
   [0,0,0,0,0,0,0,0,0],
   [0,0,0,0,0,0,0,0,0],
   [0,0,0,0,0,0,0,0,0],
   [0,0,0,0,0,0,0,0,0],
   [0,0,0,0,0,0,0,0,0]]

mutual

/-- Branch-scan invariant of a solutions tree: at every Branch node the
recorded next_cell is exactly what the cell scan of Node::solve_helper
returns on that node's board. -/
def NodeT.scanOk : NodeT → Bool
  | .Leaf _ => true
  | .Branch b ci ch => (firstUnsetScan b == some ci) && scanOkList ch

/-- scanOk over a children list. -/
def scanOkList : List (Nat × NodeT) → Bool
  | [] => true
  | p :: rest => p.2.scanOk && scanOkList rest

end

/-- scanOk lifted to the optional result of SolutionsTree::solve. -/
def rootScanOk : Option NodeT → Bool
  | none => true
  | some t => t.scanOk

/-- The next_cell recorded at the root of a solutions tree, if the root is
a Branch. -/
def rootNextCell : Option NodeT → Option CellIndex
  | some (.Branch _ ci _) => some ci
  | _ => none

/-- The cell scan as the specification words it: the first cell without a
concrete value in row-major order (row 0 left to right, then row 1, ...).
Written from the spec, for comparison with firstUnsetScan. -/
def rowMajorFirstUnset (b : GameBoard) : Option CellIndex :=
  rowMajorIndices.find? (fun ind => ((b.cell_value ind).as_value).isNone)

/-- The canonical cyclic complete grid (digit at (col, row) is
(col + 3*(row mod 3) + row / 3) mod 9 + 1) with the two cells (1, 0) and
(0, 1) erased.  Row-major the first unfilled cell is (1, 0) (row 0,
column 1); the scan of Node::solve_helper reaches (0, 1) first (column 0,
row 1). -/
def cexC7 : GameBoard := boardOfDigits
  [[1,0,3,4,5,6,7,8,9],
   [0,5,6,7,8,9,1,2,3],
   [7,8,9,1,2,3,4,5,6],
   [2,3,4,5,6,7,8,9,1],
   [5,6,7,8,9,1,2,3,4],
   [8,9,1,2,3,4,5,6,7],
   [3,4,5,6,7,8,9,1,2],
   [6,7,8,9,1,2,3,4,5],
   [9,1,2,3,4,5,6,7,8]]

/-- Agreement with the filled cells of the input board: every cell that has
a concrete value in b keeps exactly that value in L.  (Preset and Value
cells are the cells with a concrete value.) -/
def agreesWith (b L : GameBoard) : Prop :=
  ∀ p : CellIndex, p.1 < 9 → p.2 < 9 →
    ∀ v, (b.cell_value p).as_value = some v →
      (L.cell_value p).as_value = some v

mutual

/-- Height of a solutions tree (leaves count 1).  Trees built with fuel f
have depth at most f. -/
def NodeT.depth : NodeT → Nat
  | .Leaf _ => 1
  | .Branch _ _ ch => depthList ch + 1

/-- Maximum NodeT.depth over a children list. -/
def depthList : List (Nat × NodeT) → Nat
  | [] => 0
  | p :: rest => max p.2.depth (depthList rest)

end

mutual

/-- Structural invariant of trees built by Node::solve_helper: every Branch
has a non-empty children map and every key is a digit 1..=9 (so the key
scan of Node::first_solution always finds a child). -/
def NodeT.goodShape : NodeT → Bool
  | .Leaf _ => true
  | .Branch _ _ ch => (!ch.isEmpty) && goodShapeList ch

/-- goodShape over a children list, with the key range check. -/
def goodShapeList : List (Nat × NodeT) → Bool
  | [] => true
  | p :: rest => (decide (1 ≤ p.1 ∧ p.1 ≤ 9)) && p.2.goodShape
      && goodShapeList rest

end

/-- The per-cell shape invariant of the Rust array type
`status: [Option<NoteStatus>; 9]`: a Notes status list has length 9. -/
def cellNotesWf : CellValue → Bool
  | .Notes s => s.length == 9
  | _ => true

/-- Every cell of the board satisfies cellNotesWf (guaranteed by the Rust
types, an assumption of the model for boards given from outside). -/
def NotesWfB (b : GameBoard) : Bool :=
  rowMajorIndices.all (fun p => cellNotesWf (b.cell_value p))

/-- Two boards hold the same concrete values everywhere (they may differ in
notes).  All validity notions depend only on this data. -/
def sameValues (b1 b2 : GameBoard) : Prop :=
  ∀ p : CellIndex, p.1 < 9 → p.2 < 9 →
    (b1.cell_value p).as_value = (b2.cell_value p).as_value

/-- The per-digit flag of a cell: the status entry for digit v of a Notes
cell, none for every other variant. -/
def flagOf (c : CellValue) (v : Nat) : Option NoteStatus :=
  match c with
  | .Notes s => statusGet s (v - 1)
  | _ => none

/-- The canonical cyclic complete grid: digit at (col, row) is
(col + 3*(row mod 3) + row / 3) mod 9 + 1.  A complete valid board. -/
def canonGrid : GameBoard := boardOfDigits
  [[1,2,3,4,5,6,7,8,9],
   [4,5,6,7,8,9,1,2,3],
   [7,8,9,1,2,3,4,5,6],
   [2,3,4,5,6,7,8,9,1],
   [5,6,7,8,9,1,2,3,4],
   [8,9,1,2,3,4,5,6,7],
   [3,4,5,6,7,8,9,1,2],
   [6,7,8,9,1,2,3,4,5],
   [9,1,2,3,4,5,6,7,8]]

/-- The found-array/processed-prefix relation maintained by the
invalid_cells fold: entry k records whether digit k+1 was seen zero times,
exactly once (with the index), or more than once. -/
def FoundRep (found : List FoundSt) (P : List Nat) : Prop :=
  found.length = 9 ∧
  ∀ k, k < 9 →
    (found.getD k .many = .empty ↔ P.count (k + 1) = 0) ∧
    ((∃ i, found.getD k .many = .one i) ↔ P.count (k + 1) = 1) ∧
    (found.getD k .many = .many ↔ 2 ≤ P.count (k + 1))

/-- The concrete digits of the cells at the given indices. -/
def digitsOf (b : GameBoard) (idxs : List CellIndex) : List Nat :=
  idxs.filterMap (fun p => (b.cell_value p).as_value)

/-- The indices of row r, in scan order. -/
def rowIdxs (r : Nat) : List CellIndex :=
  (List.range 9).map (fun c => (c, r))

/-- The indices of column c, in scan order. -/
def colIdxs (c : Nat) : List CellIndex :=
  (List.range 9).map (fun r => (c, r))

/-- The indices of house(x, y), in scan order (start_row = x*3,
start_column = y*3, exactly as in the source). -/
def houseIdxs (x y : Nat) : List CellIndex :=
  (List.range 3).flatMap (fun j =>
    (List.range 3).map (fun i => (y * 3 + i, x * 3 + j)))

/-- The cheap placement test: digit val does not already occur in the row,
column, or house of ci.  On valid well-shaped boards this is equivalent to
re-running the full validity check after writing Value(val) at ci. -/
def okPlace (b : GameBoard) (ci : CellIndex) (val : Nat) : Bool :=
  !((digitsOf b (rowIdxs ci.2)).contains val) &&
  !((digitsOf b (colIdxs ci.1)).contains val) &&
  !((digitsOf b (houseIdxs (ci.2 / 3) (ci.1 / 3))).contains val)

/-- The unbounded solutions tree: Node::solve_helper with the counter and
the deadline stripped out.  Same scan, same candidate test, same leaf
condition; what the bounded run would build if the budget never bit. -/
def enumTreeF : Nat → GameBoard → Option NodeT
  | 0, _ => none
  | fuel + 1, board =>
    match firstUnsetScan board with
    | some ci =>
      match (List.range' 1 9).filterMap (fun val =>
        if (board.updateCell ci (.Value val)).is_valid then
          (enumTreeF fuel (board.updateCell ci (.Value val))).map
            (fun t => (val, t))
        else none) with
      | [] => none
      | children => some (.Branch board ci children)
    | none =>
      if board.is_valid && board.is_complete then some (.Leaf board)
      else none

/-- The unbounded solutions tree with the cheap candidate test okPlace in
place of the full validity re-check; equal to enumTreeF on valid
well-shaped boards, and fast enough to evaluate. -/
def enumFastF : Nat → GameBoard → Option NodeT
  | 0, _ => none
  | fuel + 1, board =>
    match firstUnsetScan board with
    | some ci =>
      match (List.range' 1 9).filterMap (fun val =>
        if okPlace board ci val then
          (enumFastF fuel (board.updateCell ci (.Value val))).map
            (fun t => (val, t))
        else none) with
      | [] => none
      | children => some (.Branch board ci children)
    | none =>
      if board.is_valid && board.is_complete then some (.Leaf board)
      else none

/-- The children list the unbounded construction produces for the digit
candidates vals at branch cell ci. -/
def treeChildren (fuel : Nat) (board : GameBoard) (ci : CellIndex)
    (vals : List Nat) : List (Nat × NodeT) :=
  vals.filterMap (fun val =>
    if (board.updateCell ci (.Value val)).is_valid then
      (enumTreeF fuel (board.updateCell ci (.Value val))).map
        (fun t => (val, t))
    else none)

/-- Leaf count of an optional tree (0 for none). -/
def optLeaves : Option NodeT → Nat
  | none => 0
  | some t => t.leaves

/-- Node count of an optional tree (0 for none). -/
def optSize : Option NodeT → Nat
  | none => 0
  | some t => t.size

/-- Leaf boards of an optional tree ([] for none). -/
def optLeafBoards : Option NodeT → List GameBoard
  | none => []
  | some t => t.leafBoards

/-- L is a completion of b: a well-shaped, valid, complete board that keeps
every concretely filled cell of b verbatim and fills every other cell with
a Value digit 1..=9.  Completions are in bijection with the solutions of
the puzzle b. -/
def isCompletionB (b L : GameBoard) : Prop :=
  Wf L ∧ GameBoard.is_valid L = true ∧ GameBoard.is_complete L = true ∧
  ∀ p : CellIndex, p.1 < 9 → p.2 < 9 →
    (((b.cell_value p).as_value).isSome = true →
      L.cell_value p = b.cell_value p) ∧
    ((b.cell_value p).as_value = none →
      ∃ v, L.cell_value p = .Value v ∧ 1 ≤ v ∧ v ≤ 9)

/-- Number of cells without a concrete value. -/
def unsetCount (b : GameBoard) : Nat :=
  (rowMajorIndices.filter (fun p => ((b.cell_value p).as_value).isNone)).length

/-- The canonical cyclic grid with rows 0 and 1 fully erased and one more
cell (column 2 of row 2) erased: the board has exactly 8 completions, but
its full solutions tree has 133 nodes (branches and leaves together) —
over the 128-node budget of the bounded construction, so solve gives up
even though the number of solutions is far below MAX_SOLUTIONS. -/
def cexB : GameBoard := boardOfDigits
  [[0,0,0,0,0,0,0,0,0],
   [0,0,0,0,0,0,0,0,0],
   [7,8,0,1,2,3,4,5,6],
   [2,3,4,5,6,7,8,9,1],
   [5,6,7,8,9,1,2,3,4],
   [8,9,1,2,3,4,5,6,7],
   [3,4,5,6,7,8,9,1,2],
   [6,7,8,9,1,2,3,4,5],
   [9,1,2,3,4,5,6,7,8]]

/-! ## Basic board lemmas -/

theorem wf_new : Wf GameBoard.new := by decide

theorem getD_set_self {α : Type} {l : List α} {i : Nat} (v d : α)
    (h : i < l.length) : (l.set i v).getD i d = v := by
  simp [List.getD_eq_getElem?_getD, List.getElem?_set_self, h]

theorem getD_set_ne {α : Type} {l : List α} {i j : Nat} (v d : α)
    (h : i ≠ j) : (l.set i v).getD j d = l.getD j d := by
  simp [List.getD_eq_getElem?_getD, List.getElem?_set_ne, h]

theorem getD_mem_of_lt {α : Type} {l : List α} {i : Nat} (d : α)
    (h : i < l.length) : l.getD i d ∈ l := by
  rw [List.getD_eq_getElem?_getD, List.getElem?_eq_getElem h]
  exact List.getElem_mem h

theorem row_length {b : GameBoard} (hwf : Wf b) (r : Nat) (hr : r < 9) :
    (b.getD r []).length = 9 :=
  hwf.2 _ (getD_mem_of_lt [] (by rw [hwf.1]; omega))

theorem wf_updateCell {b : GameBoard} (hwf : Wf b) (ind : CellIndex)
    (v : CellValue) : Wf (b.updateCell ind v) := by
  obtain ⟨hlen, hrows⟩ := hwf
  refine ⟨by simp [GameBoard.updateCell, hlen], ?_⟩
  intro r hr
  rcases Nat.lt_or_ge ind.2 b.length with h2 | h2
  · rcases List.mem_or_eq_of_mem_set hr with h | h
    · exact hrows r h
    · subst h
      have hrl := hrows _ (getD_mem_of_lt ([] : List CellValue) h2)
      simpa [List.length_set] using hrl
  · rw [GameBoard.updateCell, List.set_eq_of_length_le (by omega)] at hr
    exact hrows r hr

theorem wf_mapCellAt {b : GameBoard} (hwf : Wf b) (r c : Nat)
    (f : CellValue → CellValue) : Wf (b.mapCellAt r c f) :=
  wf_updateCell hwf ((c, r) : CellIndex) _

theorem cell_value_updateCell {b : GameBoard} (hwf : Wf b)
    (ind p : CellIndex) (hi2 : ind.2 < 9)
    (hp1 : p.1 < 9) (hp2 : p.2 < 9) (v : CellValue) :
    (b.updateCell ind v).cell_value p =
      if p = ind then v else b.cell_value p := by
  have hb9 : b.length = 9 := hwf.1
  have hblen : ind.2 < b.length := by omega
  have hrowlen : (b.getD ind.2 []).length = 9 := row_length hwf ind.2 hi2
  rcases Decidable.em (p.2 = ind.2) with h2 | h2
  · rcases Decidable.em (p.1 = ind.1) with h1 | h1
    · have he : p = ind := Prod.ext h1 h2
      simp only [GameBoard.updateCell, GameBoard.cell_value, if_pos he, h2, h1]
      rw [getD_set_self _ _ hblen, getD_set_self _ _ (by omega)]
    · have he : p ≠ ind := by
        intro he; exact h1 (by rw [he])
      simp only [GameBoard.updateCell, GameBoard.cell_value, if_neg he, h2]
      rw [getD_set_self _ _ hblen, getD_set_ne _ _ (by omega)]
  · have he : p ≠ ind := by
      intro he; exact h2 (by rw [he])
    simp only [GameBoard.updateCell, GameBoard.cell_value, if_neg he]
    rw [getD_set_ne _ _ (by omega)]

theorem cell_value_mapCellAt {b : GameBoard} (hwf : Wf b)
    (r c : Nat) (hr : r < 9) (p : CellIndex)
    (hp1 : p.1 < 9) (hp2 : p.2 < 9) (f : CellValue → CellValue) :
    (b.mapCellAt r c f).cell_value p =
      if p = (c, r) then f (b.cell_value (c, r)) else b.cell_value p := by
  have := cell_value_updateCell hwf (c, r) p hr hp1 hp2
    (f ((b.getD r []).getD c .Empty))
  simpa [GameBoard.mapCellAt, GameBoard.updateCell, GameBoard.cell_value]
    using this

theorem statusGet_statusSet_self_none (s : NoteArray) (i : Nat) :
    statusGet (statusSet s i none) i = none := by
  unfold statusGet statusSet
  rcases Nat.lt_or_ge i s.length with h | h
  · exact getD_set_self none none h
  · rw [List.set_eq_of_length_le h, List.getD_eq_getElem?_getD,
      List.getElem?_eq_none h]
    rfl

theorem statusGet_statusSet_ne (s : NoteArray) {i j : Nat}
    (v : Option NoteStatus) (h : i ≠ j) :
    statusGet (statusSet s i v) j = statusGet s j := by
  unfold statusGet statusSet
  exact getD_set_ne v none h

theorem statusGet_noteArrayEmpty (k : Nat) :
    statusGet noteArrayEmpty k = none := by
  unfold statusGet noteArrayEmpty
  rw [List.getD_eq_getElem?_getD, List.getElem?_replicate]
  split <;> rfl

theorem wf_foldl_mapCellAt {γ : Type} (f : CellValue → CellValue)
    (rf cf : γ → Nat) (l : List γ) {b : GameBoard} (hwf : Wf b) :
    Wf (l.foldl (fun acc a => acc.mapCellAt (rf a) (cf a) f) b) := by
  induction l generalizing b with
  | nil => exact hwf
  | cons hd tl ih => exact ih (wf_mapCellAt hwf _ _ f)

theorem cell_value_foldl_mapCellAt {γ : Type}
    (f : CellValue → CellValue) (hf : ∀ c, f (f c) = f c)
    (rf cf : γ → Nat) (l : List γ)
    (hl : ∀ a ∈ l, rf a < 9 ∧ cf a < 9)
    {b : GameBoard} (hwf : Wf b) (p : CellIndex)
    (hp1 : p.1 < 9) (hp2 : p.2 < 9) :
    (l.foldl (fun acc a => acc.mapCellAt (rf a) (cf a) f) b).cell_value p =
      if ∃ a ∈ l, p.2 = rf a ∧ p.1 = cf a
      then f (b.cell_value p) else b.cell_value p := by
  induction l generalizing b with
  | nil => simp
  | cons hd tl ih =>
    have hhd := hl hd (List.mem_cons_self _ _)
    have h1 : Wf (b.mapCellAt (rf hd) (cf hd) f) := wf_mapCellAt hwf _ _ f
    rw [List.foldl_cons,
      ih (fun a ha => hl a (List.mem_cons_of_mem _ ha)) h1,
      cell_value_mapCellAt hwf (rf hd) (cf hd) hhd.1 p hp1 hp2]
    have hiff : p = (cf hd, rf hd) ↔ (p.2 = rf hd ∧ p.1 = cf hd) := by
      constructor
      · intro h; rw [h]; exact ⟨rfl, rfl⟩
      · intro h; exact Prod.ext h.2 h.1
    by_cases heq : p = (cf hd, rf hd)
    · have hmemhead : ∃ a ∈ hd :: tl, p.2 = rf a ∧ p.1 = cf a :=
        ⟨hd, List.mem_cons_self _ _, hiff.mp heq⟩
      rw [if_pos heq, if_pos hmemhead, show b.cell_value (cf hd, rf hd)
        = b.cell_value p from by rw [heq]]
      by_cases hmemtl : ∃ a ∈ tl, p.2 = rf a ∧ p.1 = cf a
      · rw [if_pos hmemtl, hf]
      · rw [if_neg hmemtl]
    · rw [if_neg heq]
      by_cases hmemtl : ∃ a ∈ tl, p.2 = rf a ∧ p.1 = cf a
      · obtain ⟨a, ha, hpa⟩ := hmemtl
        rw [if_pos ⟨a, ha, hpa⟩,
          if_pos ⟨a, List.mem_cons_of_mem _ ha, hpa⟩]
      · rw [if_neg hmemtl, if_neg ?_]
        rintro ⟨a, ha, hpa⟩
        rcases List.mem_cons.mp ha with h | h
        · subst h; exact heq (hiff.mpr hpa)
        · exact hmemtl ⟨a, h, hpa⟩

/-! ## C3: set with Value clears the digit from the affected set -/

/-- Reduces GameBoard.set in Value mode on a non-Preset cell to the update
followed by the three clearing passes. -/
theorem set_value_unfold (b : GameBoard) (ind : CellIndex) (d : Nat)
    (hnp : ∀ v, b.cell_value ind ≠ .Preset v) :
    b.set ind .Value d =
      ((List.range 3).flatMap (fun j => (List.range 3).map (fun i => (j, i)))).foldl
        (fun acc p => acc.mapCellAt (ind.2 / 3 * 3 + p.1) (ind.1 / 3 * 3 + p.2)
          (fun cv => GameBoard.clearNoteVal cv d))
        ((List.range 9).foldl
          (fun acc i => acc.mapCellAt i ind.1 (fun cv => GameBoard.clearNoteVal cv d))
          ((List.range 9).foldl
            (fun acc c => acc.mapCellAt ind.2 c (fun cv => GameBoard.clearNoteVal cv d))
            (b.updateCell ind (.Value d)))) := by
  unfold GameBoard.set
  cases hcv : b.cell_value ind with
  | Preset v => exact absurd hcv (hnp v)
  | Value v => rfl
  | Notes s => rfl
  | Empty => rfl

theorem clearNoteVal_idem (d : Nat) (c : CellValue) :
    GameBoard.clearNoteVal (GameBoard.clearNoteVal c d) d
      = GameBoard.clearNoteVal c d := by
  cases c <;> simp [GameBoard.clearNoteVal, statusSet, List.set_set]

theorem clearNoteVal_flag (d : Nat) (c : CellValue) (s : NoteArray)
    (h : GameBoard.clearNoteVal c d = .Notes s) :
    statusGet s (d - 1) = none := by
  cases c with
  | Notes s0 =>
    simp only [GameBoard.clearNoteVal] at h
    cases h
    exact statusGet_statusSet_self_none s0 (d - 1)
  | Preset v => simp [GameBoard.clearNoteVal] at h
  | Value v => simp [GameBoard.clearNoteVal] at h
  | Empty => simp [GameBoard.clearNoteVal] at h

theorem clearNoteVal_value (d v : Nat) :
    GameBoard.clearNoteVal (.Value v) d = .Value v := rfl

/-- C3: after set(B, i, Value, d) on a non-Preset cell with d in 1..=9, the
cell holds Value(d), and every cell of the affected set of i (row, column,
3x3 box, minus i itself) that is a Notes cell carries neither a Maybe nor a
Deny flag for d (its per-digit entry for d is unset). -/
theorem c3_set_value_clears_peers (b : GameBoard) (hwf : Wf b)
    (ind : CellIndex) (hi1 : ind.1 < 9) (hi2 : ind.2 < 9)
    (d : Nat) (hd1 : 1 ≤ d) (hd9 : d ≤ 9)
    (hnp : ∀ v, b.cell_value ind ≠ .Preset v) :
    (b.set ind .Value d).cell_value ind = .Value d ∧
    (∀ p : CellIndex, p.1 < 9 → p.2 < 9 → p ≠ ind →
      (p.2 = ind.2 ∨ p.1 = ind.1 ∨ (p.2 / 3 = ind.2 / 3 ∧ p.1 / 3 = ind.1 / 3)) →
      ∀ s, (b.set ind .Value d).cell_value p = .Notes s →
        statusGet s (d - 1) = none) := by
  have hwf1 : Wf (b.updateCell ind (.Value d)) := wf_updateCell hwf ind _
  have hrowpass : ∀ (b0 : GameBoard), Wf b0 → ∀ p : CellIndex,
      p.1 < 9 → p.2 < 9 →
      ((List.range 9).foldl (fun acc c => GameBoard.mapCellAt acc ind.2 c
          (fun cv => GameBoard.clearNoteVal cv d)) b0).cell_value p =
        if p.2 = ind.2 then GameBoard.clearNoteVal (b0.cell_value p) d
        else b0.cell_value p := by
    intro b0 hb0 p hp1 hp2
    have h := cell_value_foldl_mapCellAt
      (fun cv => GameBoard.clearNoteVal cv d) (clearNoteVal_idem d)
      (fun _ => ind.2) (fun c => c) (List.range 9)
      (fun a ha => ⟨hi2, List.mem_range.mp ha⟩) hb0 p hp1 hp2
    have hiffc : (∃ a ∈ List.range 9, p.2 = ind.2 ∧ p.1 = a)
        ↔ p.2 = ind.2 := by
      constructor
      · rintro ⟨a, _, h1', _⟩; exact h1'
      · intro h1'; exact ⟨p.1, List.mem_range.mpr hp1, h1', rfl⟩
    simp only [hiffc] at h
    exact h
  have hcolpass : ∀ (b0 : GameBoard), Wf b0 → ∀ p : CellIndex,
      p.1 < 9 → p.2 < 9 →
      ((List.range 9).foldl (fun acc i => GameBoard.mapCellAt acc i ind.1
          (fun cv => GameBoard.clearNoteVal cv d)) b0).cell_value p =
        if p.1 = ind.1 then GameBoard.clearNoteVal (b0.cell_value p) d
        else b0.cell_value p := by
    intro b0 hb0 p hp1 hp2
    have h := cell_value_foldl_mapCellAt
      (fun cv => GameBoard.clearNoteVal cv d) (clearNoteVal_idem d)
      (fun i => i) (fun _ => ind.1) (List.range 9)
      (fun a ha => ⟨List.mem_range.mp ha, hi1⟩) hb0 p hp1 hp2
    have hiffc : (∃ a ∈ List.range 9, p.2 = a ∧ p.1 = ind.1)
        ↔ p.1 = ind.1 := by
      constructor
      · rintro ⟨a, _, _, h1'⟩; exact h1'
      · intro h1'; exact ⟨p.2, List.mem_range.mpr hp2, rfl, h1'⟩
    simp only [hiffc] at h
    exact h
  have hhousepass : ∀ (b0 : GameBoard), Wf b0 → ∀ p : CellIndex,
      p.1 < 9 → p.2 < 9 →
      (((List.range 3).flatMap (fun j => (List.range 3).map (fun i => (j, i)))).foldl
          (fun acc q => GameBoard.mapCellAt acc (ind.2 / 3 * 3 + q.1)
            (ind.1 / 3 * 3 + q.2) (fun cv => GameBoard.clearNoteVal cv d))
          b0).cell_value p =
        if p.2 / 3 = ind.2 / 3 ∧ p.1 / 3 = ind.1 / 3
        then GameBoard.clearNoteVal (b0.cell_value p) d
        else b0.cell_value p := by
    intro b0 hb0 p hp1 hp2
    have hmem : ∀ q : Nat × Nat,
        q ∈ (List.range 3).flatMap (fun j => (List.range 3).map (fun i => (j, i)))
        → q.1 < 3 ∧ q.2 < 3 := by
      intro q hq
      simp only [List.mem_flatMap, List.mem_map, List.mem_range] at hq
      obtain ⟨j, hj, i, hi, rfl⟩ := hq
      exact ⟨hj, hi⟩
    have h := cell_value_foldl_mapCellAt
      (fun cv => GameBoard.clearNoteVal cv d) (clearNoteVal_idem d)
      (fun q => ind.2 / 3 * 3 + q.1) (fun q => ind.1 / 3 * 3 + q.2)
      ((List.range 3).flatMap (fun j => (List.range 3).map (fun i => (j, i))))
      (fun a ha => by
        have := hmem a ha
        constructor <;> simp only [] <;> omega) hb0 p hp1 hp2
    have hiffc : (∃ a ∈ (List.range 3).flatMap
          (fun j => (List.range 3).map (fun i => (j, i))),
          p.2 = ind.2 / 3 * 3 + a.1 ∧ p.1 = ind.1 / 3 * 3 + a.2)
        ↔ (p.2 / 3 = ind.2 / 3 ∧ p.1 / 3 = ind.1 / 3) := by
      constructor
      · rintro ⟨a, ha, h1', h2'⟩
        have := hmem a ha
        constructor <;> omega
      · rintro ⟨h1', h2'⟩
        refine ⟨(p.2 % 3, p.1 % 3), ?_, by omega, by omega⟩
        simp only [List.mem_flatMap, List.mem_map, List.mem_range]
        exact ⟨p.2 % 3, by omega, p.1 % 3, by omega, rfl⟩
    simp only [hiffc] at h
    exact h
  have hwf2 : Wf ((List.range 9).foldl
      (fun acc c => GameBoard.mapCellAt acc ind.2 c
        (fun cv => GameBoard.clearNoteVal cv d))
      (b.updateCell ind (.Value d))) :=
    wf_foldl_mapCellAt _ (fun _ => ind.2) (fun c => c) _ hwf1
  have hwf3 : Wf ((List.range 9).foldl
      (fun acc i => GameBoard.mapCellAt acc i ind.1
        (fun cv => GameBoard.clearNoteVal cv d))
      ((List.range 9).foldl
        (fun acc c => GameBoard.mapCellAt acc ind.2 c
          (fun cv => GameBoard.clearNoteVal cv d))
        (b.updateCell ind (.Value d)))) :=
    wf_foldl_mapCellAt _ (fun i => i) (fun _ => ind.1) _ hwf2
  have hkey : ∀ p : CellIndex, p.1 < 9 → p.2 < 9 →
      (b.set ind .Value d).cell_value p =
        (fun cv => if (p.2 / 3 = ind.2 / 3 ∧ p.1 / 3 = ind.1 / 3)
            then GameBoard.clearNoteVal cv d else cv)
        ((fun cv => if p.1 = ind.1 then GameBoard.clearNoteVal cv d else cv)
        ((fun cv => if p.2 = ind.2 then GameBoard.clearNoteVal cv d else cv)
        ((b.updateCell ind (.Value d)).cell_value p))) := by
    intro p hp1 hp2
    rw [set_value_unfold b ind d hnp]
    refine (hhousepass _ hwf3 p hp1 hp2).trans ?_
    simp only [hcolpass _ hwf2 p hp1 hp2, hrowpass _ hwf1 p hp1 hp2]
  constructor
  · have h0 : (b.updateCell ind (.Value d)).cell_value ind = .Value d := by
      rw [cell_value_updateCell hwf ind ind hi2 hi1 hi2, if_pos rfl]
    rw [hkey ind hi1 hi2, h0]
    simp only []
    by_cases h1 : ind.1 / 3 = ind.1 / 3 <;>
      simp [GameBoard.clearNoteVal]
  · intro p hp1 hp2 hpne haff s hs
    rw [hkey p hp1 hp2] at hs
    simp only [] at hs
    have hbase : (b.updateCell ind (.Value d)).cell_value p
        = b.cell_value p := by
      rw [cell_value_updateCell hwf ind p hi2 hp1 hp2, if_neg hpne]
    rw [hbase] at hs
    by_cases hh : p.2 / 3 = ind.2 / 3 ∧ p.1 / 3 = ind.1 / 3
    · rw [if_pos hh] at hs
      exact clearNoteVal_flag d _ s hs
    · rw [if_neg hh] at hs
      by_cases hc : p.1 = ind.1
      · rw [if_pos hc] at hs
        exact clearNoteVal_flag d _ s hs
      · rw [if_neg hc] at hs
        rcases haff with h | h | h
        · rw [if_pos h] at hs
          exact clearNoteVal_flag d _ s hs
        · exact absurd h hc
        · exact absurd h hh

/-- Witness for C3: setting Value 5 at (0, 0) on a board whose peers carry
Maybe and Deny flags for 5. -/
theorem c3_set_value_clears_peers_witness :
    (let w := ((GameBoard.new.set (4, 0) .Maybe 5).set (0, 4) .Deny 5).set
        (1, 1) .Maybe 5
     (w.set (0, 0) .Value 5).cell_value (0, 0) = .Value 5 ∧
     ∀ s, (w.set (0, 0) .Value 5).cell_value (4, 0) = .Notes s →
        statusGet s 4 = none) := by
  have hcl : (((GameBoard.new.set (4, 0) .Maybe 5).set (0, 4) .Deny 5).set
      (1, 1) .Maybe 5).cell_value (0, 0) = .Empty := by decide
  have h := c3_set_value_clears_peers
    (((GameBoard.new.set (4, 0) .Maybe 5).set (0, 4) .Deny 5).set
        (1, 1) .Maybe 5)
    (by decide) (0, 0) (by decide) (by decide) 5 (by decide) (by decide)
    (fun v hv => by rw [hcl] at hv; exact CellValue.noConfusion hv)
  exact ⟨h.1, fun s hs => h.2 (4, 0) (by decide) (by decide) (by decide)
    (Or.inl rfl) s hs⟩

/-! ## C8: byte-string round trip -/

/-- Every filled digit of the board lies in 1..=9 (the data-model invariant
assumed by the claim). -/
def digitsOkB (b : GameBoard) : Bool :=
  rowMajorIndices.all (fun p =>
    match (b.cell_value p).as_value with
    | some v => decide (1 ≤ v ∧ v ≤ 9)
    | none => true)

/-- The filled cells of a board in emission (row-major) order, with their
stored digits. -/
def boardEntries (b : GameBoard) : List ((Nat × Nat) × Nat) :=
  (List.range 9).flatMap (fun row =>
    (List.range 9).filterMap (fun col =>
      ((b.cell_value (col, row)).as_value).map (fun v => ((col, row), v))))

/-- The two bytes as_byte_string emits for one filled cell ((col, row), v):
col+1, row+1 and v+1 packed into two 6-bit payloads. -/
def emitPair (e : (Nat × Nat) × Nat) : List Nat :=
  [0x40 ||| ((e.1.1 + 1) <<< 2) ||| ((e.1.2 + 1) >>> 2),
   0x40 ||| (((e.1.2 + 1) <<< 4) &&& 0b110000) ||| (e.2 + 1)]

theorem flatMap_filterMap_opt {α β γ : Type} (f : α → Option β)
    (g : β → List γ) (l : List α) :
    (l.filterMap f).flatMap g
      = l.flatMap (fun a => (((f a).map g).getD [])) := by
  induction l with
  | nil => rfl
  | cons hd tl ih =>
    cases hf : f hd <;> simp [List.filterMap_cons, hf, ih]

theorem as_byte_string_entries (b : GameBoard) :
    b.as_byte_string = (boardEntries b).flatMap emitPair ++ [0x40, 0x40] := by
  unfold GameBoard.as_byte_string boardEntries
  rw [List.flatMap_assoc]
  congr 1
  congr 1
  funext row
  rw [flatMap_filterMap_opt]
  congr 1
  funext col
  cases hv : (b.cell_value (col, row)).as_value <;> simp [emitPair, hv]

set_option synthInstance.maxHeartbeats 1000000 in
set_option synthInstance.maxSize 1024 in
/-- Decoding inverts encoding on the emitted ranges: col+1, row+1 in 1..=9
and v+1 in 2..=10. -/
theorem decodePair_bits : ∀ col, col < 10 → ∀ row, row < 10 →
    ∀ val, val < 11 → 1 ≤ col → 1 ≤ row → 2 ≤ val →
    (cellBytesNew (0x40 ||| (col <<< 2) ||| (row >>> 2))
        (0x40 ||| ((row <<< 4) &&& 0b110000) ||| val) ≠ 0) ∧
    cbX (cellBytesNew (0x40 ||| (col <<< 2) ||| (row >>> 2))
        (0x40 ||| ((row <<< 4) &&& 0b110000) ||| val)) = col ∧
    cbY (cellBytesNew (0x40 ||| (col <<< 2) ||| (row >>> 2))
        (0x40 ||| ((row <<< 4) &&& 0b110000) ||| val)) = row ∧
    cbVal (cellBytesNew (0x40 ||| (col <<< 2) ||| (row >>> 2))
        (0x40 ||| ((row <<< 4) &&& 0b110000) ||| val)) = val := by
  decide

theorem intoGameLoop_emit (entries : List ((Nat × Nat) × Nat))
    (hb : ∀ e ∈ entries, e.1.1 < 9 ∧ e.1.2 < 9 ∧ 1 ≤ e.2 ∧ e.2 ≤ 9) :
    ∀ acc, intoGameLoop ((entries.flatMap emitPair) ++ [0x40, 0x40]) acc
      = .ok (acc ++ entries) := by
  induction entries with
  | nil =>
    intro acc
    show intoGameLoop [0x40, 0x40] acc = .ok (acc ++ [])
    rw [List.append_nil]
    rfl
  | cons e rest ih =>
    intro acc
    have he := hb e (List.mem_cons_self _ _)
    have hbits := decodePair_bits (e.1.1 + 1) (by omega) (e.1.2 + 1)
      (by omega) (e.2 + 1) (by omega) (by omega) (by omega) (by omega)
    have hstep : (((e :: rest).flatMap emitPair) ++ [0x40, 0x40])
        = (0x40 ||| ((e.1.1 + 1) <<< 2) ||| ((e.1.2 + 1) >>> 2)) ::
          (0x40 ||| (((e.1.2 + 1) <<< 4) &&& 0b110000) ||| (e.2 + 1)) ::
          ((rest.flatMap emitPair) ++ [0x40, 0x40]) := by
      simp [emitPair]
    rw [hstep]
    simp only [intoGameLoop]
    rw [if_neg hbits.1, hbits.2.1, hbits.2.2.1, hbits.2.2.2]
    have hre := ih (fun x hx => hb x (List.mem_cons_of_mem _ hx))
      (acc ++ [((e.1.1 + 1 - 1, e.1.2 + 1 - 1), e.2 + 1 - 1)])
    rw [hre]
    simp

theorem flatMap_emitPair_length (entries : List ((Nat × Nat) × Nat)) :
    (entries.flatMap emitPair).length = 2 * entries.length := by
  induction entries with
  | nil => rfl
  | cons e rest ih => simp [emitPair, ih]; omega

theorem with_presets_cons (b0 : GameBoard) (e : (Nat × Nat) × Nat)
    (rest : List ((Nat × Nat) × Nat)) :
    b0.with_presets (e :: rest)
      = (b0.updateCell (e.1.1, e.1.2) (.Preset e.2)).with_presets rest := rfl

theorem wf_with_presets (entries : List ((Nat × Nat) × Nat))
    {b0 : GameBoard} (hwf0 : Wf b0) : Wf (b0.with_presets entries) := by
  induction entries generalizing b0 with
  | nil => exact hwf0
  | cons e rest ih => exact ih (wf_updateCell hwf0 _ _)

theorem with_presets_preserve (entries : List ((Nat × Nat) × Nat))
    (hbounds : ∀ e ∈ entries, e.1.1 < 9 ∧ e.1.2 < 9)
    {b0 : GameBoard} (hwf0 : Wf b0) (p : CellIndex)
    (hp1 : p.1 < 9) (hp2 : p.2 < 9)
    (hnotin : p ∉ entries.map Prod.fst) :
    (b0.with_presets entries).cell_value p = b0.cell_value p := by
  induction entries generalizing b0 with
  | nil => rfl
  | cons e rest ih =>
    have hb := hbounds e (List.mem_cons_self _ _)
    have hne : p ≠ (e.1.1, e.1.2) := by
      intro hp
      exact hnotin (by simp [hp])
    have h1 := ih (fun x hx => hbounds x (List.mem_cons_of_mem _ hx))
      (wf_updateCell hwf0 (e.1.1, e.1.2) (.Preset e.2))
      (fun hm => hnotin (List.mem_cons_of_mem _ hm))
    rw [with_presets_cons, h1,
      cell_value_updateCell hwf0 _ p hb.2 hp1 hp2, if_neg hne]

theorem with_presets_cell_value (entries : List ((Nat × Nat) × Nat))
    (hbounds : ∀ e ∈ entries, e.1.1 < 9 ∧ e.1.2 < 9)
    (hnd : (entries.map Prod.fst).Nodup)
    {b0 : GameBoard} (hwf0 : Wf b0) (p : CellIndex)
    (hp1 : p.1 < 9) (hp2 : p.2 < 9) (d : Nat)
    (hmem : (p, d) ∈ entries) :
    (b0.with_presets entries).cell_value p = .Preset d := by
  induction entries generalizing b0 with
  | nil => cases hmem
  | cons e rest ih =>
    have hb := hbounds e (List.mem_cons_self _ _)
    have hwf1 : Wf (b0.updateCell (e.1.1, e.1.2) (.Preset e.2)) :=
      wf_updateCell hwf0 _ _
    rw [with_presets_cons]
    rcases List.mem_cons.mp hmem with h | h
    · have hpe : p = (e.1.1, e.1.2) ∧ d = e.2 := by
        constructor
        · rw [← h]
        · rw [← h]
      have hnotin : p ∉ rest.map Prod.fst := by
        intro hm
        have : e.1 ∈ rest.map Prod.fst := by
          rw [show e.1 = (e.1.1, e.1.2) from rfl, ← hpe.1]
          exact hm
        exact (List.nodup_cons.mp hnd).1 this
      rw [with_presets_preserve rest
        (fun x hx => hbounds x (List.mem_cons_of_mem _ hx)) hwf1 p hp1 hp2
        hnotin]
      rw [cell_value_updateCell hwf0 _ p hb.2 hp1 hp2,
        if_pos hpe.1, hpe.2]
    · exact ih (fun x hx => hbounds x (List.mem_cons_of_mem _ hx))
        (List.nodup_cons.mp hnd).2 hwf1 h

theorem boardEntries_mem (b : GameBoard) (e : (Nat × Nat) × Nat) :
    e ∈ boardEntries b ↔
      e.1.1 < 9 ∧ e.1.2 < 9 ∧
        ((b.cell_value e.1).as_value = some e.2) := by
  unfold boardEntries
  simp only [List.mem_flatMap, List.mem_filterMap, List.mem_range,
    Option.map_eq_some']
  constructor
  · rintro ⟨row, hrow, col, hcol, v, hv, rfl⟩
    exact ⟨hcol, hrow, hv⟩
  · rintro ⟨h1, h2, hv⟩
    exact ⟨e.1.2, h2, e.1.1, h1, e.2, by
      rw [show ((e.1.1, e.1.2) : Nat × Nat) = e.1 from rfl]
      exact ⟨hv, rfl⟩⟩

theorem boardEntries_nodup (b : GameBoard) :
    ((boardEntries b).map Prod.fst).Nodup := by
  unfold boardEntries
  rw [List.map_flatMap]
  rw [List.nodup_flatMap]
  constructor
  · intro row hrow
    rw [List.map_filterMap]
    refine List.Nodup.filterMap ?_ (List.nodup_range 9)
    intro a a' q hq hq'
    simp only [] at hq hq'
    rw [Option.mem_def] at hq hq'
    cases hv : (b.cell_value (a, row)).as_value with
    | none => rw [hv] at hq; cases hq
    | some v =>
      cases hv' : (b.cell_value (a', row)).as_value with
      | none => rw [hv'] at hq'; cases hq'
      | some v' =>
        rw [hv] at hq
        rw [hv'] at hq'
        have h1 : (a, row) = q := Option.some.inj hq
        have h2 : (a', row) = q := Option.some.inj hq'
        exact congrArg Prod.fst (h1.trans h2.symm)
  · refine (List.pairwise_lt_range 9).imp ?_
    intro r1 r2 hlt q hq1 hq2
    simp only [] at hq1 hq2
    rw [List.map_filterMap, List.mem_filterMap] at hq1 hq2
    obtain ⟨c1, _, h1⟩ := hq1
    obtain ⟨c2, _, h2⟩ := hq2
    cases hv1 : (b.cell_value (c1, r1)).as_value with
    | none => rw [hv1] at h1; cases h1
    | some v1 =>
      cases hv2 : (b.cell_value (c2, r2)).as_value with
      | none => rw [hv2] at h2; cases h2
      | some v2 =>
        rw [hv1] at h1
        rw [hv2] at h2
        have h1' : (c1, r1) = q := Option.some.inj h1
        have h2' : (c2, r2) = q := Option.some.inj h2
        have h3 : r1 = r2 := congrArg Prod.snd (h1'.trans h2'.symm)
        omega

/-- C8: for every well-formed board whose filled cells hold digits in 1..=9,
parsing the byte string produced by as_byte_string succeeds, and the parsed
board has Preset(d) at the position of every Preset(d) cell of the original
board (emit adds 1 to column, row and stored digit; the loader subtracts 1
from each, so they cancel). -/
theorem c8_byte_string_roundtrip (b : GameBoard) (hwf : Wf b)
    (hd : digitsOkB b = true) :
    ∃ b2, byteStringIntoGame b.as_byte_string = .ok b2 ∧
      ∀ p : CellIndex, p.1 < 9 → p.2 < 9 → ∀ d, b.cell_value p = .Preset d →
        b2.cell_value p = .Preset d := by
  have hbounds : ∀ e ∈ boardEntries b,
      e.1.1 < 9 ∧ e.1.2 < 9 ∧ 1 ≤ e.2 ∧ e.2 ≤ 9 := by
    intro e he
    have h := (boardEntries_mem b e).mp he
    have hdp := (List.all_eq_true.mp hd) (e.1.1, e.1.2) (by
      unfold rowMajorIndices
      simp only [List.mem_flatMap, List.mem_map, List.mem_range]
      exact ⟨e.1.2, h.2.1, e.1.1, h.1, rfl⟩)
    rw [show ((e.1.1, e.1.2) : CellIndex) = e.1 from rfl] at hdp
    rw [h.2.2] at hdp
    simp only [decide_eq_true_eq] at hdp
    exact ⟨h.1, h.2.1, hdp.1, hdp.2⟩
  have hlen : (b.as_byte_string).length % 2 = 0 := by
    rw [as_byte_string_entries, List.length_append,
      flatMap_emitPair_length]
    simp only [List.length_cons, List.length_nil]
    omega
  have hloop := intoGameLoop_emit (boardEntries b)
    (fun e he => hbounds e he) []
  refine ⟨GameBoard.new.with_presets (boardEntries b), ?_, ?_⟩
  · unfold byteStringIntoGame
    rw [if_neg (by omega)]
    rw [as_byte_string_entries, hloop]
    rfl
  · intro p hp1 hp2 d hcell
    exact with_presets_cell_value (boardEntries b)
      (fun e he => ⟨(hbounds e he).1, (hbounds e he).2.1⟩)
      (boardEntries_nodup b) wf_new p hp1 hp2 d
      ((boardEntries_mem b (p, d)).mpr
        ⟨hp1, hp2, by rw [hcell]; rfl⟩)

/-- Witness for C8 at a concrete board with Preset cells. -/
theorem c8_byte_string_roundtrip_witness :
    Wf (GameBoard.new.with_presets [((0, 0), 5), ((3, 2), 9)]) ∧
    digitsOkB (GameBoard.new.with_presets [((0, 0), 5), ((3, 2), 9)]) = true ∧
    (∃ b2, byteStringIntoGame
        (GameBoard.new.with_presets [((0, 0), 5), ((3, 2), 9)]).as_byte_string
        = .ok b2 ∧
      ∀ p : CellIndex, p.1 < 9 → p.2 < 9 → ∀ d,
        (GameBoard.new.with_presets [((0, 0), 5), ((3, 2), 9)]).cell_value p
          = .Preset d →
        b2.cell_value p = .Preset d) :=
  ⟨by decide, by decide,
   c8_byte_string_roundtrip _ (by decide) (by decide)⟩

/-! ## C9: Preset cells are immutable under set and reset -/

/-- C9: for every board whose cell at index i is Preset(d), both
set(i, mode, v) and reset(i) return the board unchanged, so in particular
cell i still holds Preset(d) and never transitions to another variant. -/
theorem c9_preset_immutable (b : GameBoard) (ind : CellIndex) (d : Nat)
    (mode : NoteMode) (v : Nat) (h : b.cell_value ind = .Preset d) :
    b.set ind mode v = b ∧ b.reset ind = b ∧
    (b.set ind mode v).cell_value ind = .Preset d ∧
    (b.reset ind).cell_value ind = .Preset d := by
  have hset : b.set ind mode v = b := by
    unfold GameBoard.set
    rw [h]
  have hreset : b.reset ind = b := by
    unfold GameBoard.reset
    rw [h]
  exact ⟨hset, hreset, by rw [hset, h], by rw [hreset, h]⟩

/-- Witness for C9 at a concrete board with Preset(5) at (0, 0). -/
theorem c9_preset_immutable_witness :
    (GameBoard.new.with_presets [((0, 0), 5)]).cell_value (0, 0)
        = .Preset 5 ∧
    (GameBoard.new.with_presets [((0, 0), 5)]).set (0, 0) .Value 3
        = GameBoard.new.with_presets [((0, 0), 5)] ∧
    (GameBoard.new.with_presets [((0, 0), 5)]).reset (0, 0)
        = GameBoard.new.with_presets [((0, 0), 5)] :=
  ⟨by decide,
   (c9_preset_immutable _ (0, 0) 5 .Value 3 (by decide)).1,
   (c9_preset_immutable _ (0, 0) 5 .Value 3 (by decide)).2.1⟩

/-! ## C10: clearing the last note flag -/

/-- C10 counterexample: on the board whose cell (0, 0) is a Notes cell
carrying only a Maybe flag for digit 1, toggling Maybe 1 again clears the
last flag but leaves the cell as Notes with all nine flags unset — it does
not collapse to the Empty variant as the claim states. -/
theorem c10_counterexample :
    ((GameBoard.new.set (0, 0) .Maybe 1).cell_value (0, 0)
        = CellValue.Notes (statusSet noteArrayEmpty 0 (some .Maybe))) ∧
    (((GameBoard.new.set (0, 0) .Maybe 1).set (0, 0) .Maybe 1).cell_value (0, 0)
        = CellValue.Notes noteArrayEmpty) ∧
    CellValue.Notes noteArrayEmpty ≠ CellValue.Empty := by
  refine ⟨by decide, by decide, by decide⟩

/-- C10 (amended): whenever a set(i, Maybe, d) or set(i, Deny, d) toggle
clears the last remaining flag of a Notes cell, the cell remains a Notes
cell with all nine flags unset; set never collapses it to Empty. -/
theorem c10_amended (b : GameBoard) (hwf : Wf b) (ind : CellIndex)
    (h1 : ind.1 < 9) (h2 : ind.2 < 9) (d : Nat) (hd1 : 1 ≤ d) (hd9 : d ≤ 9)
    (s : NoteArray) (hcell : b.cell_value ind = .Notes s)
    (mode : NoteMode) (st : NoteStatus)
    (hmode : (mode = .Maybe ∧ st = .Maybe) ∨ (mode = .Deny ∧ st = .Deny))
    (hflag : statusGet s (d - 1) = some st) :
    (b.set ind mode d).cell_value ind = .Notes (statusSet s (d - 1) none) ∧
    (∀ j, (∀ k, k ≠ d - 1 → statusGet s k = none) →
      statusGet (statusSet s (d - 1) none) j = none) := by
  have hupd : b.set ind mode d
      = b.updateCell ind (.Notes (statusSet s (d - 1) none)) := by
    rcases hmode with ⟨hm, hs⟩ | ⟨hm, hs⟩ <;> subst hm <;> subst hs <;>
      · unfold GameBoard.set
        rw [hcell]
        simp [hflag]
  constructor
  · rw [hupd, cell_value_updateCell hwf ind ind h2 h1 h2, if_pos rfl]
  · intro j hlast
    rcases Decidable.em (j = d - 1) with hj | hj
    · subst hj; exact statusGet_statusSet_self_none s (d - 1)
    · rw [statusGet_statusSet_ne s none (fun hc => hj hc.symm)]
      exact hlast j hj

/-- Witness for C10 (amended) at the concrete Notes cell of the
counterexample board. -/
theorem c10_amended_witness :
    ((GameBoard.new.set (0, 0) .Maybe 1).set (0, 0) .Maybe 1).cell_value (0, 0)
        = .Notes (statusSet (statusSet noteArrayEmpty 0 (some .Maybe)) 0 none) ∧
    (∀ j, statusGet (statusSet (statusSet noteArrayEmpty 0 (some .Maybe)) 0 none) j
        = none) := by
  have h := c10_amended (GameBoard.new.set (0, 0) .Maybe 1)
    (by decide) (0, 0) (by decide) (by decide) 1 (by decide) (by decide)
    (statusSet noteArrayEmpty 0 (some .Maybe)) (by decide)
    .Maybe .Maybe (Or.inl ⟨rfl, rfl⟩) (by decide)
  refine ⟨h.1, fun j => h.2 j ?_⟩
  intro k hk
  rw [statusGet_statusSet_ne _ _ (fun hc => hk hc.symm)]
  exact statusGet_noteArrayEmpty k

/-! ## C6: totality of the techniques -/

/-- C6: HiddenSingle::apply_to on the all-Empty board: iter_unset yields the
Empty cell (0, 0) first, and the unguarded maybe_values().unwrap() panics.
This refutes the claim that the required techniques never panic on boards
containing Empty cells. -/
theorem c6_hidden_single_panics :
    hiddenSingleApply GameBoard.new = .panic := rfl

/-! ## C5: the solver's Ok-iff-victory contract -/

set_option maxRecDepth 40000 in
/-- C5: Solver::solve on c5Board neither returns Ok(Solution) nor
Err(partial board): it panics inside HiddenSingle, refuting the claim that
every input board yields one of the two return values. -/
theorem c5_solver_panics : solverSolve 10 c5Board = .panic := rfl

/-! ## C7: the branching cell of the Solutions Tree scan -/

theorem solveVals_scanOk (rec : GameBoard → Nat → Option NodeT × Nat)
    (board : GameBoard) (ci : CellIndex)
    (hrec : ∀ b c t c', rec b c = (some t, c') → t.scanOk = true) :
    ∀ vals c, scanOkList (solveVals rec board ci vals c).1 = true := by
  intro vals
  induction vals with
  | nil => intro c; rfl
  | cons val rest ih =>
    intro c
    by_cases hv : (board.updateCell ci (.Value val)).is_valid
    · rcases hrc : rec (board.updateCell ci (.Value val)) c with ⟨childOpt, c1⟩
      simp only [solveVals, if_pos hv, hrc]
      cases childOpt with
      | some child =>
        have hchild := hrec _ _ _ _ hrc
        by_cases hcmax : MAX_SOLUTION_SIZE ≤ c1
        · simp only [if_pos hcmax]
          simp [scanOkList, hchild]
        · simp only [if_neg hcmax]
          rcases hrest : solveVals rec board ci rest c1 with ⟨rch, c2⟩
          simp only [hrest]
          have hr := ih c1
          rw [hrest] at hr
          simp [scanOkList, hchild, hr]
      | none =>
        by_cases hcmax : MAX_SOLUTION_SIZE ≤ c1
        · simp only [if_pos hcmax]; rfl
        · simp only [if_neg hcmax]; exact ih c1
    · simp only [solveVals, if_neg hv]
      by_cases hcmax : MAX_SOLUTION_SIZE ≤ c
      · simp only [if_pos hcmax]; rfl
      · simp only [if_neg hcmax]; exact ih c

theorem solveHelperF_scanOk (fuel : Nat) :
    ∀ b c t c', solveHelperF fuel b c = (some t, c') → t.scanOk = true := by
  induction fuel with
  | zero => intro b c t c' h; cases h
  | succ fuel ih =>
    intro b c t c' h
    rw [solveHelperF] at h
    by_cases hcmax : MAX_SOLUTION_SIZE ≤ c
    · rw [if_pos hcmax] at h; cases h
    · rw [if_neg hcmax] at h
      cases hscan : firstUnsetScan b with
      | some ci =>
        rw [hscan] at h
        simp only [] at h
        rcases hsv : solveVals (fun b c => solveHelperF fuel b c) b ci
            (List.range' 1 9) c with ⟨children, c1⟩
        rw [hsv] at h
        cases children with
        | nil => cases h
        | cons ch0 chr =>
          have ht : t = NodeT.Branch b ci (ch0 :: chr) := by
            have := congrArg Prod.fst h
            simpa using this.symm
          subst ht
          rw [NodeT.scanOk]
          have hlist := solveVals_scanOk _ b ci ih (List.range' 1 9) c
          rw [hsv] at hlist
          simp [hscan, hlist]
      | none =>
        rw [hscan] at h
        simp only [] at h
        by_cases hvic : (GameBoard.is_valid b && GameBoard.is_complete b) = true
        · rw [if_pos hvic] at h
          have ht : t = NodeT.Leaf b := by
            have := congrArg Prod.fst h
            simpa using this.symm
          subst ht
          rfl
        · rw [if_neg hvic] at h; cases h

/-- C7 (amended): the cell chosen for branching at every node of the
Solutions Tree is the first cell without a concrete value in the scan order
of Node::solve_helper, which is column-major — the scan runs
`for j in 0..9 { for i in 0..9 { let index = (j, i) } }` and CellIndex is
(column, row), so the outer loop variable is the column (column 0 top to
bottom, then column 1, and so on), not row-major as claimed. -/
theorem c7_amended (b : GameBoard) :
    rootScanOk (SolutionsTree.solve b) = true := by
  unfold SolutionsTree.solve
  rcases hs : solveHelperF 82 b 0 with ⟨res, counter⟩
  simp only []
  by_cases hc : MAX_SOLUTION_SIZE ≤ counter
  · rw [if_pos hc]; rfl
  · rw [if_neg hc]
    cases res with
    | none => rfl
    | some t => exact solveHelperF_scanOk 82 b 0 t counter hs

/-- C7 (counterexample): on the near-complete board cexC7 the root of the
Solutions Tree branches on (0, 1) — column 0, row 1 — while the first
unfilled cell in row-major order is (1, 0) — row 0, column 1.  The scan of
Node::solve_helper is column-major, not row-major. -/
theorem c7_counterexample :
    rootNextCell (SolutionsTree.solve cexC7) = some (0, 1) ∧
    rowMajorFirstUnset cexC7 = some (1, 0) ∧
    (some ((0, 1) : CellIndex) ≠ some ((1, 0) : CellIndex)) :=
  ⟨rfl, by decide, by decide⟩

/-! ## C1: soundness of the Solutions Tree -/

theorem findSome?_isSome_of_mem {α β : Type} {l : List α} {f : α → Option β}
    {a : α} (ha : a ∈ l) (hf : (f a).isSome = true) :
    (l.findSome? f).isSome = true := by
  induction l with
  | nil => cases ha
  | cons hd tl ih =>
    rw [List.findSome?_cons]
    cases hhd : f hd with
    | some b => rfl
    | none =>
      rcases List.mem_cons.mp ha with h | h
      · subst h; rw [hhd] at hf; cases hf
      · exact ih h

theorem firstUnsetScan_some {b : GameBoard} {ci : CellIndex}
    (h : firstUnsetScan b = some ci) :
    ci.1 < 9 ∧ ci.2 < 9 ∧ (b.cell_value ci).as_value = none := by
  unfold firstUnsetScan at h
  have hmem := List.mem_of_find?_eq_some h
  have hp := List.find?_some h
  simp only [List.mem_flatMap, List.mem_map, List.mem_range] at hmem
  obtain ⟨j, hj, i, hi, hji⟩ := hmem
  simp only [] at hp
  rw [Option.isNone_iff_eq_none] at hp
  refine ⟨?_, ?_, hp⟩
  · rw [← hji]; exact hj
  · rw [← hji]; exact hi

theorem mem_leafBoardsList {L : GameBoard} :
    ∀ ch : List (Nat × NodeT), L ∈ leafBoardsList ch →
      ∃ q, q ∈ ch ∧ L ∈ q.2.leafBoards := by
  intro ch
  induction ch with
  | nil => intro h; cases h
  | cons q rest ih =>
    intro h
    rw [leafBoardsList] at h
    rcases List.mem_append.mp h with h | h
    · exact ⟨q, List.mem_cons_self _ _, h⟩
    · obtain ⟨q', hq', hL⟩ := ih h
      exact ⟨q', List.mem_cons_of_mem _ hq', hL⟩

theorem leafBoardsList_of_mem {q : Nat × NodeT} :
    ∀ ch : List (Nat × NodeT), q ∈ ch →
      ∀ L ∈ q.2.leafBoards, L ∈ leafBoardsList ch := by
  intro ch
  induction ch with
  | nil => intro h; cases h
  | cons q0 rest ih =>
    intro h L hL
    rw [leafBoardsList]
    rcases List.mem_cons.mp h with h | h
    · subst h; exact List.mem_append.mpr (.inl hL)
    · exact List.mem_append.mpr (.inr (ih h L hL))

theorem depth_le_depthList {q : Nat × NodeT} :
    ∀ ch, q ∈ ch → q.2.depth ≤ depthList ch := by
  intro ch
  induction ch with
  | nil => intro h; cases h
  | cons q0 rest ih =>
    intro h
    rw [depthList]
    rcases List.mem_cons.mp h with h | h
    · subst h; exact Nat.le_max_left _ _
    · exact le_trans (ih h) (Nat.le_max_right _ _)

theorem depthList_le {f : Nat} :
    ∀ ch : List (Nat × NodeT), (∀ q ∈ ch, q.2.depth ≤ f) →
      depthList ch ≤ f := by
  intro ch
  induction ch with
  | nil => intro _; exact Nat.zero_le f
  | cons q rest ih =>
    intro h
    rw [depthList]
    exact max_le (h q (List.mem_cons_self _ _))
      (ih (fun q' hq' => h q' (List.mem_cons_of_mem _ hq')))

theorem goodShapeList_mem {q : Nat × NodeT} :
    ∀ ch, goodShapeList ch = true → q ∈ ch →
      q.2.goodShape = true ∧ 1 ≤ q.1 ∧ q.1 ≤ 9 := by
  intro ch
  induction ch with
  | nil => intro _ h; cases h
  | cons q0 rest ih =>
    intro hg h
    rw [goodShapeList] at hg
    simp only [Bool.and_eq_true, decide_eq_true_eq] at hg
    rcases List.mem_cons.mp h with h | h
    · subst h; exact ⟨hg.1.2, hg.1.1.1, hg.1.1.2⟩
    · exact ih hg.2 h

theorem goodShapeList_of_all :
    ∀ ch : List (Nat × NodeT),
      (∀ q ∈ ch, (1 ≤ q.1 ∧ q.1 ≤ 9) ∧ q.2.goodShape = true) →
      goodShapeList ch = true := by
  intro ch
  induction ch with
  | nil => intro _; rfl
  | cons q rest ih =>
    intro h
    have hq := h q (List.mem_cons_self _ _)
    rw [goodShapeList]
    simp only [Bool.and_eq_true, decide_eq_true_eq]
    exact ⟨⟨hq.1, hq.2⟩, ih (fun q' hq' => h q' (List.mem_cons_of_mem _ hq'))⟩

theorem childLookup_mem {ch : List (Nat × NodeT)} {i : Nat} {t : NodeT}
    (h : childLookup ch i = some t) : ∃ q, q ∈ ch ∧ q.2 = t := by
  unfold childLookup at h
  rw [Option.map_eq_some'] at h
  obtain ⟨pr, hfind, hsnd⟩ := h
  exact ⟨pr, List.mem_of_find?_eq_some hfind, hsnd⟩

theorem firstChild_isSome {ch : List (Nat × NodeT)}
    (hne : ch ≠ []) (hg : goodShapeList ch = true) :
    (firstChild ch).isSome = true := by
  cases ch with
  | nil => exact absurd rfl hne
  | cons q0 rest =>
    have hb := goodShapeList_mem _ hg (List.mem_cons_self q0 rest)
    refine findSome?_isSome_of_mem (?_ : q0.1 ∈ List.range' 1 9) ?_
    · rw [List.mem_range'_1]
      omega
    · unfold childLookup
      rw [List.find?_cons_of_pos rest (by simp)]
      rfl

theorem firstSolutionF_mem :
    ∀ fuel t, NodeT.goodShape t = true → NodeT.depth t ≤ fuel →
      firstSolutionF fuel t ∈ t.leafBoards := by
  intro fuel
  induction fuel with
  | zero =>
    intro t hg hd
    cases t with
    | Leaf b => exact List.mem_cons_self _ _
    | Branch b ci ch =>
      rw [NodeT.depth] at hd
      omega
  | succ fuel ih =>
    intro t hg hd
    cases t with
    | Leaf b => exact List.mem_cons_self _ _
    | Branch b ci ch =>
      rw [NodeT.goodShape] at hg
      simp only [Bool.and_eq_true, decide_eq_true_eq] at hg
      have hne : ch ≠ [] := by
        intro he
        subst he
        exact Bool.noConfusion hg.1
      have hfc := firstChild_isSome hne hg.2
      rw [Option.isSome_iff_exists] at hfc
      obtain ⟨next, hnext⟩ := hfc
      obtain ⟨i, hi, hcl⟩ := List.exists_of_findSome?_eq_some hnext
      obtain ⟨q, hq, hqsnd⟩ := childLookup_mem hcl
      subst hqsnd
      simp only [firstSolutionF]
      rw [hnext]
      simp only []
      rw [NodeT.leafBoards]
      rw [NodeT.depth] at hd
      have hqd := depth_le_depthList _ hq
      have hqg := goodShapeList_mem _ hg.2 hq
      exact leafBoardsList_of_mem _ hq _ (ih q.2 hqg.1 (by omega))

theorem solveVals_children (rec : GameBoard → Nat → Option NodeT × Nat)
    (board : GameBoard) (ci : CellIndex) :
    ∀ vals c q, q ∈ (solveVals rec board ci vals c).1 →
      q.1 ∈ vals ∧
        ∃ c₀ c₁, rec (board.updateCell ci (.Value q.1)) c₀ = (some q.2, c₁) := by
  intro vals
  induction vals with
  | nil =>
    intro c q hq
    simp only [solveVals] at hq
    exact absurd hq (List.not_mem_nil q)
  | cons val rest ih =>
    intro c q hq
    by_cases hv : (board.updateCell ci (.Value val)).is_valid
    · rcases hrc : rec (board.updateCell ci (.Value val)) c with ⟨childOpt, c1⟩
      simp only [solveVals, if_pos hv, hrc] at hq
      cases childOpt with
      | some child =>
        by_cases hcmax : MAX_SOLUTION_SIZE ≤ c1
        · simp only [if_pos hcmax] at hq
          have hqe : q = (val, child) := by simpa using hq
          subst hqe
          exact ⟨List.mem_cons_self _ _, c, c1, hrc⟩
        · simp only [if_neg hcmax] at hq
          rcases hrest : solveVals rec board ci rest c1 with ⟨rch, c2⟩
          rw [hrest] at hq
          simp only [] at hq
          rcases List.mem_cons.mp hq with h | h
          · subst h; exact ⟨List.mem_cons_self _ _, c, c1, hrc⟩
          · have hr := ih c1 q (by rw [hrest]; exact h)
            exact ⟨List.mem_cons_of_mem _ hr.1, hr.2⟩
      | none =>
        by_cases hcmax : MAX_SOLUTION_SIZE ≤ c1
        · simp only [if_pos hcmax] at hq
          exact absurd hq (List.not_mem_nil q)
        · simp only [if_neg hcmax] at hq
          have hr := ih c1 q hq
          exact ⟨List.mem_cons_of_mem _ hr.1, hr.2⟩
    · simp only [solveVals, if_neg hv] at hq
      by_cases hcmax : MAX_SOLUTION_SIZE ≤ c
      · simp only [if_pos hcmax] at hq
        exact absurd hq (List.not_mem_nil q)
      · simp only [if_neg hcmax] at hq
        have hr := ih c q hq
        exact ⟨List.mem_cons_of_mem _ hr.1, hr.2⟩

theorem solveHelperF_goodShape (fuel : Nat) :
    ∀ b c t c', solveHelperF fuel b c = (some t, c') →
      NodeT.goodShape t = true := by
  induction fuel with
  | zero => intro b c t c' h; cases h
  | succ fuel ih =>
    intro b c t c' h
    rw [solveHelperF] at h
    by_cases hcmax : MAX_SOLUTION_SIZE ≤ c
    · rw [if_pos hcmax] at h; cases h
    · rw [if_neg hcmax] at h
      cases hscan : firstUnsetScan b with
      | some ci =>
        rw [hscan] at h
        simp only [] at h
        rcases hsv : solveVals (fun b c => solveHelperF fuel b c) b ci
            (List.range' 1 9) c with ⟨children, c1⟩
        rw [hsv] at h
        cases children with
        | nil => cases h
        | cons ch0 chr =>
          have ht : t = NodeT.Branch b ci (ch0 :: chr) := by
            have := congrArg Prod.fst h
            simpa using this.symm
          subst ht
          rw [NodeT.goodShape]
          simp only [Bool.and_eq_true, decide_eq_true_eq]
          refine ⟨by rfl, ?_⟩
          refine goodShapeList_of_all _ ?_
          intro q hq
          have hch := solveVals_children _ b ci (List.range' 1 9) c q
            (by rw [hsv]; exact hq)
          obtain ⟨hkey, c₀, c₁, hrec⟩ := hch
          rw [List.mem_range'_1] at hkey
          exact ⟨by omega, ih _ _ _ _ hrec⟩
      | none =>
        rw [hscan] at h
        simp only [] at h
        by_cases hvic : (GameBoard.is_valid b && GameBoard.is_complete b) = true
        · rw [if_pos hvic] at h
          have ht : t = NodeT.Leaf b := by
            have := congrArg Prod.fst h
            simpa using this.symm
          subst ht
          rfl
        · rw [if_neg hvic] at h; cases h

theorem solveHelperF_depth (fuel : Nat) :
    ∀ b c t c', solveHelperF fuel b c = (some t, c') →
      NodeT.depth t ≤ fuel := by
  induction fuel with
  | zero => intro b c t c' h; cases h
  | succ fuel ih =>
    intro b c t c' h
    rw [solveHelperF] at h
    by_cases hcmax : MAX_SOLUTION_SIZE ≤ c
    · rw [if_pos hcmax] at h; cases h
    · rw [if_neg hcmax] at h
      cases hscan : firstUnsetScan b with
      | some ci =>
        rw [hscan] at h
        simp only [] at h
        rcases hsv : solveVals (fun b c => solveHelperF fuel b c) b ci
            (List.range' 1 9) c with ⟨children, c1⟩
        rw [hsv] at h
        cases children with
        | nil => cases h
        | cons ch0 chr =>
          have ht : t = NodeT.Branch b ci (ch0 :: chr) := by
            have := congrArg Prod.fst h
            simpa using this.symm
          subst ht
          rw [NodeT.depth]
          have hdl : depthList (ch0 :: chr) ≤ fuel := by
            refine depthList_le _ ?_
            intro q hq
            have hch := solveVals_children _ b ci (List.range' 1 9) c q
              (by rw [hsv]; exact hq)
            obtain ⟨hkey, c₀, c₁, hrec⟩ := hch
            exact ih _ _ _ _ hrec
          omega
      | none =>
        rw [hscan] at h
        simp only [] at h
        by_cases hvic : (GameBoard.is_valid b && GameBoard.is_complete b) = true
        · rw [if_pos hvic] at h
          have ht : t = NodeT.Leaf b := by
            have := congrArg Prod.fst h
            simpa using this.symm
          subst ht
          rw [NodeT.depth]
          omega
        · rw [if_neg hvic] at h; cases h

theorem solveHelperF_sound (fuel : Nat) :
    ∀ b c t c', Wf b → solveHelperF fuel b c = (some t, c') →
      ∀ L, L ∈ t.leafBoards →
        GameBoard.is_valid L = true ∧ GameBoard.is_complete L = true ∧
          agreesWith b L := by
  induction fuel with
  | zero => intro b c t c' _ h; cases h
  | succ fuel ih =>
    intro b c t c' hwf h
    rw [solveHelperF] at h
    by_cases hcmax : MAX_SOLUTION_SIZE ≤ c
    · rw [if_pos hcmax] at h; cases h
    · rw [if_neg hcmax] at h
      cases hscan : firstUnsetScan b with
      | some ci =>
        rw [hscan] at h
        simp only [] at h
        obtain ⟨hci1, hci2, hciun⟩ := firstUnsetScan_some hscan
        rcases hsv : solveVals (fun b c => solveHelperF fuel b c) b ci
            (List.range' 1 9) c with ⟨children, c1⟩
        rw [hsv] at h
        cases children with
        | nil => cases h
        | cons ch0 chr =>
          have ht : t = NodeT.Branch b ci (ch0 :: chr) := by
            have := congrArg Prod.fst h
            simpa using this.symm
          subst ht
          intro L hL
          rw [NodeT.leafBoards] at hL
          obtain ⟨q, hq, hLq⟩ := mem_leafBoardsList _ hL
          have hch := solveVals_children _ b ci (List.range' 1 9) c q
            (by rw [hsv]; exact hq)
          obtain ⟨hkey, c₀, c₁, hrec⟩ := hch
          have hwf' : Wf (b.updateCell ci (.Value q.1)) :=
            wf_updateCell hwf _ _
          have hsound := ih _ _ _ _ hwf' hrec L hLq
          refine ⟨hsound.1, hsound.2.1, ?_⟩
          intro p hp1 hp2 v hv
          have hpne : p ≠ ci := by
            intro he
            rw [he, hciun] at hv
            cases hv
          refine hsound.2.2 p hp1 hp2 v ?_
          rw [cell_value_updateCell hwf ci p hci2 hp1 hp2, if_neg hpne]
          exact hv
      | none =>
        rw [hscan] at h
        simp only [] at h
        by_cases hvic : (GameBoard.is_valid b && GameBoard.is_complete b) = true
        · rw [if_pos hvic] at h
          have ht : t = NodeT.Leaf b := by
            have := congrArg Prod.fst h
            simpa using this.symm
          subst ht
          intro L hL
          have hLb : L = b := by simpa [NodeT.leafBoards] using hL
          subst hLb
          rw [Bool.and_eq_true] at hvic
          exact ⟨hvic.1, hvic.2, fun p _ _ v hv => hv⟩
        · rw [if_neg hvic] at h; cases h

/-- C1: when SolutionsTree::solve returns a tree, its first_solution is one
of the enumerated leaves, and every enumerated leaf is a valid, complete
board that agrees with every concretely filled (Preset or Value) cell of
the input board. -/
theorem c1_solve_sound (b : GameBoard) (hwf : Wf b) (t : NodeT)
    (hs : SolutionsTree.solve b = some t) :
    SolutionsTree.solution t ∈ t.leafBoards ∧
    ∀ L ∈ t.leafBoards,
      GameBoard.is_valid L = true ∧ GameBoard.is_complete L = true ∧
        agreesWith b L := by
  have hsh : ∃ c', solveHelperF 82 b 0 = (some t, c') := by
    unfold SolutionsTree.solve at hs
    rcases hd : solveHelperF 82 b 0 with ⟨res, counter⟩
    rw [hd] at hs
    simp only [] at hs
    by_cases hc : MAX_SOLUTION_SIZE ≤ counter
    · rw [if_pos hc] at hs; cases hs
    · rw [if_neg hc] at hs
      subst hs
      exact ⟨counter, rfl⟩
  obtain ⟨c', hsh⟩ := hsh
  refine ⟨?_, ?_⟩
  · exact firstSolutionF_mem 82 t (solveHelperF_goodShape 82 b 0 t c' hsh)
      (solveHelperF_depth 82 b 0 t c' hsh)
  · intro L hL
    exact solveHelperF_sound 82 b 0 t c' hwf hsh L hL

/-- Witness for C1 at the canonical complete grid, whose solutions tree is
the single leaf holding the grid itself. -/
theorem c1_solve_sound_witness :
    Wf canonGrid ∧
    SolutionsTree.solve canonGrid = some (.Leaf canonGrid) ∧
    (SolutionsTree.solution (.Leaf canonGrid)
        ∈ (NodeT.Leaf canonGrid).leafBoards ∧
     ∀ L ∈ (NodeT.Leaf canonGrid).leafBoards,
       GameBoard.is_valid L = true ∧ GameBoard.is_complete L = true ∧
         agreesWith canonGrid L) :=
  ⟨by decide, by rfl,
   c1_solve_sound canonGrid (by decide) (.Leaf canonGrid) (by rfl)⟩

/-! ## C4: auto_note idempotence on valid boards -/

theorem list_all_congr {α : Type} {l : List α} {f g : α → Bool}
    (h : ∀ a ∈ l, f a = g a) : l.all f = l.all g := by
  induction l with
  | nil => rfl
  | cons a tl ih =>
    rw [List.all_cons, List.all_cons, h a (List.mem_cons_self _ _),
      ih (fun x hx => h x (List.mem_cons_of_mem _ hx))]

theorem contains_iff_mem {l : List Nat} {a : Nat} :
    l.contains a = true ↔ a ∈ l := by
  simp

theorem mem_rowMajorIndices {p : CellIndex} :
    p ∈ rowMajorIndices ↔ p.1 < 9 ∧ p.2 < 9 := by
  unfold rowMajorIndices
  simp only [List.mem_flatMap, List.mem_map, List.mem_range]
  constructor
  · rintro ⟨row, hrow, col, hcol, rfl⟩
    exact ⟨hcol, hrow⟩
  · rintro ⟨h1, h2⟩
    exact ⟨p.2, h2, p.1, h1, rfl⟩

theorem indicesAndValues_map_congr {b1 b2 : GameBoard} (h : sameValues b1 b2)
    (idxs : List CellIndex) (hb : ∀ p ∈ idxs, p.1 < 9 ∧ p.2 < 9) :
    indicesAndValues (idxs.map (fun ind => (ind, b1.cell_value ind))) =
    indicesAndValues (idxs.map (fun ind => (ind, b2.cell_value ind))) := by
  unfold indicesAndValues
  rw [List.filterMap_map, List.filterMap_map]
  refine List.filterMap_congr ?_
  intro p hp
  obtain ⟨hb1, hb2⟩ := hb p hp
  simp only [Function.comp]
  rw [h p hb1 hb2]

theorem isValidComp_of_iav {c1 c2 : List (CellIndex × CellValue)}
    (h : indicesAndValues c1 = indicesAndValues c2) :
    isValidComp c1 = isValidComp c2 := by
  unfold isValidComp invalid_cells
  rw [h]

theorem rowCells_eq_map (b : GameBoard) (r : Nat) :
    rowCells b r = ((List.range 9).map (fun c => ((c, r) : CellIndex))).map
      (fun ind => (ind, b.cell_value ind)) := by
  rw [List.map_map]
  rfl

theorem colCells_eq_map (b : GameBoard) (c : Nat) :
    colCells b c = ((List.range 9).map (fun r => ((c, r) : CellIndex))).map
      (fun ind => (ind, b.cell_value ind)) := by
  rw [List.map_map]
  rfl

theorem houseCells_eq_map (b : GameBoard) (x y : Nat) :
    houseCells b x y = ((List.range 3).flatMap (fun j =>
      (List.range 3).map (fun i => ((y * 3 + i, x * 3 + j) : CellIndex)))).map
      (fun ind => (ind, b.cell_value ind)) := by
  rw [List.map_flatMap]
  simp only [List.map_map]
  rfl

theorem isValidComp_row_congr {b1 b2 : GameBoard} (h : sameValues b1 b2)
    {r : Nat} (hr : r < 9) :
    isValidComp (rowCells b1 r) = isValidComp (rowCells b2 r) := by
  rw [rowCells_eq_map, rowCells_eq_map]
  refine isValidComp_of_iav (indicesAndValues_map_congr h _ ?_)
  intro p hp
  simp only [List.mem_map, List.mem_range] at hp
  obtain ⟨c, hc, rfl⟩ := hp
  exact ⟨hc, hr⟩

theorem isValidComp_col_congr {b1 b2 : GameBoard} (h : sameValues b1 b2)
    {c : Nat} (hc : c < 9) :
    isValidComp (colCells b1 c) = isValidComp (colCells b2 c) := by
  rw [colCells_eq_map, colCells_eq_map]
  refine isValidComp_of_iav (indicesAndValues_map_congr h _ ?_)
  intro p hp
  simp only [List.mem_map, List.mem_range] at hp
  obtain ⟨r, hr, rfl⟩ := hp
  exact ⟨hc, hr⟩

theorem isValidComp_house_congr {b1 b2 : GameBoard} (h : sameValues b1 b2)
    {x y : Nat} (hx : x < 3) (hy : y < 3) :
    isValidComp (houseCells b1 x y) = isValidComp (houseCells b2 x y) := by
  rw [houseCells_eq_map, houseCells_eq_map]
  refine isValidComp_of_iav (indicesAndValues_map_congr h _ ?_)
  intro p hp
  simp only [List.mem_flatMap, List.mem_map, List.mem_range] at hp
  obtain ⟨j, hj, i, hi, rfl⟩ := hp
  constructor <;> simp only [] <;> omega

theorem sameValues_symm {b1 b2 : GameBoard} (h : sameValues b1 b2) :
    sameValues b2 b1 :=
  fun p h1 h2 => (h p h1 h2).symm

theorem is_valid_congr_mp {b1 b2 : GameBoard} (h : sameValues b1 b2)
    (hv : GameBoard.is_valid b1 = true) : GameBoard.is_valid b2 = true := by
  unfold GameBoard.is_valid sudokuComponents at hv ⊢
  rw [List.all_eq_true] at hv ⊢
  intro comp hcomp
  rcases List.mem_append.mp hcomp with hcomp | hcomp
  · rcases List.mem_append.mp hcomp with hcomp | hcomp
    · rw [List.mem_map] at hcomp
      obtain ⟨r, hr, rfl⟩ := hcomp
      rw [List.mem_range] at hr
      rw [← isValidComp_row_congr h hr]
      refine hv (rowCells b1 r) ?_
      exact List.mem_append.mpr (.inl (List.mem_append.mpr
        (.inl (List.mem_map.mpr ⟨r, by rwa [List.mem_range], rfl⟩))))
    · rw [List.mem_map] at hcomp
      obtain ⟨c, hc, rfl⟩ := hcomp
      rw [List.mem_range] at hc
      rw [← isValidComp_col_congr h hc]
      refine hv (colCells b1 c) ?_
      exact List.mem_append.mpr (.inl (List.mem_append.mpr
        (.inr (List.mem_map.mpr ⟨c, by rwa [List.mem_range], rfl⟩))))
  · rw [List.mem_flatMap] at hcomp
    obtain ⟨row, hrow, hcomp⟩ := hcomp
    rw [List.mem_map] at hcomp
    obtain ⟨col, hcol, rfl⟩ := hcomp
    rw [List.mem_range] at hrow hcol
    rw [← isValidComp_house_congr h hcol hrow]
    refine hv (houseCells b1 col row) ?_
    exact List.mem_append.mpr (.inr (List.mem_flatMap.mpr
      ⟨row, by rwa [List.mem_range], List.mem_map.mpr
        ⟨col, by rwa [List.mem_range], rfl⟩⟩))

theorem is_valid_congr {b1 b2 : GameBoard} (h : sameValues b1 b2) :
    GameBoard.is_valid b1 = GameBoard.is_valid b2 := by
  rw [Bool.eq_iff_iff]
  exact ⟨is_valid_congr_mp h, is_valid_congr_mp (sameValues_symm h)⟩

theorem sameValues_updateCell {b1 b2 : GameBoard} (h : sameValues b1 b2)
    (hwf1 : Wf b1) (hwf2 : Wf b2) {ind : CellIndex} (h2 : ind.2 < 9)
    (v : CellValue) :
    sameValues (b1.updateCell ind v) (b2.updateCell ind v) := by
  intro p hp1 hp2
  rw [cell_value_updateCell hwf1 ind p h2 hp1 hp2 v,
    cell_value_updateCell hwf2 ind p h2 hp1 hp2 v]
  by_cases hpe : p = ind
  · rw [if_pos hpe, if_pos hpe]
  · rw [if_neg hpe, if_neg hpe]
    exact h p hp1 hp2

theorem affectedValid_congr {b1 b2 : GameBoard} (h : sameValues b1 b2)
    {ind : CellIndex} (h1 : ind.1 < 9) (h2 : ind.2 < 9) :
    affectedValid b1 ind = affectedValid b2 ind := by
  unfold affectedValid
  rw [isValidComp_house_congr h (by omega) (by omega),
    isValidComp_row_congr h h2, isValidComp_col_congr h h1]

theorem validsAt_congr {b1 b2 : GameBoard} (h : sameValues b1 b2)
    (hwf1 : Wf b1) (hwf2 : Wf b2) {ind : CellIndex}
    (h1 : ind.1 < 9) (h2 : ind.2 < 9) :
    validsAt b1 ind = validsAt b2 ind := by
  unfold validsAt
  refine List.filter_congr ?_
  intro v hv
  exact affectedValid_congr (sameValues_updateCell h hwf1 hwf2 h2 _) h1 h2

theorem mem_status_list {s : NoteArray} {v : Nat} (st : NoteStatus) :
    v ∈ s.enum.filterMap
        (fun p => if p.2 = some st then some (p.1 + 1) else none) ↔
      1 ≤ v ∧ statusGet s (v - 1) = some st := by
  rw [List.mem_filterMap]
  constructor
  · rintro ⟨⟨i, x⟩, hmem, hif⟩
    simp only [] at hif
    by_cases hx : x = some st
    · rw [if_pos hx] at hif
      have hvi : v = i + 1 := (Option.some.inj hif).symm
      subst hvi
      rw [List.mem_enum_iff_getElem?] at hmem
      refine ⟨by omega, ?_⟩
      unfold statusGet
      rw [List.getD_eq_getElem?_getD]
      simp only [Nat.add_sub_cancel, hmem, Option.getD_some]
      exact hx
    · rw [if_neg hx] at hif
      cases hif
  · rintro ⟨hv1, hst⟩
    have hsome : s[v - 1]? = some (some st) := by
      unfold statusGet at hst
      rw [List.getD_eq_getElem?_getD] at hst
      cases hg : s[v - 1]? with
      | none => rw [hg] at hst; cases hst
      | some o => rw [hg] at hst; simp only [Option.getD_some] at hst; rw [hst]
    refine ⟨(v - 1, some st), List.mem_enum_iff_getElem?.mpr hsome, ?_⟩
    simp only []
    rw [if_pos trivial, Nat.sub_add_cancel hv1]

theorem as_value_none_cases {c : CellValue} (h : c.as_value = none) :
    c = .Empty ∨ ∃ s, c = .Notes s := by
  cases c with
  | Preset d => cases h
  | Value d => cases h
  | Notes s => exact .inr ⟨s, rfl⟩
  | Empty => exact .inl rfl

theorem set_maybe_notes {b : GameBoard} {ind : CellIndex} {s : NoteArray}
    (v : Nat) (hc : b.cell_value ind = .Notes s) :
    b.set ind .Maybe v =
      if statusGet s (v - 1) = some .Maybe then
        b.updateCell ind (.Notes (statusSet s (v - 1) none))
      else b.updateCell ind (.Notes (statusSet s (v - 1) (some .Maybe))) := by
  unfold GameBoard.set
  rw [hc]

theorem set_maybe_empty {b : GameBoard} {ind : CellIndex} (v : Nat)
    (hc : b.cell_value ind = .Empty) :
    b.set ind .Maybe v =
      b.updateCell ind (.Notes (statusSet noteArrayEmpty (v - 1)
        (some .Maybe))) := by
  unfold GameBoard.set
  rw [hc]

theorem set_maybe_value {b : GameBoard} {ind : CellIndex} (d v : Nat)
    (hc : b.cell_value ind = .Value d) :
    b.set ind .Maybe v = b := by
  unfold GameBoard.set
  rw [hc]

theorem set_maybe_preset {b : GameBoard} {ind : CellIndex} (d v : Nat)
    (hc : b.cell_value ind = .Preset d) :
    b.set ind .Maybe v = b := by
  unfold GameBoard.set
  rw [hc]

theorem set_maybe_wf {b : GameBoard} {ind : CellIndex} (v : Nat)
    (hwf : Wf b) : Wf (b.set ind .Maybe v) := by
  cases hc : b.cell_value ind with
  | Preset d => rw [set_maybe_preset d v hc]; exact hwf
  | Value d => rw [set_maybe_value d v hc]; exact hwf
  | Notes s =>
    rw [set_maybe_notes v hc]
    split <;> exact wf_updateCell hwf _ _
  | Empty => rw [set_maybe_empty v hc]; exact wf_updateCell hwf _ _

theorem set_maybe_other {b : GameBoard} {ind p : CellIndex} (v : Nat)
    (hwf : Wf b) (h2 : ind.2 < 9) (hp1 : p.1 < 9) (hp2 : p.2 < 9)
    (hne : p ≠ ind) :
    (b.set ind .Maybe v).cell_value p = b.cell_value p := by
  cases hc : b.cell_value ind with
  | Preset d => rw [set_maybe_preset d v hc]
  | Value d => rw [set_maybe_value d v hc]
  | Notes s =>
    rw [set_maybe_notes v hc]
    split <;> rw [cell_value_updateCell hwf ind p h2 hp1 hp2, if_neg hne]
  | Empty =>
    rw [set_maybe_empty v hc, cell_value_updateCell hwf ind p h2 hp1 hp2,
      if_neg hne]

theorem foldl_set_maybe_spec {ind : CellIndex} (h1 : ind.1 < 9)
    (h2 : ind.2 < 9) :
    ∀ (l : List Nat) (b : GameBoard), Wf b → l.Nodup →
      (∀ v ∈ l, 1 ≤ v ∧ v ≤ 9) →
      (∀ v ∈ l, flagOf (b.cell_value ind) v = none) →
      (b.cell_value ind = .Empty ∨
        ∃ s, b.cell_value ind = .Notes s ∧ s.length = 9) →
      Wf (l.foldl (fun acc v => acc.set ind .Maybe v) b) ∧
      (∀ p : CellIndex, p.1 < 9 → p.2 < 9 → p ≠ ind →
        (l.foldl (fun acc v => acc.set ind .Maybe v) b).cell_value p
          = b.cell_value p) ∧
      (∀ v ∈ l,
        flagOf ((l.foldl (fun acc v => acc.set ind .Maybe v) b).cell_value ind)
          v = some .Maybe) ∧
      (∀ w, 1 ≤ w → w ∉ l →
        flagOf ((l.foldl (fun acc v => acc.set ind .Maybe v) b).cell_value ind)
          w = flagOf (b.cell_value ind) w) ∧
      ((l.foldl (fun acc v => acc.set ind .Maybe v) b).cell_value ind = .Empty ∨
        ∃ s, (l.foldl (fun acc v => acc.set ind .Maybe v) b).cell_value ind
            = .Notes s ∧ s.length = 9) := by
  intro l
  induction l with
  | nil =>
    intro b hwf _ _ _ hshape
    exact ⟨hwf, fun p _ _ _ => rfl, fun v hv => absurd hv (List.not_mem_nil v),
      fun w _ _ => rfl, hshape⟩
  | cons v0 rest ih =>
    intro b hwf hnd hb hfl hshape
    have hv0b := hb v0 (List.mem_cons_self _ _)
    have hv0fl := hfl v0 (List.mem_cons_self _ _)
    -- the cell after the first toggle, uniformly: Notes s1 with the v0 flag
    -- set to Maybe and all other flags unchanged
    have hstep : ∃ s1,
        (b.set ind .Maybe v0).cell_value ind = .Notes s1 ∧ s1.length = 9 ∧
        statusGet s1 (v0 - 1) = some .Maybe ∧
        (∀ w, 1 ≤ w → w ≠ v0 →
          statusGet s1 (w - 1) = flagOf (b.cell_value ind) w) ∧
        (b.set ind .Maybe v0) = b.updateCell ind (.Notes s1) := by
      rcases hshape with hc | ⟨s, hc, hs9⟩
      · refine ⟨statusSet noteArrayEmpty (v0 - 1) (some .Maybe), ?_, ?_, ?_, ?_, ?_⟩
        · rw [set_maybe_empty v0 hc,
            cell_value_updateCell hwf ind ind h2 h1 h2, if_pos rfl]
        · unfold statusSet noteArrayEmpty
          rw [List.length_set, List.length_replicate]
        · unfold statusGet statusSet
          refine getD_set_self _ _ ?_
          unfold noteArrayEmpty
          rw [List.length_replicate]
          omega
        · intro w hw1 hwne
          rw [statusGet_statusSet_ne _ _ (by omega : v0 - 1 ≠ w - 1),
            statusGet_noteArrayEmpty, hc]
          rfl
        · rw [set_maybe_empty v0 hc]
      · have hnm : statusGet s (v0 - 1) ≠ some .Maybe := by
          intro hx
          have h0 : flagOf (b.cell_value ind) v0 = some NoteStatus.Maybe := by
            rw [hc]
            exact hx
          cases hv0fl.symm.trans h0
        refine ⟨statusSet s (v0 - 1) (some .Maybe), ?_, ?_, ?_, ?_, ?_⟩
        · rw [set_maybe_notes v0 hc, if_neg hnm,
            cell_value_updateCell hwf ind ind h2 h1 h2, if_pos rfl]
        · unfold statusSet
          rw [List.length_set]
          exact hs9
        · unfold statusGet statusSet
          refine getD_set_self _ _ ?_
          rw [hs9]
          omega
        · intro w hw1 hwne
          rw [statusGet_statusSet_ne _ _ (by omega : v0 - 1 ≠ w - 1), hc]
          rfl
        · rw [set_maybe_notes v0 hc, if_neg hnm]
    obtain ⟨s1, hcell1, hs1len, hs1v0, hs1other, hbeq⟩ := hstep
    have hwf1 : Wf (b.set ind .Maybe v0) := set_maybe_wf v0 hwf
    have hndr : rest.Nodup := (List.nodup_cons.mp hnd).2
    have hv0nr : v0 ∉ rest := (List.nodup_cons.mp hnd).1
    have hrest := ih (b.set ind .Maybe v0) hwf1 hndr
      (fun v hv => hb v (List.mem_cons_of_mem _ hv))
      (fun v hv => by
        have hvb := hb v (List.mem_cons_of_mem _ hv)
        have hvne : v ≠ v0 := by
          intro he
          subst he
          exact hv0nr hv
        rw [hcell1]
        show statusGet s1 (v - 1) = none
        rw [hs1other v hvb.1 hvne]
        exact hfl v (List.mem_cons_of_mem _ hv))
      (.inr ⟨s1, hcell1, hs1len⟩)
    rw [List.foldl_cons]
    refine ⟨hrest.1, ?_, ?_, ?_, hrest.2.2.2.2⟩
    · intro p hp1 hp2 hne
      rw [hrest.2.1 p hp1 hp2 hne, set_maybe_other v0 hwf h2 hp1 hp2 hne]
    · intro v hv
      rcases List.mem_cons.mp hv with he | hr
      · subst he
        rw [hrest.2.2.2.1 v hv0b.1 hv0nr, hcell1]
        exact hs1v0
      · exact hrest.2.2.1 v hr
    · intro w hw1 hwl
      have hwv0 : w ≠ v0 := by
        intro he
        subst he
        exact hwl (List.mem_cons_self _ _)
      have hwr : w ∉ rest := fun hr => hwl (List.mem_cons_of_mem _ hr)
      rw [hrest.2.2.2.1 w hw1 hwr, hcell1]
      exact hs1other w hw1 hwv0

theorem mem_validsAt {b : GameBoard} {ind : CellIndex} {v : Nat}
    (h : v ∈ validsAt b ind) : 1 ≤ v ∧ v ≤ 9 := by
  unfold validsAt at h
  rw [List.mem_filter] at h
  have := h.1
  rw [List.mem_range'_1] at this
  omega

theorem validsAt_nodup (b : GameBoard) (ind : CellIndex) :
    (validsAt b ind).Nodup :=
  (List.nodup_range' 1 9).filter _

theorem autoNoteCell_spec {b : GameBoard} {ind : CellIndex} (hwf : Wf b)
    (h1 : ind.1 < 9) (h2 : ind.2 < 9)
    (hnw : cellNotesWf (b.cell_value ind) = true) :
    Wf (b.autoNoteCell ind) ∧
    (∀ p : CellIndex, p.1 < 9 → p.2 < 9 → p ≠ ind →
      (b.autoNoteCell ind).cell_value p = b.cell_value p) ∧
    ((b.autoNoteCell ind).cell_value ind).as_value
      = (b.cell_value ind).as_value ∧
    cellNotesWf ((b.autoNoteCell ind).cell_value ind) = true ∧
    ((b.cell_value ind).as_value = none →
      ∀ v ∈ validsAt b ind,
        flagOf ((b.autoNoteCell ind).cell_value ind) v ≠ none) := by
  unfold GameBoard.autoNoteCell
  by_cases hn : (b.cell_value ind).as_value = none
  · rw [if_pos hn]
    simp only []
    have hshape : b.cell_value ind = .Empty ∨
        ∃ s, b.cell_value ind = .Notes s ∧ s.length = 9 := by
      rcases as_value_none_cases hn with hc | ⟨s, hc⟩
      · exact .inl hc
      · refine .inr ⟨s, hc, ?_⟩
        rw [hc] at hnw
        exact beq_iff_eq.mp hnw
    have hspec := foldl_set_maybe_spec h1 h2
      (((validsAt b ind).filter
        (fun v => decide ¬((((b.cell_value ind).denied_values).getD
          []).contains v = true))).filter
        (fun v => decide ¬((((b.cell_value ind).maybe_values).getD
          []).contains v = true)))
      b hwf
      (((validsAt_nodup b ind).filter _).filter _)
      (fun v hv => by
        rw [List.mem_filter] at hv
        rw [List.mem_filter] at hv
        exact mem_validsAt hv.1.1)
      (fun v hv => by
        rw [List.mem_filter] at hv
        obtain ⟨hv1, hg⟩ := hv
        rw [List.mem_filter] at hv1
        obtain ⟨hvalid, hf⟩ := hv1
        simp only [decide_eq_true_eq] at hf hg
        rcases hshape with hc | ⟨s, hc, hs9⟩
        · rw [hc]
          rfl
        · rw [hc]
          show statusGet s (v - 1) = none
          cases hst : statusGet s (v - 1) with
          | none => rfl
          | some st =>
            cases st with
            | Maybe =>
              exfalso
              refine hg ?_
              rw [hc]
              unfold CellValue.maybe_values
              rw [contains_iff_mem, Option.getD_some]
              exact (mem_status_list .Maybe).mpr ⟨(mem_validsAt hvalid).1, hst⟩
            | Deny =>
              exfalso
              refine hf ?_
              rw [hc]
              unfold CellValue.denied_values
              rw [contains_iff_mem, Option.getD_some]
              exact (mem_status_list .Deny).mpr ⟨(mem_validsAt hvalid).1, hst⟩)
      hshape
    refine ⟨hspec.1, hspec.2.1, ?_, ?_, ?_⟩
    · rw [hn]
      rcases hspec.2.2.2.2 with hc | ⟨s, hc, _⟩ <;> rw [hc] <;> rfl
    · rcases hspec.2.2.2.2 with hc | ⟨s, hc, hs9⟩ <;> rw [hc]
      · rfl
      · show (s.length == 9) = true
        rw [hs9]
        rfl
    · intro _ v hvalid
      by_cases hmem : v ∈ ((validsAt b ind).filter
          (fun v => decide ¬((((b.cell_value ind).denied_values).getD
            []).contains v = true))).filter
          (fun v => decide ¬((((b.cell_value ind).maybe_values).getD
            []).contains v = true))
      · rw [hspec.2.2.1 v hmem]
        intro hx
        cases hx
      · have hv19 := mem_validsAt hvalid
        rw [hspec.2.2.2.1 v hv19.1 hmem]
        rcases hshape with hc | ⟨s, hc, hs9⟩
        · exfalso
          refine hmem ?_
          rw [List.mem_filter]
          refine ⟨?_, ?_⟩
          · rw [List.mem_filter]
            refine ⟨hvalid, ?_⟩
            rw [hc]
            rfl
          · rw [hc]
            rfl
        · rw [hc]
          show statusGet s (v - 1) ≠ none
          cases hst : statusGet s (v - 1) with
          | none =>
            exfalso
            refine hmem ?_
            rw [List.mem_filter]
            refine ⟨?_, ?_⟩
            · rw [List.mem_filter]
              refine ⟨hvalid, ?_⟩
              simp only [decide_eq_true_eq]
              intro hcon
              rw [hc] at hcon
              unfold CellValue.denied_values at hcon
              rw [contains_iff_mem, Option.getD_some] at hcon
              rw [((mem_status_list .Deny).mp hcon).2] at hst
              cases hst
            · simp only [decide_eq_true_eq]
              intro hcon
              rw [hc] at hcon
              unfold CellValue.maybe_values at hcon
              rw [contains_iff_mem, Option.getD_some] at hcon
              rw [((mem_status_list .Maybe).mp hcon).2] at hst
              cases hst
          | some st =>
            intro hx
            cases hx
  · rw [if_neg hn]
    exact ⟨hwf, fun p _ _ _ => rfl, rfl, hnw, fun hcon => absurd hcon hn⟩

theorem auto_note_go_spec :
    ∀ (l : List CellIndex) (b : GameBoard), Wf b →
      (∀ p ∈ l, p.1 < 9 ∧ p.2 < 9) →
      (∀ p : CellIndex, p.1 < 9 → p.2 < 9 →
        cellNotesWf (b.cell_value p) = true) →
      Wf (GameBoard.auto_note_go b l) ∧
      sameValues b (GameBoard.auto_note_go b l) ∧
      (∀ p : CellIndex, p.1 < 9 → p.2 < 9 →
        cellNotesWf ((GameBoard.auto_note_go b l).cell_value p) = true) ∧
      (∀ p : CellIndex, p.1 < 9 → p.2 < 9 → p ∉ l →
        (GameBoard.auto_note_go b l).cell_value p = b.cell_value p) ∧
      (GameBoard.is_valid b = true →
        ∀ ind ∈ l,
          ((GameBoard.auto_note_go b l).cell_value ind).as_value = none →
          ∀ v ∈ validsAt (GameBoard.auto_note_go b l) ind,
            flagOf ((GameBoard.auto_note_go b l).cell_value ind) v ≠ none) := by
  intro l
  induction l with
  | nil =>
    intro b hwf _ hnw
    exact ⟨hwf, fun p _ _ => rfl, hnw, fun p _ _ _ => rfl,
      fun _ ind hind => absurd hind (List.not_mem_nil ind)⟩
  | cons ind rest ih =>
    intro b hwf hbounds hnw
    rw [GameBoard.auto_note_go]
    by_cases hv : GameBoard.is_valid b = true
    · rw [if_pos hv]
      have hindb := hbounds ind (List.mem_cons_self _ _)
      have hcell := autoNoteCell_spec hwf hindb.1 hindb.2
        (hnw ind hindb.1 hindb.2)
      have hsv1 : sameValues b (b.autoNoteCell ind) := by
        intro p hp1 hp2
        by_cases hpe : p = ind
        · subst hpe
          exact (hcell.2.2.1).symm
        · rw [hcell.2.1 p hp1 hp2 hpe]
      have hnw1 : ∀ p : CellIndex, p.1 < 9 → p.2 < 9 →
          cellNotesWf ((b.autoNoteCell ind).cell_value p) = true := by
        intro p hp1 hp2
        by_cases hpe : p = ind
        · subst hpe
          exact hcell.2.2.2.1
        · rw [hcell.2.1 p hp1 hp2 hpe]
          exact hnw p hp1 hp2
      have hrest := ih (b.autoNoteCell ind) hcell.1
        (fun p hp => hbounds p (List.mem_cons_of_mem _ hp)) hnw1
      refine ⟨hrest.1, ?_, hrest.2.2.1, ?_, ?_⟩
      · intro p hp1 hp2
        exact (hsv1 p hp1 hp2).trans (hrest.2.1 p hp1 hp2)
      · intro p hp1 hp2 hpl
        rw [hrest.2.2.2.1 p hp1 hp2 (fun hr => hpl (List.mem_cons_of_mem _ hr)),
          hcell.2.1 p hp1 hp2 (fun he => hpl (he ▸ List.mem_cons_self _ _))]
      · intro _ ind' hind' hnone v hvv
        have hv1 : GameBoard.is_valid (b.autoNoteCell ind) = true := by
          rw [← is_valid_congr hsv1]
          exact hv
        by_cases hmem : ind' ∈ rest
        · exact hrest.2.2.2.2 hv1 ind' hmem hnone v hvv
        · have hie : ind' = ind := by
            rcases List.mem_cons.mp hind' with he | hr
            · exact he
            · exact absurd hr hmem
          subst hie
          have hsame : (GameBoard.auto_note_go (b.autoNoteCell ind')
              rest).cell_value ind' = (b.autoNoteCell ind').cell_value ind' :=
            hrest.2.2.2.1 ind' hindb.1 hindb.2 hmem
          rw [hsame] at hnone ⊢
          have hnone0 : ((b.cell_value ind').as_value) = none := by
            rw [← hcell.2.2.1]
            exact hnone
          have hveq : validsAt (GameBoard.auto_note_go (b.autoNoteCell ind')
              rest) ind' = validsAt b ind' := by
            refine validsAt_congr ?_ hrest.1 hwf hindb.1 hindb.2
            intro p hp1 hp2
            exact ((hsv1 p hp1 hp2).trans (hrest.2.1 p hp1 hp2)).symm
          rw [hveq] at hvv
          exact hcell.2.2.2.2 hnone0 v hvv
    · rw [if_neg hv]
      exact ⟨hwf, fun p _ _ => rfl, hnw, fun p _ _ _ => rfl,
        fun hcon => absurd hcon hv⟩

theorem foldl_eq_of_nil {α β : Type} (f : β → α → β) (b : β) {L : List α}
    (h : ∀ a ∈ L, False) : L.foldl f b = b := by
  cases L with
  | nil => rfl
  | cons a t => exact (h a (List.mem_cons_self a t)).elim

theorem autoNoteCell_id {b : GameBoard} {ind : CellIndex}
    (hfl : (b.cell_value ind).as_value = none →
      ∀ v ∈ validsAt b ind, flagOf (b.cell_value ind) v ≠ none) :
    b.autoNoteCell ind = b := by
  unfold GameBoard.autoNoteCell
  by_cases hn : (b.cell_value ind).as_value = none
  · rw [if_pos hn]
    refine foldl_eq_of_nil _ _ ?_
    intro v hv
    rw [List.mem_filter] at hv
    obtain ⟨hv1, hg⟩ := hv
    rw [List.mem_filter] at hv1
    obtain ⟨hvalid, hf⟩ := hv1
    simp only [decide_eq_true_eq] at hf hg
    have hflag := hfl hn v hvalid
    cases hc : b.cell_value ind with
    | Preset d => rw [hc] at hflag; exact hflag rfl
    | Value d => rw [hc] at hflag; exact hflag rfl
    | Empty => rw [hc] at hflag; exact hflag rfl
    | Notes s =>
      rw [hc] at hflag
      cases hst : statusGet s (v - 1) with
      | none => exact hflag hst
      | some st =>
        cases st with
        | Maybe =>
          refine hg ?_
          rw [hc]
          unfold CellValue.maybe_values
          rw [contains_iff_mem, Option.getD_some]
          exact (mem_status_list .Maybe).mpr ⟨(mem_validsAt hvalid).1, hst⟩
        | Deny =>
          refine hf ?_
          rw [hc]
          unfold CellValue.denied_values
          rw [contains_iff_mem, Option.getD_some]
          exact (mem_status_list .Deny).mpr ⟨(mem_validsAt hvalid).1, hst⟩
  · rw [if_neg hn]

theorem auto_note_go_id :
    ∀ (l : List CellIndex) (b : GameBoard), GameBoard.is_valid b = true →
      (∀ ind ∈ l, b.autoNoteCell ind = b) →
      GameBoard.auto_note_go b l = b := by
  intro l
  induction l with
  | nil => intro b _ _; rfl
  | cons ind rest ih =>
    intro b hv hall
    rw [GameBoard.auto_note_go, if_pos hv, hall ind (List.mem_cons_self _ _)]
    exact ih b hv (fun i hi => hall i (List.mem_cons_of_mem _ hi))

/-- C4: auto_note is idempotent on every valid, well-shaped board: the
second pass finds every placeable digit of every unset cell already flagged
Maybe or Deny, so it changes nothing. -/
theorem c4_auto_note_idempotent (b : GameBoard) (hwf : Wf b)
    (hnw : NotesWfB b = true) (hv : GameBoard.is_valid b = true) :
    (b.auto_note).auto_note = b.auto_note := by
  have hnw' : ∀ p : CellIndex, p.1 < 9 → p.2 < 9 →
      cellNotesWf (b.cell_value p) = true := by
    intro p hp1 hp2
    exact List.all_eq_true.mp hnw p (mem_rowMajorIndices.mpr ⟨hp1, hp2⟩)
  have hspec := auto_note_go_spec rowMajorIndices b hwf
    (fun p hp => mem_rowMajorIndices.mp hp) hnw'
  unfold GameBoard.auto_note
  refine auto_note_go_id rowMajorIndices _ ?_ ?_
  · rw [← is_valid_congr hspec.2.1]
    exact hv
  · intro ind hind
    refine autoNoteCell_id ?_
    intro hnone v hvv
    exact hspec.2.2.2.2 hv ind hind hnone v hvv

/-- Witness for C4 at a valid board with two empty cells. -/
theorem c4_auto_note_idempotent_witness :
    Wf cexC7 ∧ NotesWfB cexC7 = true ∧ GameBoard.is_valid cexC7 = true ∧
    (cexC7.auto_note).auto_note = cexC7.auto_note :=
  ⟨by decide, by decide, by decide,
   c4_auto_note_idempotent cexC7 (by decide) (by decide) (by decide)⟩

/-! ## C2: the size budget of the Solutions Tree -/

theorem char_fold :
    ∀ (entries : List (CellIndex × Nat)) (found : List FoundSt)
      (inv : List CellIndex) (P : List Nat),
      (∀ e ∈ entries, 1 ≤ e.2 ∧ e.2 ≤ 9) →
      FoundRep found P →
      (inv = [] ↔ P.Nodup) →
      ((entries.foldl invalidStep (found, inv)).2 = [] ↔
        (P ++ entries.map Prod.snd).Nodup) := by
  intro entries
  induction entries with
  | nil =>
    intro found inv P _ _ hinv
    simpa using hinv
  | cons e rest ih =>
    intro found inv P h9 hrep hinv
    have he9 := h9 e (List.mem_cons_self _ _)
    have hk : e.2 - 1 < 9 := by omega
    have hkk : e.2 - 1 + 1 = e.2 := by omega
    rw [List.foldl_cons]
    have hstep : invalidStep (found, inv) e =
        match found.getD (e.2 - 1) .many with
        | .empty => (found.set (e.2 - 1) (.one e.1), inv)
        | .one old => (found.set (e.2 - 1) .many, inv ++ [old, e.1])
        | .many => (found, inv ++ [e.1]) := by
      unfold invalidStep
      rw [if_pos hk]
    cases hf : found.getD (e.2 - 1) .many with
    | empty =>
      rw [hstep, hf]
      have hcount : P.count e.2 = 0 := by
        rw [← hkk]
        exact ((hrep.2 _ hk).1).mp hf
      have hrep' : FoundRep (found.set (e.2 - 1) (.one e.1)) (P ++ [e.2]) := by
        refine ⟨by rw [List.length_set]; exact hrep.1, ?_⟩
        intro k hk'
        by_cases hke : k = e.2 - 1
        · subst hke
          rw [getD_set_self _ _ (by rw [hrep.1]; omega)]
          rw [List.count_append, hkk]
          simp [hcount]
        · rw [getD_set_ne _ _ (fun h => hke h.symm)]
          rw [List.count_append]
          have hne : ¬ (k + 1 = e.2) := by omega
          simp only [List.count_singleton]
          rw [if_neg (by simp only [beq_iff_eq]; omega)]
          simpa using hrep.2 k hk'
      have hinv' : inv = [] ↔ (P ++ [e.2]).Nodup := by
        rw [hinv]
        constructor
        · intro hnd
          refine List.Nodup.append hnd (List.nodup_singleton _) ?_
          intro a ha hb
          rw [List.mem_singleton] at hb
          subst hb
          rw [← List.count_pos_iff] at ha
          omega
        · intro hnd
          exact hnd.of_append_left
      have := ih (found.set (e.2 - 1) (.one e.1)) inv (P ++ [e.2])
        (fun x hx => h9 x (List.mem_cons_of_mem _ hx)) hrep' hinv'
      rw [this]
      simp [List.append_assoc]
    | one old =>
      rw [hstep, hf]
      have hcount : P.count e.2 = 1 := by
        rw [← hkk]
        exact ((hrep.2 _ hk).2.1).mp ⟨old, hf⟩
      have hrep' : FoundRep (found.set (e.2 - 1) .many) (P ++ [e.2]) := by
        refine ⟨by rw [List.length_set]; exact hrep.1, ?_⟩
        intro k hk'
        by_cases hke : k = e.2 - 1
        · subst hke
          rw [getD_set_self _ _ (by rw [hrep.1]; omega)]
          rw [List.count_append, hkk]
          simp [hcount]
        · rw [getD_set_ne _ _ (fun h => hke h.symm)]
          rw [List.count_append]
          have hne : ¬ (k + 1 = e.2) := by omega
          simp only [List.count_singleton]
          rw [if_neg (by simp only [beq_iff_eq]; omega)]
          simpa using hrep.2 k hk'
      have hinv' : inv ++ [old, e.1] = [] ↔ (P ++ [e.2]).Nodup := by
        constructor
        · intro h
          cases (List.append_eq_nil.mp h).2
        · intro hnd
          exfalso
          have : (P ++ [e.2]).count e.2 ≤ 1 :=
            List.nodup_iff_count_le_one.mp hnd e.2
          rw [List.count_append] at this
          simp at this
          omega
      have := ih (found.set (e.2 - 1) .many) (inv ++ [old, e.1]) (P ++ [e.2])
        (fun x hx => h9 x (List.mem_cons_of_mem _ hx)) hrep' hinv'
      rw [this]
      simp [List.append_assoc]
    | many =>
      rw [hstep, hf]
      have hcount : 2 ≤ P.count e.2 := by
        rw [← hkk]
        exact ((hrep.2 _ hk).2.2).mp hf
      have hrep' : FoundRep found (P ++ [e.2]) := by
        refine ⟨hrep.1, ?_⟩
        intro k hk'
        rw [List.count_append]
        by_cases hke : k = e.2 - 1
        · subst hke
          rw [hkk]
          simp only [List.count_singleton, if_pos rfl]
          constructor
          · constructor
            · intro h; rw [h] at hf; cases hf
            · intro h; omega
          constructor
          · constructor
            · rintro ⟨i, h⟩; rw [h] at hf; cases hf
            · intro h; omega
          · constructor
            · intro _; omega
            · intro _; exact hf
        · have hne : ¬ (k + 1 = e.2) := by omega
          simp only [List.count_singleton]
          rw [if_neg (by simp only [beq_iff_eq]; omega)]
          simpa using hrep.2 k hk'
      have hinv' : inv ++ [e.1] = [] ↔ (P ++ [e.2]).Nodup := by
        constructor
        · intro h
          cases (List.append_eq_nil.mp h).2
        · intro hnd
          exfalso
          have : (P ++ [e.2]).count e.2 ≤ 1 :=
            List.nodup_iff_count_le_one.mp hnd e.2
          rw [List.count_append] at this
          simp at this
          omega
      have := ih found (inv ++ [e.1]) (P ++ [e.2])
        (fun x hx => h9 x (List.mem_cons_of_mem _ hx)) hrep' hinv'
      rw [this]
      simp [List.append_assoc]

theorem foundRep_init : FoundRep (List.replicate 9 .empty) [] := by
  refine ⟨List.length_replicate 9 _, ?_⟩
  intro k hk
  have hg : (List.replicate 9 (FoundSt.empty)).getD k .many = .empty := by
    rw [List.getD_eq_getElem?_getD, List.getElem?_replicate, if_pos hk]
    rfl
  rw [hg]
  refine ⟨⟨fun _ => rfl, fun _ => rfl⟩, ⟨?_, ?_⟩, ⟨?_, ?_⟩⟩
  · rintro ⟨i, h⟩; cases h
  · intro h; simp at h
  · intro h; cases h
  · intro h; simp at h

theorem isValidComp_iff_nodup {cells : List (CellIndex × CellValue)}
    (h9 : ∀ e ∈ indicesAndValues cells, 1 ≤ e.2 ∧ e.2 ≤ 9) :
    isValidComp cells = true ↔
      ((indicesAndValues cells).map Prod.snd).Nodup := by
  unfold isValidComp invalid_cells
  rw [List.isEmpty_iff]
  have h0 := char_fold (indicesAndValues cells) (List.replicate 9 .empty) []
    [] h9 foundRep_init (by simp)
  simpa using h0

theorem map_snd_iav (b : GameBoard) (idxs : List CellIndex) :
    ((indicesAndValues (idxs.map (fun ind => (ind, b.cell_value ind)))).map
      Prod.snd) = digitsOf b idxs := by
  unfold indicesAndValues digitsOf
  rw [List.filterMap_map, List.map_filterMap]
  refine List.filterMap_congr ?_
  intro p hp
  simp only [Function.comp]
  cases (b.cell_value p).as_value <;> rfl

theorem rowCells_eq_idxs (b : GameBoard) (r : Nat) :
    rowCells b r = (rowIdxs r).map (fun ind => (ind, b.cell_value ind)) := by
  unfold rowIdxs
  rw [List.map_map]
  rfl

theorem colCells_eq_idxs (b : GameBoard) (c : Nat) :
    colCells b c = (colIdxs c).map (fun ind => (ind, b.cell_value ind)) := by
  unfold colIdxs
  rw [List.map_map]
  rfl

theorem houseCells_eq_idxs (b : GameBoard) (x y : Nat) :
    houseCells b x y
      = (houseIdxs x y).map (fun ind => (ind, b.cell_value ind)) := by
  unfold houseIdxs
  rw [List.map_flatMap]
  simp only [List.map_map]
  rfl

theorem mem_rowIdxs {p : CellIndex} {r : Nat} :
    p ∈ rowIdxs r ↔ p.1 < 9 ∧ p.2 = r := by
  unfold rowIdxs
  simp only [List.mem_map, List.mem_range]
  constructor
  · rintro ⟨c, hc, rfl⟩
    exact ⟨hc, rfl⟩
  · rintro ⟨h1, h2⟩
    exact ⟨p.1, h1, by rw [← h2]⟩

theorem mem_colIdxs {p : CellIndex} {c : Nat} :
    p ∈ colIdxs c ↔ p.1 = c ∧ p.2 < 9 := by
  unfold colIdxs
  simp only [List.mem_map, List.mem_range]
  constructor
  · rintro ⟨r, hr, rfl⟩
    exact ⟨rfl, hr⟩
  · rintro ⟨h1, h2⟩
    exact ⟨p.2, h2, by rw [← h1]⟩

theorem mem_houseIdxs {p : CellIndex} {x y : Nat} (hx : x < 3) (hy : y < 3) :
    p ∈ houseIdxs x y ↔ p.1 / 3 = y ∧ p.2 / 3 = x := by
  unfold houseIdxs
  simp only [List.mem_flatMap, List.mem_map, List.mem_range]
  constructor
  · rintro ⟨j, hj, i, hi, rfl⟩
    constructor <;> simp only [] <;> omega
  · rintro ⟨h1, h2⟩
    refine ⟨p.2 - x * 3, by omega, p.1 - y * 3, by omega, ?_⟩
    have e1 : y * 3 + (p.1 - y * 3) = p.1 := by omega
    have e2 : x * 3 + (p.2 - x * 3) = p.2 := by omega
    rw [e1, e2]

theorem rowIdxs_bounds {r : Nat} (hr : r < 9) :
    ∀ p ∈ rowIdxs r, p.1 < 9 ∧ p.2 < 9 := by
  intro p hp
  obtain ⟨h1, h2⟩ := mem_rowIdxs.mp hp
  omega

theorem colIdxs_bounds {c : Nat} (hc : c < 9) :
    ∀ p ∈ colIdxs c, p.1 < 9 ∧ p.2 < 9 := by
  intro p hp
  obtain ⟨h1, h2⟩ := mem_colIdxs.mp hp
  omega

theorem houseIdxs_bounds {x y : Nat} (hx : x < 3) (hy : y < 3) :
    ∀ p ∈ houseIdxs x y, p.1 < 9 ∧ p.2 < 9 := by
  intro p hp
  obtain ⟨h1, h2⟩ := (mem_houseIdxs hx hy).mp hp
  omega

theorem rowIdxs_nodup (r : Nat) : (rowIdxs r).Nodup := by
  unfold rowIdxs
  refine List.Nodup.map ?_ (List.nodup_range 9)
  intro a b h
  exact congrArg Prod.fst h

theorem colIdxs_nodup (c : Nat) : (colIdxs c).Nodup := by
  unfold colIdxs
  refine List.Nodup.map ?_ (List.nodup_range 9)
  intro a b h
  exact congrArg Prod.snd h

theorem houseIdxs_nodup (x y : Nat) : (houseIdxs x y).Nodup := by
  unfold houseIdxs
  rw [List.nodup_flatMap]
  constructor
  · intro j hj
    refine List.Nodup.map ?_ (List.nodup_range 3)
    intro a b h
    have := congrArg Prod.fst h
    simp only [] at this
    omega
  · refine (List.pairwise_lt_range 3).imp ?_
    intro j1 j2 hlt q hq1 hq2
    simp only [List.mem_map, List.mem_range] at hq1 hq2
    obtain ⟨i1, _, h1⟩ := hq1
    obtain ⟨i2, _, h2⟩ := hq2
    have e1 : q.2 = x * 3 + j1 := by rw [← h1]
    have e2 : q.2 = x * 3 + j2 := by rw [← h2]
    omega

theorem is_valid_iff_forall (b : GameBoard) :
    GameBoard.is_valid b = true ↔
      (∀ r, r < 9 → isValidComp (rowCells b r) = true) ∧
      (∀ c, c < 9 → isValidComp (colCells b c) = true) ∧
      (∀ x y, x < 3 → y < 3 → isValidComp (houseCells b x y) = true) := by
  unfold GameBoard.is_valid sudokuComponents
  rw [List.all_eq_true]
  constructor
  · intro h
    refine ⟨?_, ?_, ?_⟩
    · intro r hr
      exact h _ (List.mem_append.mpr (.inl (List.mem_append.mpr
        (.inl (List.mem_map.mpr ⟨r, List.mem_range.mpr hr, rfl⟩)))))
    · intro c hc
      exact h _ (List.mem_append.mpr (.inl (List.mem_append.mpr
        (.inr (List.mem_map.mpr ⟨c, List.mem_range.mpr hc, rfl⟩)))))
    · intro x y hx hy
      exact h _ (List.mem_append.mpr (.inr (List.mem_flatMap.mpr
        ⟨y, List.mem_range.mpr hy, List.mem_map.mpr
          ⟨x, List.mem_range.mpr hx, rfl⟩⟩)))
  · rintro ⟨h1, h2, h3⟩ comp hcomp
    rcases List.mem_append.mp hcomp with hcomp | hcomp
    · rcases List.mem_append.mp hcomp with hcomp | hcomp
      · rw [List.mem_map] at hcomp
        obtain ⟨r, hr, rfl⟩ := hcomp
        exact h1 r (List.mem_range.mp hr)
      · rw [List.mem_map] at hcomp
        obtain ⟨c, hc, rfl⟩ := hcomp
        exact h2 c (List.mem_range.mp hc)
    · rw [List.mem_flatMap] at hcomp
      obtain ⟨row, hrow, hcomp⟩ := hcomp
      rw [List.mem_map] at hcomp
      obtain ⟨col, hcol, rfl⟩ := hcomp
      exact h3 col row (List.mem_range.mp hcol) (List.mem_range.mp hrow)

theorem digitsOk_pointwise {b : GameBoard} (hd : digitsOkB b = true)
    {p : CellIndex} (h1 : p.1 < 9) (h2 : p.2 < 9) {v : Nat}
    (hv : (b.cell_value p).as_value = some v) : 1 ≤ v ∧ v ≤ 9 := by
  have h0 := List.all_eq_true.mp hd p (mem_rowMajorIndices.mpr ⟨h1, h2⟩)
  simp only [hv] at h0
  simp only [decide_eq_true_eq] at h0
  exact h0

theorem mem_digitsOf {b : GameBoard} {idxs : List CellIndex} {v : Nat} :
    v ∈ digitsOf b idxs ↔
      ∃ p ∈ idxs, (b.cell_value p).as_value = some v := by
  unfold digitsOf
  rw [List.mem_filterMap]

theorem digitsOf_range {b : GameBoard} (hd : digitsOkB b = true)
    {idxs : List CellIndex} (hb : ∀ p ∈ idxs, p.1 < 9 ∧ p.2 < 9) :
    ∀ v ∈ digitsOf b idxs, 1 ≤ v ∧ v ≤ 9 := by
  intro v hv
  obtain ⟨p, hp, hval⟩ := mem_digitsOf.mp hv
  exact digitsOk_pointwise hd (hb p hp).1 (hb p hp).2 hval

theorem iav_range {b : GameBoard} (hd : digitsOkB b = true)
    {idxs : List CellIndex} (hb : ∀ p ∈ idxs, p.1 < 9 ∧ p.2 < 9) :
    ∀ e ∈ indicesAndValues
      (idxs.map (fun ind => (ind, b.cell_value ind))), 1 ≤ e.2 ∧ e.2 ≤ 9 := by
  intro e he
  have hsnd : e.2 ∈ digitsOf b idxs := by
    rw [← map_snd_iav]
    exact List.mem_map.mpr ⟨e, he, rfl⟩
  exact digitsOf_range hd hb e.2 hsnd

theorem isValidComp_idxs_iff {b : GameBoard} (hd : digitsOkB b = true)
    (idxs : List CellIndex) (hb : ∀ p ∈ idxs, p.1 < 9 ∧ p.2 < 9) :
    isValidComp (idxs.map (fun ind => (ind, b.cell_value ind))) = true ↔
      (digitsOf b idxs).Nodup := by
  rw [isValidComp_iff_nodup (iav_range hd hb), map_snd_iav]

theorem contains_eq_false_iff {l : List Nat} {a : Nat} :
    l.contains a = false ↔ a ∉ l := by
  rw [Bool.eq_false_iff]
  constructor
  · intro h hmem
    exact h (contains_iff_mem.mpr hmem)
  · intro h hc
    exact h (contains_iff_mem.mp hc)

theorem digitsOf_cons (b : GameBoard) (p : CellIndex)
    (rest : List CellIndex) :
    digitsOf b (p :: rest) =
      match (b.cell_value p).as_value with
      | some v => v :: digitsOf b rest
      | none => digitsOf b rest := by
  unfold digitsOf
  rw [List.filterMap_cons]
  cases (b.cell_value p).as_value <;> rfl

theorem digitsOf_congr_of_unchanged {b b' : GameBoard}
    {idxs : List CellIndex}
    (h : ∀ p ∈ idxs, b'.cell_value p = b.cell_value p) :
    digitsOf b' idxs = digitsOf b idxs := by
  unfold digitsOf
  refine List.filterMap_congr ?_
  intro p hp
  rw [h p hp]

theorem digitsOf_update_not_mem {b : GameBoard} (hwf : Wf b)
    {ci : CellIndex} (h2 : ci.2 < 9) (v : CellValue)
    {idxs : List CellIndex} (hb : ∀ p ∈ idxs, p.1 < 9 ∧ p.2 < 9)
    (hnm : ci ∉ idxs) :
    digitsOf (b.updateCell ci v) idxs = digitsOf b idxs := by
  refine digitsOf_congr_of_unchanged ?_
  intro p hp
  rw [cell_value_updateCell hwf ci p h2 (hb p hp).1 (hb p hp).2,
    if_neg (fun he => hnm (by rw [← he]; exact hp))]

theorem digitsOf_update_perm {b : GameBoard} (hwf : Wf b)
    {ci : CellIndex} (h2 : ci.2 < 9)
    (hunset : (b.cell_value ci).as_value = none) (val : Nat) :
    ∀ idxs : List CellIndex, idxs.Nodup →
      (∀ p ∈ idxs, p.1 < 9 ∧ p.2 < 9) → ci ∈ idxs →
      (digitsOf (b.updateCell ci (.Value val)) idxs).Perm
        (val :: digitsOf b idxs) := by
  intro idxs
  induction idxs with
  | nil => intro _ _ h; cases h
  | cons p rest ih =>
    intro hnd hb hmem
    have hbp := hb p (List.mem_cons_self _ _)
    by_cases hpe : p = ci
    · have hcirest : ci ∉ rest := fun hr => (List.nodup_cons.mp hnd).1
        (hpe ▸ hr)
      have e1 : ((b.updateCell ci (.Value val)).cell_value p).as_value
          = some val := by
        rw [hpe, cell_value_updateCell hwf ci ci h2 (hpe ▸ hbp).1
          (hpe ▸ hbp).2, if_pos rfl]
        rfl
      have e2 : (b.cell_value p).as_value = none := by
        rw [hpe]
        exact hunset
      rw [digitsOf_cons, digitsOf_cons, e1, e2]
      simp only []
      refine List.Perm.cons val ?_
      have := digitsOf_update_not_mem hwf h2 (.Value val)
        (fun q hq => hb q (List.mem_cons_of_mem _ hq)) hcirest
      rw [this]
    · have hmem' : ci ∈ rest := by
        rcases List.mem_cons.mp hmem with h | h
        · exact absurd h.symm hpe
        · exact h
      have e0 : (b.updateCell ci (.Value val)).cell_value p
          = b.cell_value p := by
        rw [cell_value_updateCell hwf ci p h2 hbp.1 hbp.2, if_neg hpe]
      rw [digitsOf_cons, digitsOf_cons, e0]
      have ihr := ih (List.nodup_cons.mp hnd).2
        (fun q hq => hb q (List.mem_cons_of_mem _ hq)) hmem'
      cases hv : (b.cell_value p).as_value with
      | none => simpa using ihr
      | some d =>
        simp only []
        exact (ihr.cons d).trans (List.Perm.swap val d _)

theorem digitsOk_updateCell {b : GameBoard} (hwf : Wf b)
    (hd : digitsOkB b = true) {ci : CellIndex} (h2 : ci.2 < 9)
    {val : Nat} (hval1 : 1 ≤ val) (hval9 : val ≤ 9) :
    digitsOkB (b.updateCell ci (.Value val)) = true := by
  unfold digitsOkB
  rw [List.all_eq_true]
  intro p hp
  obtain ⟨hp1, hp2⟩ := mem_rowMajorIndices.mp hp
  rw [cell_value_updateCell hwf ci p h2 hp1 hp2]
  by_cases hpe : p = ci
  · rw [if_pos hpe]
    simp only [CellValue.as_value]
    simp only [decide_eq_true_eq]
    omega
  · rw [if_neg hpe]
    exact List.all_eq_true.mp hd p hp

theorem update_is_valid_iff {b : GameBoard} (hwf : Wf b)
    (hv : GameBoard.is_valid b = true) (hd : digitsOkB b = true)
    {ci : CellIndex} (h1 : ci.1 < 9) (h2 : ci.2 < 9)
    (hunset : (b.cell_value ci).as_value = none) {val : Nat}
    (hval1 : 1 ≤ val) (hval9 : val ≤ 9) :
    GameBoard.is_valid (b.updateCell ci (.Value val)) = true
      ↔ okPlace b ci val = true := by
  have hwf' : Wf (b.updateCell ci (.Value val)) := wf_updateCell hwf _ _
  have hd' : digitsOkB (b.updateCell ci (.Value val)) = true :=
    digitsOk_updateCell hwf hd h2 hval1 hval9
  obtain ⟨hr0, hc0, hh0⟩ := (is_valid_iff_forall b).mp hv
  have hpermrow := digitsOf_update_perm hwf h2 hunset val (rowIdxs ci.2)
    (rowIdxs_nodup _) (rowIdxs_bounds h2) (mem_rowIdxs.mpr ⟨h1, rfl⟩)
  have hpermcol := digitsOf_update_perm hwf h2 hunset val (colIdxs ci.1)
    (colIdxs_nodup _) (colIdxs_bounds h1) (mem_colIdxs.mpr ⟨rfl, h2⟩)
  have hpermhouse := digitsOf_update_perm hwf h2 hunset val
    (houseIdxs (ci.2 / 3) (ci.1 / 3)) (houseIdxs_nodup _ _)
    (houseIdxs_bounds (by omega) (by omega))
    ((mem_houseIdxs (by omega) (by omega)).mpr ⟨rfl, rfl⟩)
  rw [is_valid_iff_forall]
  unfold okPlace
  simp only [Bool.and_eq_true, Bool.not_eq_true']
  constructor
  · rintro ⟨hr, hc, hh⟩
    refine ⟨⟨?_, ?_⟩, ?_⟩
    · have hrow := hr ci.2 h2
      rw [rowCells_eq_idxs,
        isValidComp_idxs_iff hd' _ (rowIdxs_bounds h2)] at hrow
      exact contains_eq_false_iff.mpr
        (List.nodup_cons.mp (hpermrow.nodup hrow)).1
    · have hcol := hc ci.1 h1
      rw [colCells_eq_idxs,
        isValidComp_idxs_iff hd' _ (colIdxs_bounds h1)] at hcol
      exact contains_eq_false_iff.mpr
        (List.nodup_cons.mp (hpermcol.nodup hcol)).1
    · have hhou := hh (ci.2 / 3) (ci.1 / 3) (by omega) (by omega)
      rw [houseCells_eq_idxs,
        isValidComp_idxs_iff hd' _
          (houseIdxs_bounds (by omega) (by omega))] at hhou
      exact contains_eq_false_iff.mpr
        (List.nodup_cons.mp (hpermhouse.nodup hhou)).1
  · rintro ⟨⟨hokr, hokc⟩, hokh⟩
    refine ⟨?_, ?_, ?_⟩
    · intro r hr
      rw [rowCells_eq_idxs, isValidComp_idxs_iff hd' _ (rowIdxs_bounds hr)]
      by_cases hre : r = ci.2
      · subst hre
        refine hpermrow.symm.nodup ?_
        rw [List.nodup_cons]
        refine ⟨contains_eq_false_iff.mp hokr, ?_⟩
        have := hr0 ci.2 hr
        rw [rowCells_eq_idxs,
          isValidComp_idxs_iff hd _ (rowIdxs_bounds hr)] at this
        exact this
      · rw [digitsOf_update_not_mem hwf h2 _ (rowIdxs_bounds hr)
          (fun hm => hre ((mem_rowIdxs.mp hm).2).symm)]
        have := hr0 r hr
        rw [rowCells_eq_idxs,
          isValidComp_idxs_iff hd _ (rowIdxs_bounds hr)] at this
        exact this
    · intro c hc
      rw [colCells_eq_idxs, isValidComp_idxs_iff hd' _ (colIdxs_bounds hc)]
      by_cases hce : c = ci.1
      · subst hce
        refine hpermcol.symm.nodup ?_
        rw [List.nodup_cons]
        refine ⟨contains_eq_false_iff.mp hokc, ?_⟩
        have := hc0 ci.1 hc
        rw [colCells_eq_idxs,
          isValidComp_idxs_iff hd _ (colIdxs_bounds hc)] at this
        exact this
      · rw [digitsOf_update_not_mem hwf h2 _ (colIdxs_bounds hc)
          (fun hm => hce ((mem_colIdxs.mp hm).1).symm)]
        have := hc0 c hc
        rw [colCells_eq_idxs,
          isValidComp_idxs_iff hd _ (colIdxs_bounds hc)] at this
        exact this
    · intro x y hx hy
      rw [houseCells_eq_idxs,
        isValidComp_idxs_iff hd' _ (houseIdxs_bounds hx hy)]
      by_cases hhe : x = ci.2 / 3 ∧ y = ci.1 / 3
      · obtain ⟨hhx, hhy⟩ := hhe
        subst hhx
        subst hhy
        refine hpermhouse.symm.nodup ?_
        rw [List.nodup_cons]
        refine ⟨contains_eq_false_iff.mp hokh, ?_⟩
        have := hh0 _ _ hx hy
        rw [houseCells_eq_idxs,
          isValidComp_idxs_iff hd _ (houseIdxs_bounds hx hy)] at this
        exact this
      · have hnm : ci ∉ houseIdxs x y := by
          intro hm
          obtain ⟨hm1, hm2⟩ := (mem_houseIdxs hx hy).mp hm
          exact hhe ⟨hm2.symm, hm1.symm⟩
        rw [digitsOf_update_not_mem hwf h2 _ (houseIdxs_bounds hx hy) hnm]
        have := hh0 x y hx hy
        rw [houseCells_eq_idxs,
          isValidComp_idxs_iff hd _ (houseIdxs_bounds hx hy)] at this
        exact this

theorem solveVals_sim (fuel : Nat)
    (hrec1 : ∀ b c, c + optSize (enumTreeF fuel b) < MAX_SOLUTION_SIZE →
        solveHelperF fuel b c
          = (enumTreeF fuel b, c + optSize (enumTreeF fuel b)))
    (hrec2 : ∀ b c, MAX_SOLUTION_SIZE ≤ c + optSize (enumTreeF fuel b) →
        MAX_SOLUTION_SIZE ≤ (solveHelperF fuel b c).2)
    (board : GameBoard) (ci : CellIndex) :
    ∀ (vals : List Nat) (c : Nat),
      (c + sizeList (treeChildren fuel board ci vals) < MAX_SOLUTION_SIZE →
        solveVals (fun b c => solveHelperF fuel b c) board ci vals c
          = (treeChildren fuel board ci vals,
             c + sizeList (treeChildren fuel board ci vals))) ∧
      (MAX_SOLUTION_SIZE ≤ c + sizeList (treeChildren fuel board ci vals) →
        MAX_SOLUTION_SIZE
          ≤ (solveVals (fun b c => solveHelperF fuel b c) board ci vals c).2) := by
  intro vals
  induction vals with
  | nil =>
    intro c
    constructor
    · intro h
      simp [solveVals, treeChildren, sizeList]
    · intro h
      simp only [treeChildren, List.filterMap_nil, sizeList] at h
      simpa [solveVals] using h
  | cons val rest ih =>
    intro c
    by_cases hvv : (board.updateCell ci (.Value val)).is_valid
    · have hch : treeChildren fuel board ci (val :: rest)
          = match enumTreeF fuel (board.updateCell ci (.Value val)) with
            | some t => (val, t) :: treeChildren fuel board ci rest
            | none => treeChildren fuel board ci rest := by
        unfold treeChildren
        rw [List.filterMap_cons, if_pos hvv]
        cases enumTreeF fuel (board.updateCell ci (.Value val)) <;> rfl
      cases het : enumTreeF fuel (board.updateCell ci (.Value val)) with
      | none =>
        rw [het] at hch
        simp only [] at hch
        have hs0 : optSize (enumTreeF fuel (board.updateCell ci (.Value val))) = 0 := by
          rw [het]
          rfl
        constructor
        · intro h
          have hc128 : c + 0 < MAX_SOLUTION_SIZE := by
            have : sizeList (treeChildren fuel board ci (val :: rest)) ≥ 0 :=
              Nat.zero_le _
            omega
          have hr := hrec1 (board.updateCell ci (.Value val)) c (by omega)
          rw [hs0] at hr
          simp only [solveVals, if_pos hvv, hr, het]
          rw [if_neg (by omega)]
          rw [hch]
          exact (ih c).1 (by rw [← hch]; exact h)
        · intro h
          by_cases hcm : MAX_SOLUTION_SIZE ≤ c
          · have hr2 := hrec2 (board.updateCell ci (.Value val)) c (by omega)
            rcases hrr : solveHelperF fuel (board.updateCell ci (.Value val)) c
              with ⟨ropt, rc⟩
            rw [hrr] at hr2
            simp only [] at hr2
            simp only [solveVals, if_pos hvv, hrr]
            cases ropt with
            | some child =>
              simp only []
              rw [if_pos hr2]
              exact hr2
            | none =>
              simp only []
              rw [if_pos hr2]
              exact hr2
          · have hr := hrec1 (board.updateCell ci (.Value val)) c (by omega)
            rw [hs0] at hr
            simp only [solveVals, if_pos hvv, hr, het]
            rw [if_neg (by omega)]
            exact (ih c).2 (by rw [hch] at h; exact h)
      | some t =>
        rw [het] at hch
        simp only [] at hch
        have hst : optSize (enumTreeF fuel (board.updateCell ci (.Value val)))
            = t.size := by
          rw [het]
          rfl
        have hsz : sizeList (treeChildren fuel board ci (val :: rest))
            = t.size + sizeList (treeChildren fuel board ci rest) := by
          rw [hch, sizeList]
        constructor
        · intro h
          rw [hsz] at h
          have hr := hrec1 (board.updateCell ci (.Value val)) c (by rw [hst]; omega)
          rw [hst, het] at hr
          simp only [solveVals, if_pos hvv, hr]
          rw [if_neg (by omega)]
          have hrest := (ih (c + t.size)).1 (by omega)
          rw [hrest, hch]
          simp only []
          have he : c + sizeList ((val, t) :: treeChildren fuel board ci rest)
              = c + t.size + sizeList (treeChildren fuel board ci rest) := by
            rw [sizeList]
            simp only []
            omega
          rw [he]
        · intro h
          rw [hsz] at h
          by_cases hcs : MAX_SOLUTION_SIZE ≤ c + t.size
          · have hr2 := hrec2 (board.updateCell ci (.Value val)) c (by rw [hst]; omega)
            rcases hrr : solveHelperF fuel (board.updateCell ci (.Value val)) c
              with ⟨ropt, rc⟩
            rw [hrr] at hr2
            simp only [] at hr2
            simp only [solveVals, if_pos hvv, hrr]
            cases ropt with
            | some child =>
              simp only []
              rw [if_pos hr2]
              exact hr2
            | none =>
              simp only []
              rw [if_pos hr2]
              exact hr2
          · have hr := hrec1 (board.updateCell ci (.Value val)) c (by rw [hst]; omega)
            rw [hst, het] at hr
            simp only [solveVals, if_pos hvv, hr]
            rw [if_neg (by omega)]
            have hrest := (ih (c + t.size)).2 (by omega)
            rcases hsv : solveVals (fun b c => solveHelperF fuel b c) board ci
              rest (c + t.size) with ⟨rch, rc2⟩
            rw [hsv] at hrest
            simp only [] at hrest ⊢
            exact hrest
    · have hch : treeChildren fuel board ci (val :: rest)
          = treeChildren fuel board ci rest := by
        unfold treeChildren
        rw [List.filterMap_cons, if_neg hvv]
      rw [hch]
      constructor
      · intro h
        simp only [solveVals, if_neg hvv]
        rw [if_neg (by omega)]
        exact (ih c).1 h
      · intro h
        by_cases hcm : MAX_SOLUTION_SIZE ≤ c
        · simp only [solveVals, if_neg hvv]
          rw [if_pos hcm]
          exact hcm
        · simp only [solveVals, if_neg hvv]
          rw [if_neg hcm]
          exact (ih c).2 h

theorem solveHelperF_sim : ∀ fuel : Nat,
    (∀ b c, c + optSize (enumTreeF fuel b) < MAX_SOLUTION_SIZE →
        solveHelperF fuel b c
          = (enumTreeF fuel b, c + optSize (enumTreeF fuel b))) ∧
    (∀ b c, MAX_SOLUTION_SIZE ≤ c + optSize (enumTreeF fuel b) →
        MAX_SOLUTION_SIZE ≤ (solveHelperF fuel b c).2) := by
  intro fuel
  induction fuel with
  | zero =>
    constructor
    · intro b c h
      simp [solveHelperF, enumTreeF, optSize]
    · intro b c h
      simpa [solveHelperF, enumTreeF, optSize] using h
  | succ fuel ih =>
    constructor
    · intro b c h
      have hguard : ¬ MAX_SOLUTION_SIZE ≤ c := by
        have := Nat.le_add_right c (optSize (enumTreeF (fuel + 1) b))
        omega
      cases hscan : firstUnsetScan b with
      | none =>
        by_cases hvic : (GameBoard.is_valid b && GameBoard.is_complete b)
            = true
        · have he : enumTreeF (fuel + 1) b = some (.Leaf b) := by
            rw [enumTreeF, hscan]
            simp only []
            rw [if_pos hvic]
          rw [he] at h ⊢
          rw [solveHelperF, if_neg hguard, hscan]
          simp only []
          rw [if_pos hvic]
          rfl
        · have he : enumTreeF (fuel + 1) b = none := by
            rw [enumTreeF, hscan]
            simp only []
            rw [if_neg hvic]
          rw [he] at h ⊢
          rw [solveHelperF, if_neg hguard, hscan]
          simp only []
          rw [if_neg hvic]
          rfl
      | some ci =>
        have hsv := solveVals_sim fuel ih.1 ih.2 b ci (List.range' 1 9)
        rcases hchc : treeChildren fuel b ci (List.range' 1 9) with _ | ⟨x, xs⟩
        · have hchc2 := hchc
          unfold treeChildren at hchc2
          have he : enumTreeF (fuel + 1) b = none := by
            rw [enumTreeF, hscan]
            simp only []
            rw [hchc2]
          rw [he] at h ⊢
          rw [solveHelperF, if_neg hguard, hscan]
          simp only []
          have hr := (hsv c).1 (by rw [hchc]; simpa [sizeList] using h)
          rw [hchc] at hr
          rw [hr]
          rfl
        · have hchc2 := hchc
          unfold treeChildren at hchc2
          have he : enumTreeF (fuel + 1) b = some (.Branch b ci (x :: xs)) := by
            rw [enumTreeF, hscan]
            simp only []
            rw [hchc2]
          rw [he] at h ⊢
          have h2 : c + (sizeList (x :: xs) + 1) < MAX_SOLUTION_SIZE := h
          rw [solveHelperF, if_neg hguard, hscan]
          simp only []
          have hr := (hsv c).1 (by rw [hchc]; omega)
          rw [hchc] at hr
          rw [hr]
          simp only []
          have he2 : c + sizeList (x :: xs) + 1
              = c + optSize (some (NodeT.Branch b ci (x :: xs))) := by
            have : optSize (some (NodeT.Branch b ci (x :: xs)))
                = sizeList (x :: xs) + 1 := rfl
            omega
          rw [he2]
    · intro b c h
      by_cases hguard : MAX_SOLUTION_SIZE ≤ c
      · rw [solveHelperF, if_pos hguard]
        exact hguard
      · cases hscan : firstUnsetScan b with
        | none =>
          by_cases hvic : (GameBoard.is_valid b && GameBoard.is_complete b)
              = true
          · have he : enumTreeF (fuel + 1) b = some (.Leaf b) := by
              rw [enumTreeF, hscan]
              simp only []
              rw [if_pos hvic]
            rw [he] at h
            rw [solveHelperF, if_neg hguard, hscan]
            simp only []
            rw [if_pos hvic]
            exact h
          · have he : enumTreeF (fuel + 1) b = none := by
              rw [enumTreeF, hscan]
              simp only []
              rw [if_neg hvic]
            rw [he] at h
            exact absurd (show MAX_SOLUTION_SIZE ≤ c from h) hguard
        | some ci =>
          have hsv := solveVals_sim fuel ih.1 ih.2 b ci (List.range' 1 9)
          rcases hchc : treeChildren fuel b ci (List.range' 1 9)
            with _ | ⟨x, xs⟩
          · have hchc2 := hchc
            unfold treeChildren at hchc2
            have he : enumTreeF (fuel + 1) b = none := by
              rw [enumTreeF, hscan]
              simp only []
              rw [hchc2]
            rw [he] at h
            exact absurd (show MAX_SOLUTION_SIZE ≤ c from h) hguard
          · have hchc2 := hchc
            unfold treeChildren at hchc2
            have he : enumTreeF (fuel + 1) b
                = some (.Branch b ci (x :: xs)) := by
              rw [enumTreeF, hscan]
              simp only []
              rw [hchc2]
            rw [he] at h
            have h2 : MAX_SOLUTION_SIZE ≤ c + (sizeList (x :: xs) + 1) := h
            rw [solveHelperF, if_neg hguard, hscan]
            simp only []
            by_cases hfull : MAX_SOLUTION_SIZE ≤ c + sizeList (x :: xs)
            · have hr := (hsv c).2 (by rw [hchc]; exact hfull)
              rcases hsvv : solveVals (fun b c => solveHelperF fuel b c) b ci
                (List.range' 1 9) c with ⟨rch, rc⟩
              rw [hsvv] at hr
              simp only [] at hr
              cases rch with
              | nil =>
                simp only []
                exact hr
              | cons y ys =>
                simp only []
                exact le_trans hr (Nat.le_succ rc)
            · have hr := (hsv c).1 (by rw [hchc]; omega)
              rw [hchc] at hr
              rw [hr]
              simp only []
              omega

theorem enumTree_eq_enumFast : ∀ (fuel : Nat) (b : GameBoard), Wf b →
    GameBoard.is_valid b = true → digitsOkB b = true →
    enumTreeF fuel b = enumFastF fuel b := by
  intro fuel
  induction fuel with
  | zero => intro b _ _ _; rfl
  | succ fuel ih =>
    intro b hwf hv hd
    rw [enumTreeF, enumFastF]
    cases hscan : firstUnsetScan b with
    | none => rfl
    | some ci =>
      simp only []
      obtain ⟨hsc1, hsc2, hsc3⟩ := firstUnsetScan_some hscan
      have hch : (List.range' 1 9).filterMap (fun val =>
          if (b.updateCell ci (.Value val)).is_valid then
            (enumTreeF fuel (b.updateCell ci (.Value val))).map
              (fun t => (val, t))
          else none)
        = (List.range' 1 9).filterMap (fun val =>
          if okPlace b ci val then
            (enumFastF fuel (b.updateCell ci (.Value val))).map
              (fun t => (val, t))
          else none) := by
        refine List.filterMap_congr ?_
        intro val hval
        rw [List.mem_range'_1] at hval
        have hiff := update_is_valid_iff hwf hv hd hsc1 hsc2 hsc3
          (by omega : 1 ≤ val) (by omega : val ≤ 9)
        by_cases hvv : (b.updateCell ci (.Value val)).is_valid = true
        · rw [if_pos hvv, if_pos (hiff.mp hvv)]
          rw [ih _ (wf_updateCell hwf _ _) hvv
            (digitsOk_updateCell hwf hd hsc2 (by omega) (by omega))]
        · rw [if_neg hvv, if_neg (fun hok => hvv (hiff.mpr hok))]
      rw [hch]

theorem solve_of_small {b : GameBoard}
    (h : optSize (enumTreeF 82 b) < MAX_SOLUTION_SIZE) :
    SolutionsTree.solve b = enumTreeF 82 b := by
  unfold SolutionsTree.solve
  have h1 := (solveHelperF_sim 82).1 b 0 (by omega)
  rw [h1]
  simp only []
  rw [if_neg (by omega)]

theorem solve_of_big {b : GameBoard}
    (h : MAX_SOLUTION_SIZE ≤ optSize (enumTreeF 82 b)) :
    SolutionsTree.solve b = none := by
  have h2 := (solveHelperF_sim 82).2 b 0 (by omega)
  unfold SolutionsTree.solve
  rcases hd : solveHelperF 82 b 0 with ⟨res, counter⟩
  rw [hd] at h2
  simp only [] at h2
  simp only []
  rw [if_pos h2]

theorem solve_iff_enumTree (b : GameBoard) (t : NodeT) :
    SolutionsTree.solve b = some t ↔
      enumTreeF 82 b = some t ∧ t.size < MAX_SOLUTION_SIZE := by
  constructor
  · intro hs
    by_cases hbig : MAX_SOLUTION_SIZE ≤ optSize (enumTreeF 82 b)
    · rw [solve_of_big hbig] at hs
      cases hs
    · have hsmall : optSize (enumTreeF 82 b) < MAX_SOLUTION_SIZE := by omega
      rw [solve_of_small hsmall] at hs
      refine ⟨hs, ?_⟩
      rw [hs] at hsmall
      exact hsmall
  · rintro ⟨he, hsize⟩
    rw [solve_of_small (by rw [he]; exact hsize), he]

theorem leaves_eq_length_aux :
    ∀ n, ∀ t : NodeT, t.size ≤ n → t.leaves = t.leafBoards.length := by
  intro n
  induction n with
  | zero =>
    intro t h
    cases t with
    | Leaf b => rw [NodeT.size] at h; omega
    | Branch b ci ch => rw [NodeT.size] at h; omega
  | succ n ih =>
    intro t h
    cases t with
    | Leaf b => rfl
    | Branch b ci ch =>
      rw [NodeT.leaves, NodeT.leafBoards]
      have key : ∀ cl : List (Nat × NodeT), sizeList cl ≤ n →
          leavesSum cl = (leafBoardsList cl).length := by
        intro cl
        induction cl with
        | nil => intro _; rfl
        | cons p rest ihl =>
          intro hle
          rw [sizeList] at hle
          have hp1 : 1 ≤ p.2.size := by
            cases hsnd : p.2 with
            | Leaf b0 => rw [NodeT.size]
            | Branch b0 ci0 ch0 => rw [NodeT.size]; omega
          rw [leavesSum, leafBoardsList, List.length_append]
          rw [ih p.2 (by omega), ihl (by omega)]
      rw [NodeT.size] at h
      exact key ch (by omega)

theorem leaves_eq_length (t : NodeT) : t.leaves = t.leafBoards.length :=
  leaves_eq_length_aux t.size t (Nat.le_refl _)

theorem firstUnsetScan_none {b : GameBoard} (h : firstUnsetScan b = none) :
    ∀ p : CellIndex, p.1 < 9 → p.2 < 9 →
      ((b.cell_value p).as_value).isSome = true := by
  intro p h1 h2
  unfold firstUnsetScan at h
  have hmem : p ∈ (List.range 9).flatMap (fun j =>
      (List.range 9).map (fun i => ((j, i) : CellIndex))) := by
    simp only [List.mem_flatMap, List.mem_map, List.mem_range]
    exact ⟨p.1, h1, p.2, h2, rfl⟩
  have := List.find?_eq_none.mp h p hmem
  simp only [] at this
  cases hv : (b.cell_value p).as_value with
  | none =>
    exfalso
    refine this ?_
    rw [hv]
    rfl
  | some v => rfl

theorem board_ext {b1 b2 : GameBoard} (h1 : Wf b1) (h2 : Wf b2)
    (h : ∀ p : CellIndex, p.1 < 9 → p.2 < 9 →
      b1.cell_value p = b2.cell_value p) : b1 = b2 := by
  refine List.ext_getElem (by rw [h1.1, h2.1]) ?_
  intro r hr1 hr2
  have hr9 : r < 9 := by
    have := h1.1
    omega
  have hrow1 : b1[r].length = 9 := h1.2 _ (List.getElem_mem hr1)
  have hrow2 : b2[r].length = 9 := h2.2 _ (List.getElem_mem hr2)
  refine List.ext_getElem (by rw [hrow1, hrow2]) ?_
  intro c hc1 hc2
  have hc9 : c < 9 := by omega
  have hcv := h (c, r) hc9 hr9
  unfold GameBoard.cell_value at hcv
  simp only [] at hcv
  rw [List.getD_eq_getElem b1 [] hr1, List.getD_eq_getElem b2 [] hr2,
    List.getD_eq_getElem _ CellValue.Empty hc1,
    List.getD_eq_getElem _ CellValue.Empty hc2] at hcv
  exact hcv

theorem mem_treeChildren {fuel : Nat} {b : GameBoard} {ci : CellIndex}
    {vals : List Nat} {q : Nat × NodeT} :
    q ∈ treeChildren fuel b ci vals ↔
      q.1 ∈ vals ∧ (b.updateCell ci (.Value q.1)).is_valid = true ∧
        enumTreeF fuel (b.updateCell ci (.Value q.1)) = some q.2 := by
  unfold treeChildren
  rw [List.mem_filterMap]
  constructor
  · rintro ⟨val, hval, hf⟩
    by_cases hvv : (b.updateCell ci (.Value val)).is_valid = true
    · rw [if_pos hvv] at hf
      rw [Option.map_eq_some'] at hf
      obtain ⟨t, ht, hq⟩ := hf
      subst hq
      exact ⟨hval, hvv, ht⟩
    · rw [if_neg hvv] at hf
      cases hf
  · rintro ⟨hv1, hv2, hv3⟩
    refine ⟨q.1, hv1, ?_⟩
    rw [if_pos hv2, hv3]
    rfl

theorem rowMajorIndices_nodup : rowMajorIndices.Nodup := by
  unfold rowMajorIndices
  rw [List.nodup_flatMap]
  constructor
  · intro row hrow
    refine List.Nodup.map ?_ (List.nodup_range 9)
    intro a b hab
    exact congrArg Prod.fst hab
  · refine (List.pairwise_lt_range 9).imp ?_
    intro r1 r2 hlt q hq1 hq2
    simp only [List.mem_map, List.mem_range] at hq1 hq2
    obtain ⟨c1, _, e1⟩ := hq1
    obtain ⟨c2, _, e2⟩ := hq2
    have f1 : q.2 = r1 := by rw [← e1]
    have f2 : q.2 = r2 := by rw [← e2]
    omega

theorem length_filter_flip {α : Type} (p q : α → Bool) :
    ∀ l : List α, l.Nodup → ∀ c0 ∈ l, p c0 = true → q c0 = false →
      (∀ a ∈ l, a ≠ c0 → p a = q a) →
      (l.filter q).length + 1 = (l.filter p).length := by
  intro l
  induction l with
  | nil => intro _ c0 h; cases h
  | cons a t ih =>
    intro hnd c0 hc0 hp hq hrest
    rcases List.mem_cons.mp hc0 with he | hmem
    · subst he
      rw [List.filter_cons, List.filter_cons, hp, hq,
        if_pos rfl, if_neg Bool.false_ne_true]
      have hfeq : t.filter q = t.filter p := by
        refine (List.filter_congr ?_).symm
        intro x hx
        exact hrest x (List.mem_cons_of_mem _ hx)
          (fun he2 => (List.nodup_cons.mp hnd).1 (he2 ▸ hx))
      rw [hfeq, List.length_cons]
    · have hane : a ≠ c0 := by
        intro he2
        exact (List.nodup_cons.mp hnd).1 (he2 ▸ hmem)
      have hpa := hrest a (List.mem_cons_self _ _) hane
      rw [List.filter_cons, List.filter_cons, ← hpa]
      have ihr := ih (List.nodup_cons.mp hnd).2 c0 hmem hp hq
        (fun x hx hne => hrest x (List.mem_cons_of_mem _ hx) hne)
      cases hpv : p a with
      | false =>
        rw [if_neg Bool.false_ne_true, if_neg Bool.false_ne_true]
        exact ihr
      | true =>
        rw [if_pos rfl, if_pos rfl, List.length_cons, List.length_cons]
        omega

theorem unsetCount_update {b : GameBoard} (hwf : Wf b) {ci : CellIndex}
    (h1 : ci.1 < 9) (h2 : ci.2 < 9)
    (hunset : (b.cell_value ci).as_value = none) (val : Nat) :
    unsetCount (b.updateCell ci (.Value val)) + 1 = unsetCount b := by
  unfold unsetCount
  refine length_filter_flip _ _ rowMajorIndices rowMajorIndices_nodup ci
    (mem_rowMajorIndices.mpr ⟨h1, h2⟩) ?_ ?_ ?_
  · rw [hunset]
    rfl
  · rw [cell_value_updateCell hwf ci ci h2 h1 h2, if_pos rfl]
    rfl
  · intro a ha hane
    obtain ⟨ha1, ha2⟩ := mem_rowMajorIndices.mp ha
    rw [cell_value_updateCell hwf ci a h2 ha1 ha2, if_neg hane]

theorem filterMap_sublist_of_sub {α β : Type} (f g : α → Option β) :
    ∀ l : List α, (∀ a ∈ l, f a = none ∨ f a = g a) →
      (l.filterMap f).Sublist (l.filterMap g) := by
  intro l
  induction l with
  | nil => intro _; exact List.Sublist.refl _
  | cons a t ih =>
    intro h
    have iht := ih (fun x hx => h x (List.mem_cons_of_mem _ hx))
    rw [List.filterMap_cons, List.filterMap_cons]
    rcases h a (List.mem_cons_self _ _) with hfa | hfa
    · rw [hfa]
      cases hga : g a with
      | none => exact iht
      | some bv => exact iht.cons bv
    · rw [hfa]
      cases hga : g a with
      | none => exact iht
      | some bv => exact iht.cons₂ bv

theorem isValidComp_idxs_iff2 {b : GameBoard} (idxs : List CellIndex)
    (h9 : ∀ v ∈ digitsOf b idxs, 1 ≤ v ∧ v ≤ 9) :
    isValidComp (idxs.map (fun ind => (ind, b.cell_value ind))) = true ↔
      (digitsOf b idxs).Nodup := by
  have hiav : ∀ e ∈ indicesAndValues
      (idxs.map (fun ind => (ind, b.cell_value ind))), 1 ≤ e.2 ∧ e.2 ≤ 9 := by
    intro e he
    refine h9 e.2 ?_
    rw [← map_snd_iav]
    exact List.mem_map.mpr ⟨e, he, rfl⟩
  rw [isValidComp_iff_nodup hiav, map_snd_iav]

theorem digitsOf_sublist {b L : GameBoard}
    (hsub : ∀ p : CellIndex, p.1 < 9 → p.2 < 9 →
      (b.cell_value p).as_value = none ∨
        (b.cell_value p).as_value = (L.cell_value p).as_value)
    {idxs : List CellIndex} (hb : ∀ p ∈ idxs, p.1 < 9 ∧ p.2 < 9) :
    (digitsOf b idxs).Sublist (digitsOf L idxs) := by
  unfold digitsOf
  refine filterMap_sublist_of_sub _ _ idxs ?_
  intro p hp
  exact hsub p (hb p hp).1 (hb p hp).2

theorem valid_of_pointwise_sub {b L : GameBoard}
    (hdL : digitsOkB L = true) (hvL : GameBoard.is_valid L = true)
    (hsub : ∀ p : CellIndex, p.1 < 9 → p.2 < 9 →
      (b.cell_value p).as_value = none ∨
        (b.cell_value p).as_value = (L.cell_value p).as_value) :
    GameBoard.is_valid b = true := by
  obtain ⟨hr0, hc0, hh0⟩ := (is_valid_iff_forall L).mp hvL
  rw [is_valid_iff_forall]
  have hcomp : ∀ idxs : List CellIndex, (∀ p ∈ idxs, p.1 < 9 ∧ p.2 < 9) →
      (digitsOf L idxs).Nodup →
      isValidComp (idxs.map (fun ind => (ind, b.cell_value ind))) = true := by
    intro idxs hbnd hnd
    have hsl := digitsOf_sublist hsub hbnd
    refine (isValidComp_idxs_iff2 idxs ?_).mpr (hnd.sublist hsl)
    intro v hv
    exact digitsOf_range hdL hbnd v (hsl.mem hv)
  refine ⟨?_, ?_, ?_⟩
  · intro r hr
    rw [rowCells_eq_idxs]
    refine hcomp _ (rowIdxs_bounds hr) ?_
    have := hr0 r hr
    rw [rowCells_eq_idxs, isValidComp_idxs_iff hdL _ (rowIdxs_bounds hr)]
      at this
    exact this
  · intro c hc
    rw [colCells_eq_idxs]
    refine hcomp _ (colIdxs_bounds hc) ?_
    have := hc0 c hc
    rw [colCells_eq_idxs, isValidComp_idxs_iff hdL _ (colIdxs_bounds hc)]
      at this
    exact this
  · intro x y hx hy
    rw [houseCells_eq_idxs]
    refine hcomp _ (houseIdxs_bounds hx hy) ?_
    have := hh0 x y hx hy
    rw [houseCells_eq_idxs,
      isValidComp_idxs_iff hdL _ (houseIdxs_bounds hx hy)] at this
    exact this

theorem digitsOk_of_completion {b L : GameBoard} (hd : digitsOkB b = true)
    (hc : isCompletionB b L) : digitsOkB L = true := by
  unfold digitsOkB
  rw [List.all_eq_true]
  intro p hp
  obtain ⟨hp1, hp2⟩ := mem_rowMajorIndices.mp hp
  obtain ⟨_, _, _, hcell⟩ := hc
  cases hv : (b.cell_value p).as_value with
  | some w =>
    rw [(hcell p hp1 hp2).1 (by rw [hv]; rfl)]
    exact List.all_eq_true.mp hd p hp
  | none =>
    obtain ⟨v, hLp, hv1, hv9⟩ := (hcell p hp1 hp2).2 hv
    rw [hLp]
    simp only [CellValue.as_value, decide_eq_true_eq]
    omega

theorem mem_leafBoardsList_iff {L : GameBoard} :
    ∀ {cl : List (Nat × NodeT)},
      L ∈ leafBoardsList cl ↔ ∃ q ∈ cl, L ∈ q.2.leafBoards := by
  intro cl
  induction cl with
  | nil =>
    rw [leafBoardsList]
    simp
  | cons p rest ih =>
    rw [leafBoardsList, List.mem_append, ih]
    constructor
    · rintro (h | ⟨q, hq, hL⟩)
      · exact ⟨p, List.mem_cons_self _ _, h⟩
      · exact ⟨q, List.mem_cons_of_mem _ hq, hL⟩
    · rintro ⟨q, hq, hL⟩
      rcases List.mem_cons.mp hq with he | hm
      · exact Or.inl (he ▸ hL)
      · exact Or.inr ⟨q, hm, hL⟩

theorem enumTree_sound : ∀ fuel : Nat, ∀ b : GameBoard, Wf b →
    ∀ t : NodeT, enumTreeF fuel b = some t → ∀ L ∈ t.leafBoards,
      Wf L ∧ GameBoard.is_valid L = true ∧ GameBoard.is_complete L = true ∧
      ∀ p : CellIndex, p.1 < 9 → p.2 < 9 →
        (((b.cell_value p).as_value).isSome = true →
          L.cell_value p = b.cell_value p) ∧
        (L.cell_value p = b.cell_value p ∨
          ∃ v, L.cell_value p = .Value v ∧ 1 ≤ v ∧ v ≤ 9) ∧
        ((L.cell_value p).as_value).isSome = true := by
  intro fuel
  induction fuel with
  | zero =>
    intro b _ t ht
    simp only [enumTreeF] at ht
    exact Option.noConfusion ht
  | succ fuel ih =>
    intro b hwf t ht L hL
    cases hscan : firstUnsetScan b with
    | none =>
      by_cases hvic : (GameBoard.is_valid b && GameBoard.is_complete b) = true
      · have he : enumTreeF (fuel + 1) b = some (.Leaf b) := by
          rw [enumTreeF, hscan]
          simp only []
          rw [if_pos hvic]
        rw [he] at ht
        injection ht with h3
        subst h3
        rw [NodeT.leafBoards] at hL
        rw [List.mem_singleton] at hL
        subst hL
        rw [Bool.and_eq_true] at hvic
        refine ⟨hwf, hvic.1, hvic.2, ?_⟩
        intro p h1 h2
        exact ⟨fun _ => rfl, Or.inl rfl, firstUnsetScan_none hscan p h1 h2⟩
      · have he : enumTreeF (fuel + 1) b = none := by
          rw [enumTreeF, hscan]
          simp only []
          rw [if_neg hvic]
        rw [he] at ht
        exact Option.noConfusion ht
    | some ci =>
      rcases hchc : treeChildren fuel b ci (List.range' 1 9) with _ | ⟨x, xs⟩
      · have hchc2 := hchc
        unfold treeChildren at hchc2
        have he : enumTreeF (fuel + 1) b = none := by
          rw [enumTreeF, hscan]
          simp only []
          rw [hchc2]
        rw [he] at ht
        exact Option.noConfusion ht
      · have hchc2 := hchc
        unfold treeChildren at hchc2
        have he : enumTreeF (fuel + 1) b = some (.Branch b ci (x :: xs)) := by
          rw [enumTreeF, hscan]
          simp only []
          rw [hchc2]
        rw [he] at ht
        injection ht with h3
        subst h3
        rw [NodeT.leafBoards] at hL
        obtain ⟨q, hq, hLq⟩ := mem_leafBoardsList_iff.mp hL
        rw [← hchc] at hq
        obtain ⟨hq1, hq2, hq3⟩ := mem_treeChildren.mp hq
        obtain ⟨hci1, hci2, hciun⟩ := firstUnsetScan_some hscan
        have hwf' : Wf (b.updateCell ci (.Value q.1)) := wf_updateCell hwf ci _
        obtain ⟨hWL, hvL, hcL, hcells⟩ :=
          ih (b.updateCell ci (.Value q.1)) hwf' q.2 hq3 L hLq
        refine ⟨hWL, hvL, hcL, ?_⟩
        intro p h1 h2
        have hcv := cell_value_updateCell hwf ci p hci2 h1 h2 (.Value q.1)
        by_cases hpci : p = ci
        · subst hpci
          rw [if_pos rfl] at hcv
          have hf : (((b.updateCell p (.Value q.1)).cell_value p).as_value).isSome
              = true := by
            rw [hcv]
            rfl
          have hLp := (hcells p h1 h2).1 hf
          rw [hcv] at hLp
          have hq19 : 1 ≤ q.1 ∧ q.1 ≤ 9 := by
            rw [List.mem_range'_1] at hq1
            omega
          refine ⟨?_, Or.inr ⟨q.1, hLp, hq19.1, hq19.2⟩, by rw [hLp]; rfl⟩
          intro habs
          rw [hciun] at habs
          simp at habs
        · rw [if_neg hpci] at hcv
          have hc3 := hcells p h1 h2
          rw [hcv] at hc3
          exact hc3

theorem enumTree_sound_completion {fuel : Nat} {b : GameBoard} {t : NodeT}
    (hwf : Wf b) (ht : enumTreeF fuel b = some t) :
    ∀ L ∈ t.leafBoards, isCompletionB b L := by
  intro L hL
  obtain ⟨h1, h2, h3, h4⟩ := enumTree_sound fuel b hwf t ht L hL
  refine ⟨h1, h2, h3, ?_⟩
  intro p hp1 hp2
  obtain ⟨g1, g2, g3⟩ := h4 p hp1 hp2
  refine ⟨g1, ?_⟩
  intro hnone
  rcases g2 with g2 | g2
  · exfalso
    rw [g2, hnone] at g3
    simp at g3
  · exact g2

theorem child_leaf_value {fuel : Nat} {b : GameBoard} (hwf : Wf b)
    {ci : CellIndex} (hci1 : ci.1 < 9) (hci2 : ci.2 < 9)
    {q : Nat × NodeT}
    (hq : enumTreeF fuel (b.updateCell ci (.Value q.1)) = some q.2) :
    ∀ L ∈ q.2.leafBoards, L.cell_value ci = .Value q.1 := by
  intro L hL
  have hwf' : Wf (b.updateCell ci (.Value q.1)) := wf_updateCell hwf ci _
  obtain ⟨_, _, _, hcells⟩ := enumTree_sound fuel _ hwf' q.2 hq L hL
  have hcv := cell_value_updateCell hwf ci ci hci2 hci1 hci2 (.Value q.1)
  rw [if_pos rfl] at hcv
  have hres := (hcells ci hci1 hci2).1 (by rw [hcv]; rfl)
  rw [hcv] at hres
  exact hres

theorem treeChildren_keys_sublist (fuel : Nat) (b : GameBoard)
    (ci : CellIndex) :
    ∀ vals : List Nat,
      ((treeChildren fuel b ci vals).map Prod.fst).Sublist vals := by
  intro vals
  induction vals with
  | nil => simp [treeChildren]
  | cons v rest ihr =>
    unfold treeChildren at ihr ⊢
    rw [List.filterMap_cons]
    by_cases hv : (b.updateCell ci (.Value v)).is_valid = true
    · rw [if_pos hv]
      cases het : enumTreeF fuel (b.updateCell ci (.Value v)) with
      | none =>
        simp only [Option.map_none']
        exact List.Sublist.cons v ihr
      | some t0 =>
        simp only [Option.map_some']
        rw [List.map_cons]
        exact List.Sublist.cons₂ v ihr
    · rw [if_neg hv]
      simp only []
      exact List.Sublist.cons v ihr

theorem treeChildren_keys_nodup (fuel : Nat) (b : GameBoard)
    (ci : CellIndex) :
    ((treeChildren fuel b ci (List.range' 1 9)).map Prod.fst).Nodup :=
  (List.nodup_range' 1 9).sublist
    (treeChildren_keys_sublist fuel b ci (List.range' 1 9))

theorem nodup_leafBoardsList (ci : CellIndex) :
    ∀ children : List (Nat × NodeT),
      (∀ q ∈ children, q.2.leafBoards.Nodup) →
      (∀ q ∈ children, ∀ L ∈ q.2.leafBoards,
        L.cell_value ci = .Value q.1) →
      (children.map Prod.fst).Nodup →
      (leafBoardsList children).Nodup := by
  intro children
  induction children with
  | nil =>
    intro _ _ _
    rw [leafBoardsList]
    exact List.nodup_nil
  | cons q rest ih =>
    intro hnd hval hkeys
    rw [leafBoardsList]
    rw [List.nodup_append]
    refine ⟨hnd q (List.mem_cons_self _ _),
      ih (fun x hx => hnd x (List.mem_cons_of_mem _ hx))
        (fun x hx => hval x (List.mem_cons_of_mem _ hx))
        (List.nodup_cons.mp hkeys).2, ?_⟩
    intro L hL1 hL2
    obtain ⟨q', hq', hLq'⟩ := mem_leafBoardsList_iff.mp hL2
    have h1 := hval q (List.mem_cons_self _ _) L hL1
    have h2 := hval q' (List.mem_cons_of_mem _ hq') L hLq'
    rw [h1] at h2
    injection h2 with h3
    refine (List.nodup_cons.mp hkeys).1 ?_
    rw [h3]
    exact List.mem_map.mpr ⟨q', hq', rfl⟩

theorem enumTree_nodup : ∀ fuel : Nat, ∀ b : GameBoard, Wf b →
    ∀ t : NodeT, enumTreeF fuel b = some t → t.leafBoards.Nodup := by
  intro fuel
  induction fuel with
  | zero =>
    intro b _ t ht
    simp only [enumTreeF] at ht
    exact Option.noConfusion ht
  | succ fuel ih =>
    intro b hwf t ht
    cases hscan : firstUnsetScan b with
    | none =>
      by_cases hvic : (GameBoard.is_valid b && GameBoard.is_complete b) = true
      · have he : enumTreeF (fuel + 1) b = some (.Leaf b) := by
          rw [enumTreeF, hscan]
          simp only []
          rw [if_pos hvic]
        rw [he] at ht
        injection ht with h3
        subst h3
        rw [NodeT.leafBoards]
        exact List.nodup_singleton b
      · have he : enumTreeF (fuel + 1) b = none := by
          rw [enumTreeF, hscan]
          simp only []
          rw [if_neg hvic]
        rw [he] at ht
        exact Option.noConfusion ht
    | some ci =>
      obtain ⟨hci1, hci2, _⟩ := firstUnsetScan_some hscan
      rcases hchc : treeChildren fuel b ci (List.range' 1 9) with _ | ⟨x, xs⟩
      · have hchc2 := hchc
        unfold treeChildren at hchc2
        have he : enumTreeF (fuel + 1) b = none := by
          rw [enumTreeF, hscan]
          simp only []
          rw [hchc2]
        rw [he] at ht
        exact Option.noConfusion ht
      · have hchc2 := hchc
        unfold treeChildren at hchc2
        have he : enumTreeF (fuel + 1) b = some (.Branch b ci (x :: xs)) := by
          rw [enumTreeF, hscan]
          simp only []
          rw [hchc2]
        rw [he] at ht
        injection ht with h3
        subst h3
        rw [NodeT.leafBoards]
        refine nodup_leafBoardsList ci (x :: xs) ?_ ?_ ?_
        · intro q hq
          rw [← hchc] at hq
          obtain ⟨_, _, hq3⟩ := mem_treeChildren.mp hq
          exact ih _ (wf_updateCell hwf ci _) q.2 hq3
        · intro q hq
          rw [← hchc] at hq
          obtain ⟨_, _, hq3⟩ := mem_treeChildren.mp hq
          exact child_leaf_value hwf hci1 hci2 hq3
        · rw [← hchc]
          exact treeChildren_keys_nodup fuel b ci

theorem enumTree_complete : ∀ fuel : Nat, ∀ b L : GameBoard, Wf b →
    digitsOkB b = true → isCompletionB b L → unsetCount b < fuel →
    ∃ t, enumTreeF fuel b = some t ∧ L ∈ t.leafBoards := by
  intro fuel
  induction fuel with
  | zero =>
    intro b L _ _ _ hcount
    omega
  | succ fuel ih =>
    intro b L hwf hd hcomp hcount
    obtain ⟨hWL, hvL, hcL, hcells⟩ := hcomp
    cases hscan : firstUnsetScan b with
    | none =>
      have hall := firstUnsetScan_none hscan
      have hLb : L = b := by
        refine board_ext hWL hwf ?_
        intro p h1 h2
        exact (hcells p h1 h2).1 (hall p h1 h2)
      subst hLb
      have he : enumTreeF (fuel + 1) L = some (.Leaf L) := by
        rw [enumTreeF, hscan]
        simp only []
        rw [if_pos (by rw [Bool.and_eq_true]; exact ⟨hvL, hcL⟩)]
      refine ⟨.Leaf L, he, ?_⟩
      rw [NodeT.leafBoards]
      exact List.mem_singleton.mpr rfl
    | some ci =>
      obtain ⟨hci1, hci2, hciun⟩ := firstUnsetScan_some hscan
      obtain ⟨v, hLci, hv1, hv9⟩ := (hcells ci hci1 hci2).2 hciun
      have hwf' : Wf (b.updateCell ci (.Value v)) := wf_updateCell hwf ci _
      have hcv := fun (p : CellIndex) (h1 : p.1 < 9) (h2 : p.2 < 9) =>
        cell_value_updateCell hwf ci p hci2 h1 h2 (.Value v)
      have hcomp' : isCompletionB (b.updateCell ci (.Value v)) L := by
        refine ⟨hWL, hvL, hcL, ?_⟩
        intro p h1 h2
        by_cases hpci : p = ci
        · subst hpci
          rw [hcv p h1 h2, if_pos rfl]
          constructor
          · intro _
            exact hLci
          · intro habs
            exact Option.noConfusion habs
        · rw [hcv p h1 h2, if_neg hpci]
          exact hcells p h1 h2
      have hdL : digitsOkB L = true :=
        digitsOk_of_completion hd ⟨hWL, hvL, hcL, hcells⟩
      have hvb' : GameBoard.is_valid (b.updateCell ci (.Value v)) = true := by
        refine valid_of_pointwise_sub hdL hvL ?_
        intro p h1 h2
        by_cases hpci : p = ci
        · subst hpci
          right
          rw [hcv p h1 h2, if_pos rfl, hLci]
        · rw [hcv p h1 h2, if_neg hpci]
          cases hbp : (b.cell_value p).as_value with
          | none => exact Or.inl rfl
          | some w =>
            right
            rw [(hcells p h1 h2).1 (by rw [hbp]; rfl), hbp]
      have hdb' : digitsOkB (b.updateCell ci (.Value v)) = true :=
        digitsOk_updateCell hwf hd hci2 hv1 hv9
      have hcount' : unsetCount (b.updateCell ci (.Value v)) < fuel := by
        have := unsetCount_update hwf hci1 hci2 hciun v
        omega
      obtain ⟨ct, hct, hLct⟩ :=
        ih (b.updateCell ci (.Value v)) L hwf' hdb' hcomp' hcount'
      have hmem : ((v, ct) : Nat × NodeT)
          ∈ treeChildren fuel b ci (List.range' 1 9) := by
        refine mem_treeChildren.mpr ⟨?_, hvb', hct⟩
        rw [List.mem_range'_1]
        omega
      rcases hchc : treeChildren fuel b ci (List.range' 1 9) with _ | ⟨x, xs⟩
      · rw [hchc] at hmem
        cases hmem
      · have hchc2 := hchc
        unfold treeChildren at hchc2
        have he : enumTreeF (fuel + 1) b = some (.Branch b ci (x :: xs)) := by
          rw [enumTreeF, hscan]
          simp only []
          rw [hchc2]
        refine ⟨.Branch b ci (x :: xs), he, ?_⟩
        rw [NodeT.leafBoards]
        refine mem_leafBoardsList_iff.mpr ⟨(v, ct), ?_, hLct⟩
        rw [← hchc]
        exact hmem

theorem unsetCount_le (b : GameBoard) : unsetCount b < 82 := by
  have h := List.length_filter_le
    (fun p => ((b.cell_value p).as_value).isNone) rowMajorIndices
  have h81 : rowMajorIndices.length = 81 := rfl
  unfold unsetCount
  omega

/-- C2 (amended): the size budget of the Solutions Tree construction counts
every constructed node — branches as well as leaves — against
MAX_SOLUTIONS = 128, not just the solution leaves.  For a well-shaped input
board whose filled digits are in 1..=9, solve returns a tree exactly when
the full (unbounded) tree has fewer than 128 nodes; whenever the full tree
is returned, its leaf list is duplicate-free, consists of exactly the
completions of the input board, and num_solutions is its length. -/
theorem c2_amended (b : GameBoard) (hwf : Wf b) (hd : digitsOkB b = true) :
    (∀ t, SolutionsTree.solve b = some t ↔
        enumTreeF 82 b = some t ∧ t.size < MAX_SOLUTION_SIZE) ∧
    ∀ t, enumTreeF 82 b = some t →
      t.leafBoards.Nodup ∧
      (∀ L, L ∈ t.leafBoards ↔ isCompletionB b L) ∧
      SolutionsTree.num_solutions t = t.leafBoards.length := by
  refine ⟨fun t => solve_iff_enumTree b t, ?_⟩
  intro t ht
  refine ⟨enumTree_nodup 82 b hwf t ht, ?_, leaves_eq_length t⟩
  intro L
  constructor
  · exact enumTree_sound_completion hwf ht L
  · intro hcomp
    obtain ⟨t', ht', hL⟩ :=
      enumTree_complete 82 b L hwf hd hcomp (unsetCount_le b)
    rw [ht] at ht'
    injection ht' with h3
    rw [← h3] at hL
    exact hL

/-- Witness for c2_amended at the concrete board cexC7. -/
theorem c2_amended_witness :
    Wf cexC7 ∧ digitsOkB cexC7 = true ∧
    ((∀ t, SolutionsTree.solve cexC7 = some t ↔
        enumTreeF 82 cexC7 = some t ∧ t.size < MAX_SOLUTION_SIZE) ∧
    ∀ t, enumTreeF 82 cexC7 = some t →
      t.leafBoards.Nodup ∧
      (∀ L, L ∈ t.leafBoards ↔ isCompletionB cexC7 L) ∧
      SolutionsTree.num_solutions t = t.leafBoards.length) :=
  ⟨by decide, by rfl, c2_amended cexC7 (by decide) (by rfl)⟩

/-- C2 counterexample: the concrete board cexB has exactly 8 completions —
the enumerated leaf list of its full solutions tree has length 8, is
duplicate-free, and contains exactly the completions of cexB — and 8 is
far below MAX_SOLUTIONS = 128, yet SolutionsTree::solve returns none: the
shared counter counts every constructed node (branches as well as leaves),
the full tree for cexB has 133 nodes, and construction gives up when the
counter reaches 128.  This refutes both halves of the original claim: the
budget is not a leaf count, and a board with at most 128 completions is
not always fully enumerated. -/
theorem c2_counterexample :
    optLeaves (enumTreeF 82 cexB) = 8 ∧
    8 < MAX_SOLUTION_SIZE ∧
    (∀ L, L ∈ optLeafBoards (enumTreeF 82 cexB) ↔ isCompletionB cexB L) ∧
    (optLeafBoards (enumTreeF 82 cexB)).Nodup ∧
    SolutionsTree.solve cexB = none := by
  have hwf : Wf cexB := by decide
  have hd : digitsOkB cexB = true := by rfl
  have hv : GameBoard.is_valid cexB = true := by decide
  have hbridge : enumTreeF 82 cexB = enumFastF 82 cexB :=
    enumTree_eq_enumFast 82 cexB hwf hv hd
  have hleaves : optLeaves (enumFastF 82 cexB) = 8 := by rfl
  have hsize : optSize (enumFastF 82 cexB) = 133 := by rfl
  refine ⟨by rw [hbridge]; exact hleaves, by decide, ?_, ?_, ?_⟩
  · intro L
    cases het : enumTreeF 82 cexB with
    | none =>
      exfalso
      rw [het] at hbridge
      rw [← hbridge] at hsize
      simp only [optSize] at hsize
      omega
    | some t =>
      simp only [optLeafBoards]
      constructor
      · exact enumTree_sound_completion hwf het L
      · intro hcomp
        obtain ⟨t', ht', hL⟩ :=
          enumTree_complete 82 cexB L hwf hd hcomp (unsetCount_le cexB)
        rw [het] at ht'
        injection ht' with h3
        rw [← h3] at hL
        exact hL
  · cases het : enumTreeF 82 cexB with
    | none =>
      simp only [optLeafBoards]
      exact List.nodup_nil
    | some t =>
      simp only [optLeafBoards]
      exact enumTree_nodup 82 cexB hwf t het
  · refine solve_of_big ?_
    rw [hbridge, hsize]
    decide

end Sudoku
